import Mathlib

/-! # CPU scheduling simulator (`scheduler.c`): FCFS, non-preemptive SJF, Round Robin

A shallow embedding of `src/scheduler.c` and a verification of its schedule properties.

Conventions of the embedding.

* The program is embedded twice.  The definitions of the first part compute every C `int`
  as a mathematical integer (`Int`): they describe the runs in which no `int` computation
  leaves the range of the type, and carry the loop invariants.  The part
  `The program on 32-bit int` gives the functions again with the time computations reduced
  to 32-bit two's complement (`wrap32`), as the compiled program computes them; the names
  of these definitions end in `32`.  On a batch that satisfies `FitsInt` the two agree
  (`fcfs_schedule32_eq`, `sjf_schedule32_eq`, `rr_schedule32_eq`); a claim on the time
  stamps of arbitrary batches is stated on the 32-bit functions.
* The sentinel `INT_MAX` of `sjf_metrics` is kept as the constant it is.  The operator `%`
  of the ring buffer is only applied to non-negative operands, where C and `Int` agree.
* A C array is a `List`; `a[i]` is `List.getD a i default` and `a[i] = v` is `List.set a i v`.
* An index variable whose only non-index value is the sentinel `-1`
  (`shortest_index`, `current_running_process_idx`) is an `Option Nat`, `none` being `-1`.
  The array `actual_start_time` keeps the integer `-1` as its sentinel.
* A `while` loop is a function with a fuel argument returning `Option`: `none` means the
  fuel ran out before the loop condition became false.
* The `float` accumulators and averages of `calculate_metrics` are exact rationals; in the
  first part a quotient by `n = 0` is the `0` of the field `ℚ`, in the 32-bit part it is
  NaN (`calculate_metrics32`).
-/

namespace Scheduler

/-! ## Data model -/

/-- Modelled from the spec: the header `scheduler.h` declaring `Process` is not among the
sources; the four fields are those the spec lists and `scheduler.c` reads and writes. -/
structure Process where
  arrivalTime : Int
  burstTime : Int
  startTime : Int
  completionTime : Int
deriving DecidableEq, Inhabited

/-- Modelled from the spec: the header `scheduler.h` declaring `Metrics` is not among the
sources; three averages, initialised in this order in `calculate_metrics`. -/
structure Metrics where
  avgTurnaround : ℚ
  avgWaiting : ℚ
  avgResponse : ℚ
deriving DecidableEq

/-- Value of `INT_MAX` from `<limits.h>` for a 32-bit `int`. -/
def INT_MAX : Int := 2147483647

/-- A fresh input process: the caller supplies arrival and burst time. -/
def mkProc (arrival burst : Int) : Process :=
  { arrivalTime := arrival, burstTime := burst, startTime := 0, completionTime := 0 }

/-- Array read `proc[i]`. -/
def procAt (proc : List Process) (i : Nat) : Process := proc.getD i default

/-! ## `calculate_metrics` -/

/-- The accumulator `total_turnaround` after the loop of `calculate_metrics`. -/
def total_turnaround (proc : List Process) : Int :=
  (proc.map fun p => p.completionTime - p.arrivalTime).sum

/-- The accumulator `total_waiting` after the loop of `calculate_metrics`. -/
def total_waiting (proc : List Process) : Int :=
  (proc.map fun p => p.completionTime - p.arrivalTime - p.burstTime).sum

/-- The accumulator `total_response` after the loop of `calculate_metrics`. -/
def total_response (proc : List Process) : Int :=
  (proc.map fun p => p.startTime - p.arrivalTime).sum

/-- The function `calculate_metrics(proc, n)` with `n = proc.length`, on exact rationals
and for `n >= 1`; see `calculate_metrics32` for the differences taken on 32-bit `int` and
for `n = 0`. -/
def calculate_metrics (proc : List Process) : Metrics :=
  { avgTurnaround := (total_turnaround proc : ℚ) / (proc.length : ℚ)
    avgWaiting := (total_waiting proc : ℚ) / (proc.length : ℚ)
    avgResponse := (total_response proc : ℚ) / (proc.length : ℚ) }

/-! ## The exchange sort shared by `fcfs_metrics` and `sjf_metrics` -/

/-- The inner loop `for (j = 0; j < k; j++)` of the sort: `k` adjacent compare-and-swap
steps from the front of the array.  The head of the list is `proc[j]` as the previous
steps left it; the tail starts at `proc[j+1]`. -/
def bubblePass : Nat → List Process → List Process
  | k + 1, a :: b :: rest =>
    if a.arrivalTime > b.arrivalTime then b :: bubblePass k (a :: rest)
    else a :: bubblePass k (b :: rest)
  | _, l => l

/-- The outer loop `for (i = 0; i < n-1; i++)`, the inner bound being `n-i-1`. -/
def sortByArrival (proc : List Process) : List Process :=
  (List.range (proc.length - 1)).foldl
    (fun acc i => bubblePass (proc.length - i - 1) acc) proc

/-! ## `fcfs_metrics` -/

/-- The second loop of `fcfs_metrics`, from cursor value `currentTime` over the rest of the
array, the sum `currentTime + proc[i].burstTime` taken in the integers; see `fcfs_walk32`
for the 32-bit sum. -/
def fcfs_walk : Int → List Process → List Process
  | _, [] => []
  | currentTime, p :: rest =>
    let t := if currentTime < p.arrivalTime then p.arrivalTime else currentTime
    { p with startTime := t, completionTime := t + p.burstTime } ::
      fcfs_walk (t + p.burstTime) rest

/-- The process array as `fcfs_metrics` leaves it. -/
def fcfs_schedule (proc : List Process) : List Process :=
  fcfs_walk 0 (sortByArrival proc)

/-- The value returned by `fcfs_metrics`. -/
def fcfs_metrics (proc : List Process) : Metrics :=
  calculate_metrics (fcfs_schedule proc)

/-! ## `sjf_metrics` -/

/-- Local state of the `while` loop of `sjf_metrics`. -/
structure SjfState where
  proc : List Process
  completed_procs : List Bool
  currentTime : Int
  completed : Nat
deriving DecidableEq

/-- One iteration of the selection scan `for (i = 0; i < n; i++)`; the accumulator is
`(shortest_index, shortest_burst)`. -/
def sjf_scan_step (s : SjfState) (acc : Option Nat × Int) (i : Nat) : Option Nat × Int :=
  if s.completed_procs.getD i false = false ∧ (procAt s.proc i).arrivalTime ≤ s.currentTime ∧
      (procAt s.proc i).burstTime < acc.2 then
    (some i, (procAt s.proc i).burstTime)
  else acc

/-- The selection scan, started from `shortest_index = -1`, `shortest_burst = INT_MAX`. -/
def sjf_scan (s : SjfState) : Option Nat × Int :=
  (List.range s.proc.length).foldl (sjf_scan_step s) (none, INT_MAX)

/-- The body of the `while` loop of `sjf_metrics`, the sums taken in the integers; see
`sjf_step32` for the 32-bit sums. -/
def sjf_step (s : SjfState) : SjfState :=
  match (sjf_scan s).1 with
  | none => { s with currentTime := s.currentTime + 1 }
  | some k =>
    let p := procAt s.proc k
    { proc := s.proc.set k
        { p with startTime := s.currentTime, completionTime := s.currentTime + p.burstTime }
      completed_procs := s.completed_procs.set k true
      currentTime := s.currentTime + p.burstTime
      completed := s.completed + 1 }

/-- The loop `while (completed < n)` with a bound on the number of iterations. -/
def sjf_loop : Nat → SjfState → Option SjfState
  | 0, s => if s.completed < s.proc.length then none else some s
  | fuel + 1, s =>
    if s.completed < s.proc.length then sjf_loop fuel (sjf_step s) else some s

/-- State at the loop head of `sjf_metrics`, the array already sorted. -/
def sjf_init (proc : List Process) : SjfState :=
  { proc := proc
    completed_procs := List.replicate proc.length false
    currentTime := 0
    completed := 0 }

/-- The process array as `sjf_metrics` leaves it, when the loop ends within `fuel`
iterations. -/
def sjf_schedule (fuel : Nat) (proc : List Process) : Option (List Process) :=
  (sjf_loop fuel (sjf_init (sortByArrival proc))).map fun s => s.proc

/-- The value returned by `sjf_metrics`. -/
def sjf_metrics (fuel : Nat) (proc : List Process) : Option Metrics :=
  (sjf_schedule fuel proc).map calculate_metrics

/-! ## Invariant of the SJF loop -/

/-- What holds at the head of the `while` loop of `sjf_metrics` started on the array
`orig`: the arrays keep their size, arrival and burst times are untouched, `completed`
counts the flags set, and the processes flagged so far occupy disjoint slots of exactly
their burst length that end no later than the cursor, each chosen greedily. -/
structure SjfInv (orig : List Process) (s : SjfState) : Prop where
  len_proc : s.proc.length = orig.length
  len_flags : s.completed_procs.length = orig.length
  count_eq : s.completed = s.completed_procs.count true
  arrival_eq : ∀ i, (procAt s.proc i).arrivalTime = (procAt orig i).arrivalTime
  burst_eq : ∀ i, (procAt s.proc i).burstTime = (procAt orig i).burstTime
  slot : ∀ i, s.completed_procs.getD i false = true →
    (procAt s.proc i).arrivalTime ≤ (procAt s.proc i).startTime ∧
    (procAt s.proc i).completionTime = (procAt s.proc i).startTime + (procAt s.proc i).burstTime ∧
    (procAt s.proc i).completionTime ≤ s.currentTime
  disjoint : ∀ i j, i ≠ j → s.completed_procs.getD i false = true →
    s.completed_procs.getD j false = true →
    (procAt s.proc i).completionTime ≤ (procAt s.proc j).startTime ∨
    (procAt s.proc j).completionTime ≤ (procAt s.proc i).startTime
  greedy : ∀ i j, j < orig.length → s.completed_procs.getD i false = true →
    (s.completed_procs.getD j false = false ∨
      (procAt s.proc i).startTime < (procAt s.proc j).startTime) →
    (procAt s.proc j).arrivalTime ≤ (procAt s.proc i).startTime →
    (procAt s.proc i).burstTime ≤ (procAt s.proc j).burstTime ∧
    ((procAt s.proc i).burstTime = (procAt s.proc j).burstTime → i < j)

/-- A process the scan may select at the current cursor. -/
def sjfEligible (s : SjfState) (i : Nat) : Prop :=
  s.completed_procs.getD i false = false ∧ (procAt s.proc i).arrivalTime ≤ s.currentTime

/-- Loop invariant of the selection scan after the indices below `m`. -/
def SjfScanInv (s : SjfState) (m : Nat) (acc : Option Nat × Int) : Prop :=
  (acc.1 = none → acc.2 = INT_MAX ∧
      ∀ i, i < m → sjfEligible s i → INT_MAX ≤ (procAt s.proc i).burstTime) ∧
    (∀ k, acc.1 = some k → k < m ∧ sjfEligible s k ∧ acc.2 = (procAt s.proc k).burstTime ∧
      (procAt s.proc k).burstTime < INT_MAX ∧ ∀ j, j < m → sjfEligible s j →
        (procAt s.proc k).burstTime ≤ (procAt s.proc j).burstTime ∧
        ((procAt s.proc j).burstTime = (procAt s.proc k).burstTime → k ≤ j))

/-! ## Properties of a finished schedule -/

/-- The ordering `completionTime >= startTime >= arrivalTime` of one process. -/
def Ordered (p : Process) : Prop :=
  p.arrivalTime ≤ p.startTime ∧ p.startTime ≤ p.completionTime

/-- The CPU intervals `[startTime, completionTime)` of any two distinct entries of the
array do not overlap. -/
def NoOverlap (r : List Process) : Prop :=
  ∀ i j, i < r.length → j < r.length → i ≠ j →
    (procAt r i).completionTime ≤ (procAt r j).startTime ∨
    (procAt r j).completionTime ≤ (procAt r i).startTime

/-- Whenever entry `i` was dispatched before entry `j` although `j` had arrived, `i` has
the shorter burst, or an equal burst and the lower index. -/
def ShortestFirst (r : List Process) : Prop :=
  ∀ i j, i < r.length → j < r.length →
    (procAt r i).startTime < (procAt r j).startTime →
    (procAt r j).arrivalTime ≤ (procAt r i).startTime →
    (procAt r i).burstTime ≤ (procAt r j).burstTime ∧
    ((procAt r i).burstTime = (procAt r j).burstTime → i < j)

/-- The call `sjf_metrics(proc, n)` returns and leaves the array `r`: every sufficient
bound on the number of loop iterations gives `r`. -/
def SjfReturns (proc r : List Process) : Prop :=
  ∃ N, ∀ fuel, N ≤ fuel → sjf_schedule fuel proc = some r

/-- Sum over the array of `completionTime - startTime`. -/
def totalSlotLength (r : List Process) : Int :=
  (r.map fun p => p.completionTime - p.startTime).sum

/-- Sum over the array of the burst times. -/
def totalBurst (r : List Process) : Int :=
  (r.map fun p => p.burstTime).sum

/-! ## `isProcessActiveOrInQueue` and `rr_metrics` -/

/-- The function `isProcessActiveOrInQueue`: the process is the running one, or one of the
`queue_size` live slots of the ring buffer, read from `queue_front_true_idx` onwards
modulo `n_max_procs`, holds it. -/
def isProcessActiveOrInQueue (process_idx : Nat) (queue : List Nat)
    (queue_size queue_front_true_idx n_max_procs : Nat)
    (current_running_process_idx : Option Nat) : Bool :=
  if current_running_process_idx = some process_idx then true
  else (List.range queue_size).any fun i =>
    decide (queue.getD ((queue_front_true_idx + i) % n_max_procs) 0 = process_idx)

/-- Local state of `rr_metrics`.  The process count `n` is `proc.length`. -/
structure RrState where
  proc : List Process
  remaining_burst_time : List Int
  actual_start_time : List Int
  is_completed : List Bool
  ready_queue : List Nat
  queue_front_idx : Nat
  queue_rear_idx : Int
  processes_in_queue : Nat
  current_time : Int
  completed_processes_count : Nat
  current_running_process_idx : Option Nat
  current_quantum_slice_used : Int
deriving DecidableEq

/-- The three statements that append `idx` to the ring buffer:
`queue_rear_idx = (queue_rear_idx + 1) % n; ready_queue[queue_rear_idx] = idx;
processes_in_queue++`. -/
def rr_enqueue (s : RrState) (idx : Nat) : RrState :=
  { s with
    queue_rear_idx := (s.queue_rear_idx + 1) % (s.proc.length : Int)
    ready_queue :=
      s.ready_queue.set ((s.queue_rear_idx + 1) % (s.proc.length : Int)).toNat idx
    processes_in_queue := s.processes_in_queue + 1 }

/-- Body of the admission loop (step 1) for index `i`. -/
def rr_admission_step (s : RrState) (i : Nat) : RrState :=
  if s.is_completed.getD i false = false ∧
      (procAt s.proc i).arrivalTime = s.current_time then
    if isProcessActiveOrInQueue i s.ready_queue s.processes_in_queue s.queue_front_idx
        s.proc.length s.current_running_process_idx = false then
      rr_enqueue s i
    else s
  else s

/-- Step 1 of the tick: `for (i = 0; i < n; i++)` admission of the processes arriving
now. -/
def rr_admission (s : RrState) : RrState :=
  (List.range s.proc.length).foldl rr_admission_step s

/-- Step 2 of the tick: the running process, if any, consumes one time unit; it
completes, or is preempted at quantum expiry, or stays on the CPU. -/
def rr_execute (timeQuantum : Int) (s : RrState) : RrState :=
  match s.current_running_process_idx with
  | none => s
  | some idx =>
    let s1 : RrState :=
      { s with
        remaining_burst_time :=
          s.remaining_burst_time.set idx (s.remaining_burst_time.getD idx 0 - 1)
        current_quantum_slice_used := s.current_quantum_slice_used + 1 }
    if s1.remaining_burst_time.getD idx 0 = 0 then
      { s1 with
        proc := s1.proc.set idx
          { procAt s1.proc idx with
            completionTime := s1.current_time
            startTime := s1.actual_start_time.getD idx 0 }
        is_completed := s1.is_completed.set idx true
        completed_processes_count := s1.completed_processes_count + 1
        current_running_process_idx := none
        current_quantum_slice_used := 0 }
    else if s1.current_quantum_slice_used = timeQuantum then
      { rr_enqueue s1 idx with
        current_running_process_idx := none
        current_quantum_slice_used := 0 }
    else s1

/-- Step 3 of the tick: a free CPU takes the head of the ready queue. -/
def rr_dispatch (s : RrState) : RrState :=
  if s.current_running_process_idx = none ∧ 0 < s.processes_in_queue then
    let idx := s.ready_queue.getD s.queue_front_idx 0
    let s1 : RrState :=
      { s with
        current_running_process_idx := some idx
        queue_front_idx := (s.queue_front_idx + 1) % s.proc.length
        processes_in_queue := s.processes_in_queue - 1
        current_quantum_slice_used := 0 }
    if s1.actual_start_time.getD idx 0 = -1 then
      { s1 with actual_start_time := s1.actual_start_time.set idx s1.current_time }
    else s1
  else s

/-- Steps 1 to 3 of one iteration of the `while` loop. -/
def rr_tick (timeQuantum : Int) (s : RrState) : RrState :=
  rr_dispatch (rr_execute timeQuantum (rr_admission s))

/-- Step 4 when the loop goes on: `current_time++`, taken in the integers; see
`rr_advance32` for the 32-bit increment. -/
def rr_advance (s : RrState) : RrState :=
  { s with current_time := s.current_time + 1 }

/-- The loop `while (completed_processes_count < n)` with its `break`, bounded by a number
of iterations. -/
def rr_loop (timeQuantum : Int) : Nat → RrState → Option RrState
  | 0, s => if s.completed_processes_count < s.proc.length then none else some s
  | fuel + 1, s =>
    if s.completed_processes_count < s.proc.length then
      if (rr_tick timeQuantum s).completed_processes_count <
          (rr_tick timeQuantum s).proc.length then
        rr_loop timeQuantum fuel (rr_advance (rr_tick timeQuantum s))
      else some (rr_tick timeQuantum s)
    else some s

/-- State at the first test of the loop condition: the arrays initialised, the start and
completion fields of the input cleared, the queue empty, the CPU idle.  The slots of the
`malloc`ed `ready_queue` hold no defined value; the model fills them with `0`. -/
def rr_init (proc : List Process) : RrState :=
  { proc := proc.map fun p => { p with startTime := 0, completionTime := 0 }
    remaining_burst_time := proc.map fun p => p.burstTime
    actual_start_time := proc.map fun _ => -1
    is_completed := proc.map fun _ => false
    ready_queue := List.replicate proc.length 0
    queue_front_idx := 0
    queue_rear_idx := -1
    processes_in_queue := 0
    current_time := 0
    completed_processes_count := 0
    current_running_process_idx := none
    current_quantum_slice_used := 0 }

/-- Final local state of `rr_metrics` on a non-empty batch, when the loop ends within
`fuel` iterations. -/
def rr_final (timeQuantum : Int) (fuel : Nat) (proc : List Process) : Option RrState :=
  rr_loop timeQuantum fuel (rr_init proc)

/-- The process array as `rr_metrics` leaves it: untouched when `n == 0`. -/
def rr_schedule (timeQuantum : Int) (fuel : Nat) (proc : List Process) :
    Option (List Process) :=
  if proc.length = 0 then some proc
  else (rr_final timeQuantum fuel proc).map fun s => s.proc

/-- The value returned by `rr_metrics`. -/
def rr_metrics (timeQuantum : Int) (fuel : Nat) (proc : List Process) : Option Metrics :=
  if proc.length = 0 then some { avgTurnaround := 0, avgWaiting := 0, avgResponse := 0 }
  else (rr_final timeQuantum fuel proc).map fun s => calculate_metrics s.proc

/-- The `count` entries of the ring buffer `queue` of capacity `n`, read from index
`front` onwards, wrapping around. -/
def ringList (queue : List Nat) (front count n : Nat) : List Nat :=
  (List.range count).map fun i => queue.getD ((front + i) % n) 0

/-- The live entries of the ready queue, front first. -/
def queueList (s : RrState) : List Nat :=
  ringList s.ready_queue s.queue_front_idx s.processes_in_queue s.proc.length

/-! ## Invariants of the Round-Robin loop -/

/-- Shape of the ready queue and of the CPU slot: the arrays keep the size `n`, the ring
indices stay in range, the live entries are pairwise distinct indices of processes not
yet completed, the running process is such an index too and is not queued, and
`completed_processes_count` counts the flags set. -/
structure RrQInv (s : RrState) : Prop where
  n_pos : 0 < s.proc.length
  len_rem : s.remaining_burst_time.length = s.proc.length
  len_start : s.actual_start_time.length = s.proc.length
  len_done : s.is_completed.length = s.proc.length
  len_queue : s.ready_queue.length = s.proc.length
  front_lt : s.queue_front_idx < s.proc.length
  rear_rel : (s.queue_rear_idx + 1) % (s.proc.length : Int) =
    (((s.queue_front_idx + s.processes_in_queue) % s.proc.length : Nat) : Int)
  q_nodup : (queueList s).Nodup
  q_lt : ∀ x ∈ queueList s, x < s.proc.length
  q_live : ∀ x ∈ queueList s, s.is_completed.getD x false = false
  run_lt : ∀ x, s.current_running_process_idx = some x → x < s.proc.length
  run_live : ∀ x, s.current_running_process_idx = some x →
    s.is_completed.getD x false = false
  run_notin : ∀ x, s.current_running_process_idx = some x → x ∉ queueList s
  count_eq : s.completed_processes_count = s.is_completed.count true

/-- The fields that the admission step leaves alone. -/
structure RrFrame (s s' : RrState) : Prop where
  proc : s'.proc = s.proc
  remaining_burst_time : s'.remaining_burst_time = s.remaining_burst_time
  actual_start_time : s'.actual_start_time = s.actual_start_time
  is_completed : s'.is_completed = s.is_completed
  queue_front_idx : s'.queue_front_idx = s.queue_front_idx
  current_time : s'.current_time = s.current_time
  completed_processes_count : s'.completed_processes_count = s.completed_processes_count
  current_running_process_idx :
    s'.current_running_process_idx = s.current_running_process_idx
  current_quantum_slice_used : s'.current_quantum_slice_used = s.current_quantum_slice_used

/-- Whether step 1 enqueues index `i` when it meets the state `s`. -/
def rrAdmits (s : RrState) (i : Nat) : Prop :=
  s.is_completed.getD i false = false ∧ (procAt s.proc i).arrivalTime = s.current_time ∧
    s.current_running_process_idx ≠ some i ∧ i ∉ queueList s

instance (s : RrState) (i : Nat) : Decidable (rrAdmits s i) := by
  unfold rrAdmits
  infer_instance

/-- Time-independent part of the loop invariant of `rr_metrics` run on the batch `orig`
with quantum `timeQuantum`: the queue invariant; arrival and burst times are those of the
input; a process not completed has burst left, a completed one has none; the running
process has been dispatched before; a recorded first dispatch is not before the arrival; a
completed process carries its first dispatch as start time, strictly before its completion
time; the slice counter is below the quantum. -/
structure RrCore (orig : List Process) (timeQuantum : Int) (s : RrState) : Prop where
  q : RrQInv s
  len_proc : s.proc.length = orig.length
  arrival_eq : ∀ i, (procAt s.proc i).arrivalTime = (procAt orig i).arrivalTime
  burst_eq : ∀ i, (procAt s.proc i).burstTime = (procAt orig i).burstTime
  time_nonneg : 0 ≤ s.current_time
  rem_pos : ∀ i, i < s.proc.length → s.is_completed.getD i false = false →
    1 ≤ s.remaining_burst_time.getD i 0
  rem_zero : ∀ i, i < s.proc.length → s.is_completed.getD i false = true →
    s.remaining_burst_time.getD i 0 = 0
  run_started : ∀ x, s.current_running_process_idx = some x →
    s.actual_start_time.getD x 0 ≠ -1
  started_arr : ∀ i, i < s.proc.length → s.actual_start_time.getD i 0 ≠ -1 →
    (procAt s.proc i).arrivalTime ≤ s.actual_start_time.getD i 0
  done_times : ∀ i, i < s.proc.length → s.is_completed.getD i false = true →
    (procAt s.proc i).startTime = s.actual_start_time.getD i 0 ∧
    s.actual_start_time.getD i 0 ≠ -1 ∧
    (procAt s.proc i).startTime < (procAt s.proc i).completionTime
  slice : 0 ≤ s.current_quantum_slice_used ∧ s.current_quantum_slice_used < timeQuantum

/-- Time-dependent part of the loop invariant: every process that arrived by time `τ` and
is not completed is queued or running, a process arriving after `τ` is untouched, and no
first dispatch is recorded later than `σ`. -/
structure RrTimed (τ σ : Int) (s : RrState) : Prop where
  waiting : ∀ i, i < s.proc.length → s.is_completed.getD i false = false →
    (procAt s.proc i).arrivalTime ≤ τ →
    i ∈ queueList s ∨ s.current_running_process_idx = some i
  future : ∀ i, i < s.proc.length → τ < (procAt s.proc i).arrivalTime →
    i ∉ queueList s ∧ s.current_running_process_idx ≠ some i ∧
    s.is_completed.getD i false = false ∧ s.actual_start_time.getD i 0 = -1
  started_le : ∀ i, i < s.proc.length → s.actual_start_time.getD i 0 ≠ -1 →
    s.actual_start_time.getD i 0 ≤ σ

/-- The invariant at the head of the `while` loop of `rr_metrics`: admission and dispatch
are complete for all times before `current_time`, and the CPU is idle only when the queue
is empty. -/
structure RrInv (orig : List Process) (timeQuantum : Int) (s : RrState) : Prop where
  core : RrCore orig timeQuantum s
  timed : RrTimed (s.current_time - 1) (s.current_time - 1) s
  idle_empty : s.current_running_process_idx = none → s.processes_in_queue = 0

/-- The state at the head of iteration `k` of the loop (counted from `0`) started in `s`,
or the last loop head when the loop ends earlier. -/
def rr_run (timeQuantum : Int) : Nat → RrState → RrState
  | 0, s => s
  | k + 1, s =>
    if s.completed_processes_count < s.proc.length ∧
        (rr_tick timeQuantum s).completed_processes_count <
          (rr_tick timeQuantum s).proc.length then
      rr_run timeQuantum k (rr_advance (rr_tick timeQuantum s))
    else s

/-- The loop of `rr_metrics` on the non-empty batch `proc` ends, in the state `r`: every
sufficient bound on the number of iterations gives `r`. -/
def RrReturns (timeQuantum : Int) (proc : List Process) (r : RrState) : Prop :=
  ∃ N, ∀ fuel, N ≤ fuel → rr_final timeQuantum fuel proc = some r

/-- Bound on the number of iterations left: the burst still to run plus the time until the
arrival bound `M` has passed. -/
def rrMeasure (M : Int) (s : RrState) : Nat :=
  s.remaining_burst_time.sum.toNat + (M + 1 - s.current_time).toNat

/-- The call `rr_metrics(proc, n, timeQuantum)` returns and leaves the array `r`: every
sufficient bound on the number of loop iterations gives `r`. -/
def RrSchedules (timeQuantum : Int) (proc r : List Process) : Prop :=
  ∃ N, ∀ fuel, N ≤ fuel → rr_schedule timeQuantum fuel proc = some r

/-! ## Properties of the exchange sort -/

/-- The array is in ascending (non-decreasing) order of arrival time. -/
def SortedByArrival (l : List Process) : Prop :=
  l.Pairwise fun a b => a.arrivalTime ≤ b.arrivalTime

/-- The entries of the array whose arrival time is `a`, in array order. -/
def arrivingAt (a : Int) (l : List Process) : List Process :=
  l.filter fun p => decide (p.arrivalTime = a)

/-- In the array `before` of pairwise different entries `p` stands before `q`, the two have
the same arrival time, and in the array `after` `q` stands before `p`. -/
def ReversesTie (before after : List Process) (p q : Process) : Prop :=
  before.Nodup ∧ p ≠ q ∧ p.arrivalTime = q.arrivalTime ∧
    List.Sublist [p, q] before ∧ List.Sublist [q, p] after

/-! ## Queue safety of Round Robin, for any batch -/

/-- The part of the loop invariant of `rr_metrics` that needs no assumption on the arrival
and burst times: the queue invariant, and a process whose arrival time lies after `τ` is
neither queued nor running. -/
structure RrSafe (τ : Int) (s : RrState) : Prop where
  q : RrQInv s
  not_yet : ∀ i, i < s.proc.length → τ < (procAt s.proc i).arrivalTime →
    i ∉ queueList s ∧ s.current_running_process_idx ≠ some i

/-- The state that the admission loop of step 1 has reached when it comes to index `i`. -/
def rr_admission_upto (s : RrState) (i : Nat) : RrState :=
  (List.range i).foldl rr_admission_step s

/-! ## `rr_metrics` with the admission guard removed -/

/-- Body of the admission loop without the call of `isProcessActiveOrInQueue`: every
process not completed whose arrival time is the current time is enqueued. -/
def rr_admission_step_unguarded (s : RrState) (i : Nat) : RrState :=
  if s.is_completed.getD i false = false ∧
      (procAt s.proc i).arrivalTime = s.current_time then
    rr_enqueue s i
  else s

/-- Step 1 without the guard. -/
def rr_admission_unguarded (s : RrState) : RrState :=
  (List.range s.proc.length).foldl rr_admission_step_unguarded s

/-- Steps 1 to 3 without the guard. -/
def rr_tick_unguarded (timeQuantum : Int) (s : RrState) : RrState :=
  rr_dispatch (rr_execute timeQuantum (rr_admission_unguarded s))

/-- The loop of `rr_metrics` without the guard. -/
def rr_loop_unguarded (timeQuantum : Int) : Nat → RrState → Option RrState
  | 0, s => if s.completed_processes_count < s.proc.length then none else some s
  | fuel + 1, s =>
    if s.completed_processes_count < s.proc.length then
      if (rr_tick_unguarded timeQuantum s).completed_processes_count <
          (rr_tick_unguarded timeQuantum s).proc.length then
        rr_loop_unguarded timeQuantum fuel (rr_advance (rr_tick_unguarded timeQuantum s))
      else some (rr_tick_unguarded timeQuantum s)
    else some s

/-- The process array that `rr_metrics` without the guard leaves. -/
def rr_schedule_unguarded (timeQuantum : Int) (fuel : Nat) (proc : List Process) :
    Option (List Process) :=
  if proc.length = 0 then some proc
  else (rr_loop_unguarded timeQuantum fuel (rr_init proc)).map fun s => s.proc

/-- The value that `rr_metrics` without the guard returns. -/
def rr_metrics_unguarded (timeQuantum : Int) (fuel : Nat) (proc : List Process) :
    Option Metrics :=
  if proc.length = 0 then some { avgTurnaround := 0, avgWaiting := 0, avgResponse := 0 }
  else (rr_loop_unguarded timeQuantum fuel (rr_init proc)).map
    fun s => calculate_metrics s.proc

/-! ## Elapsed time and first-dispatch order in Round Robin -/

/-- Between its first dispatch and time `τ` a process has run at most `τ` minus the first
dispatch time: an untouched process has its whole burst left, a dispatched one has
consumed at most the time elapsed, and a completed one spans at least its burst. -/
structure RrElapsed (τ : Int) (s : RrState) : Prop where
  fresh : ∀ i, i < s.proc.length → s.actual_start_time.getD i 0 = -1 →
    s.remaining_burst_time.getD i 0 = (procAt s.proc i).burstTime
  elapsed : ∀ i, i < s.proc.length → s.actual_start_time.getD i 0 ≠ -1 →
    (procAt s.proc i).burstTime - s.remaining_burst_time.getD i 0 ≤
      τ - s.actual_start_time.getD i 0
  done_span : ∀ i, i < s.proc.length → s.is_completed.getD i false = true →
    (procAt s.proc i).startTime + (procAt s.proc i).burstTime ≤
      (procAt s.proc i).completionTime

/-- Process `i` comes before process `j` in arrival order, ties broken by array index. -/
def arrivesBefore (proc : List Process) (i j : Nat) : Prop :=
  (procAt proc i).arrivalTime < (procAt proc j).arrivalTime ∨
    ((procAt proc i).arrivalTime = (procAt proc j).arrivalTime ∧ i < j)

/-- First dispatches follow the arrival order: a process that has been dispatched was
dispatched after every process that comes before it, and the processes in the queue that
have never been dispatched stand in arrival order. -/
structure RrOrder (s : RrState) : Prop where
  started_order : ∀ i j, i < s.proc.length → j < s.proc.length → arrivesBefore s.proc i j →
    s.actual_start_time.getD j 0 ≠ -1 →
    s.actual_start_time.getD i 0 ≠ -1 ∧
      s.actual_start_time.getD i 0 < s.actual_start_time.getD j 0
  queue_order : (queueList s).Pairwise fun x y =>
    s.actual_start_time.getD x 0 = -1 → s.actual_start_time.getD y 0 = -1 →
      arrivesBefore s.proc x y

/-! ## The SJF loop without the pre-sort -/

/-- The process array that the loop of `sjf_metrics` leaves when it is run on the batch as
given, without the arrival-time sort. -/
def sjf_schedule_unsorted (fuel : Nat) (proc : List Process) : Option (List Process) :=
  (sjf_loop fuel (sjf_init proc)).map fun s => s.proc

/-- The metrics of `sjf_schedule_unsorted`. -/
def sjf_metrics_unsorted (fuel : Nat) (proc : List Process) : Option Metrics :=
  (sjf_schedule_unsorted fuel proc).map calculate_metrics

/-- The processes not yet completed, as pairs of arrival time and burst time, the arrival
time being raised to the cursor `t` when it lies before it. -/
def sjfPending (t : Int) : List Process → List Bool → List (Int × Int)
  | p :: ps, f :: fs =>
    if f = true then sjfPending t ps fs
    else (max p.arrivalTime t, p.burstTime) :: sjfPending t ps fs
  | _, _ => []

/-- Sum of the start times of the processes completed so far. -/
def sjfDoneStart : List Process → List Bool → Int
  | p :: ps, f :: fs => (if f = true then p.startTime else 0) + sjfDoneStart ps fs
  | _, _ => 0

/-- Sum of the completion times of the processes completed so far. -/
def sjfDoneCompletion : List Process → List Bool → Int
  | p :: ps, f :: fs => (if f = true then p.completionTime else 0) + sjfDoneCompletion ps fs
  | _, _ => 0

/-- Two states of the SJF loop that cannot be told apart by the rest of the run nor by the
totals of the metrics: same cursor, same number of processes and of completed ones, the
same pending work up to order, the same sums of start and of completion times so far. -/
structure SjfSim (s₁ s₂ : SjfState) : Prop where
  time_eq : s₁.currentTime = s₂.currentTime
  len_eq : s₁.proc.length = s₂.proc.length
  completed_eq : s₁.completed = s₂.completed
  pending_perm : (sjfPending s₁.currentTime s₁.proc s₁.completed_procs).Perm
    (sjfPending s₂.currentTime s₂.proc s₂.completed_procs)
  start_eq : sjfDoneStart s₁.proc s₁.completed_procs =
    sjfDoneStart s₂.proc s₂.completed_procs
  completion_eq : sjfDoneCompletion s₁.proc s₁.completed_procs =
    sjfDoneCompletion s₂.proc s₂.completed_procs

/-- Two runs end alike: neither returns within the bound, or both return arrays of the
same length with the same total turnaround, waiting and response time. -/
def SameTotals (u r : Option (List Process)) : Prop :=
  match u, r with
  | none, none => True
  | some a, some b =>
    a.length = b.length ∧ total_turnaround a = total_turnaround b ∧
      total_waiting a = total_waiting b ∧ total_response a = total_response b
  | _, _ => False

/-! ## The program on 32-bit `int`

The definitions above compute in the integers, where a sum never leaves the range of the
type.  The definitions of this section are the same statements with every `int` addition
and subtraction that can leave the range reduced to the 32-bit two's complement range, as
the compiled program computes it: the cursor and the completion stamp of `fcfs_metrics`
and of `sjf_metrics`, `current_time++` in `rr_metrics`, and the three differences formed
in `calculate_metrics`.  In `rr_metrics` the counters `remaining_burst_time[idx]--`,
`current_quantum_slice_used++` and `processes_in_queue++` are left as they are: a running
process has at least one unit of burst left, the slice counter is reset when it reaches
`timeQuantum`, and the queue holds at most `n` entries.  Everything else (the sort, the
selection scan, the ready queue, the admission guard, steps 1 to 3 of the tick) does no
arithmetic on times and is shared with the definitions above. -/

/-- Value of `INT_MIN` from `<limits.h>` for a 32-bit `int`. -/
def INT_MIN : Int := -2147483648

/-- The value that a 32-bit two's complement `int` holds after a computation whose exact
result is `x`: the representative of `x` modulo `2^32` in `[-2^31, 2^31)`. -/
def wrap32 (x : Int) : Int := (x + 2147483648) % 4294967296 - 2147483648

/-- No time stamp of a run on the batch can leave the range of `int`: the sum of all burst
times, and every arrival time plus that sum, is at most `INT_MAX`. -/
def FitsInt (proc : List Process) : Prop :=
  totalBurst proc ≤ INT_MAX ∧ ∀ p ∈ proc, p.arrivalTime + totalBurst proc ≤ INT_MAX

instance (proc : List Process) : Decidable (FitsInt proc) := by
  unfold FitsInt
  infer_instance

/-! ### `calculate_metrics` -/

/-- Modelled from the spec: the header `scheduler.h` declaring `Metrics` is not among the
sources.  The three `float` averages, `none` standing for the value that is not a number
(NaN); a number is kept as an exact rational. -/
structure Metrics32 where
  avgTurnaround : Option ℚ
  avgWaiting : Option ℚ
  avgResponse : Option ℚ
deriving DecidableEq

/-- The local `int turnaround = proc[i].completionTime - proc[i].arrivalTime`. -/
def turnaround32 (p : Process) : Int := wrap32 (p.completionTime - p.arrivalTime)

/-- The local `int waiting = turnaround - proc[i].burstTime`. -/
def waiting32 (p : Process) : Int := wrap32 (turnaround32 p - p.burstTime)

/-- The local `int response = proc[i].startTime - proc[i].arrivalTime`. -/
def response32 (p : Process) : Int := wrap32 (p.startTime - p.arrivalTime)

/-- The accumulator `total_turnaround` after the loop of `calculate_metrics`. -/
def total_turnaround32 (proc : List Process) : Int := (proc.map turnaround32).sum

/-- The accumulator `total_waiting` after the loop of `calculate_metrics`. -/
def total_waiting32 (proc : List Process) : Int := (proc.map waiting32).sum

/-- The accumulator `total_response` after the loop of `calculate_metrics`. -/
def total_response32 (proc : List Process) : Int := (proc.map response32).sum

/-- The function `calculate_metrics(proc, n)` with `n = proc.length`.  For `n = 0` the
loop body never runs, the three accumulators are `0.0f`, and each quotient `0.0f / 0` is
NaN. -/
def calculate_metrics32 (proc : List Process) : Metrics32 :=
  if proc.length = 0 then { avgTurnaround := none, avgWaiting := none, avgResponse := none }
  else
    { avgTurnaround := some ((total_turnaround32 proc : ℚ) / (proc.length : ℚ))
      avgWaiting := some ((total_waiting32 proc : ℚ) / (proc.length : ℚ))
      avgResponse := some ((total_response32 proc : ℚ) / (proc.length : ℚ)) }

/-! ### `fcfs_metrics` -/

/-- The second loop of `fcfs_metrics`, from cursor value `currentTime` over the rest of the
array; `currentTime + proc[i].burstTime` is a 32-bit sum. -/
def fcfs_walk32 : Int → List Process → List Process
  | _, [] => []
  | currentTime, p :: rest =>
    let t := if currentTime < p.arrivalTime then p.arrivalTime else currentTime
    { p with startTime := t, completionTime := wrap32 (t + p.burstTime) } ::
      fcfs_walk32 (wrap32 (t + p.burstTime)) rest

/-- The process array as `fcfs_metrics` leaves it. -/
def fcfs_schedule32 (proc : List Process) : List Process :=
  fcfs_walk32 0 (sortByArrival proc)

/-- The value returned by `fcfs_metrics`. -/
def fcfs_metrics32 (proc : List Process) : Metrics32 :=
  calculate_metrics32 (fcfs_schedule32 proc)

/-! ### `sjf_metrics` -/

/-- The body of the `while` loop of `sjf_metrics`; `currentTime++` and
`currentTime + proc[shortest_index].burstTime` are 32-bit sums. -/
def sjf_step32 (s : SjfState) : SjfState :=
  match (sjf_scan s).1 with
  | none => { s with currentTime := wrap32 (s.currentTime + 1) }
  | some k =>
    let p := procAt s.proc k
    { proc := s.proc.set k
        { p with
          startTime := s.currentTime
          completionTime := wrap32 (s.currentTime + p.burstTime) }
      completed_procs := s.completed_procs.set k true
      currentTime := wrap32 (s.currentTime + p.burstTime)
      completed := s.completed + 1 }

/-- The loop `while (completed < n)` with a bound on the number of iterations. -/
def sjf_loop32 : Nat → SjfState → Option SjfState
  | 0, s => if s.completed < s.proc.length then none else some s
  | fuel + 1, s =>
    if s.completed < s.proc.length then sjf_loop32 fuel (sjf_step32 s) else some s

/-- The process array as `sjf_metrics` leaves it, when the loop ends within `fuel`
iterations. -/
def sjf_schedule32 (fuel : Nat) (proc : List Process) : Option (List Process) :=
  (sjf_loop32 fuel (sjf_init (sortByArrival proc))).map fun s => s.proc

/-- The value returned by `sjf_metrics`. -/
def sjf_metrics32 (fuel : Nat) (proc : List Process) : Option Metrics32 :=
  (sjf_schedule32 fuel proc).map calculate_metrics32

/-- The call `sjf_metrics(proc, n)` returns and leaves the array `r`: every sufficient
bound on the number of loop iterations gives `r`. -/
def SjfReturns32 (proc r : List Process) : Prop :=
  ∃ N, ∀ fuel, N ≤ fuel → sjf_schedule32 fuel proc = some r

/-- The process array that the loop of `sjf_metrics` leaves when it is run on the batch as
given, without the arrival-time sort. -/
def sjf_schedule_unsorted32 (fuel : Nat) (proc : List Process) : Option (List Process) :=
  (sjf_loop32 fuel (sjf_init proc)).map fun s => s.proc

/-- The metrics of `sjf_schedule_unsorted32`. -/
def sjf_metrics_unsorted32 (fuel : Nat) (proc : List Process) : Option Metrics32 :=
  (sjf_schedule_unsorted32 fuel proc).map calculate_metrics32

/-- The loop of `sjf_metrics` without the pre-sort returns and leaves the array `r`. -/
def SjfUnsortedReturns32 (proc r : List Process) : Prop :=
  ∃ N, ∀ fuel, N ≤ fuel → sjf_schedule_unsorted32 fuel proc = some r

/-! ### `rr_metrics` -/

/-- Step 4 when the loop goes on: `current_time++` on a 32-bit `int`. -/
def rr_advance32 (s : RrState) : RrState :=
  { s with current_time := wrap32 (s.current_time + 1) }

/-- The loop `while (completed_processes_count < n)` with its `break`, bounded by a number
of iterations. -/
def rr_loop32 (timeQuantum : Int) : Nat → RrState → Option RrState
  | 0, s => if s.completed_processes_count < s.proc.length then none else some s
  | fuel + 1, s =>
    if s.completed_processes_count < s.proc.length then
      if (rr_tick timeQuantum s).completed_processes_count <
          (rr_tick timeQuantum s).proc.length then
        rr_loop32 timeQuantum fuel (rr_advance32 (rr_tick timeQuantum s))
      else some (rr_tick timeQuantum s)
    else some s

/-- Final local state of `rr_metrics` on a non-empty batch, when the loop ends within
`fuel` iterations. -/
def rr_final32 (timeQuantum : Int) (fuel : Nat) (proc : List Process) : Option RrState :=
  rr_loop32 timeQuantum fuel (rr_init proc)

/-- The process array as `rr_metrics` leaves it: untouched when `n == 0`. -/
def rr_schedule32 (timeQuantum : Int) (fuel : Nat) (proc : List Process) :
    Option (List Process) :=
  if proc.length = 0 then some proc
  else (rr_final32 timeQuantum fuel proc).map fun s => s.proc

/-- The value returned by `rr_metrics`: the literal `{0.0f, 0.0f, 0.0f}` of the early
return when `n == 0`, the value of `calculate_metrics` otherwise. -/
def rr_metrics32 (timeQuantum : Int) (fuel : Nat) (proc : List Process) :
    Option Metrics32 :=
  if proc.length = 0 then
    some { avgTurnaround := some 0, avgWaiting := some 0, avgResponse := some 0 }
  else (rr_final32 timeQuantum fuel proc).map fun s => calculate_metrics32 s.proc

/-- The state at the head of iteration `k` of the loop (counted from `0`) started in `s`,
or the last loop head when the loop ends earlier. -/
def rr_run32 (timeQuantum : Int) : Nat → RrState → RrState
  | 0, s => s
  | k + 1, s =>
    if s.completed_processes_count < s.proc.length ∧
        (rr_tick timeQuantum s).completed_processes_count <
          (rr_tick timeQuantum s).proc.length then
      rr_run32 timeQuantum k (rr_advance32 (rr_tick timeQuantum s))
    else s

/-- The loop of `rr_metrics` on the non-empty batch `proc` ends, in the state `r`: every
sufficient bound on the number of iterations gives `r`. -/
def RrReturns32 (timeQuantum : Int) (proc : List Process) (r : RrState) : Prop :=
  ∃ N, ∀ fuel, N ≤ fuel → rr_final32 timeQuantum fuel proc = some r

/-- The call `rr_metrics(proc, n, timeQuantum)` returns and leaves the array `r`: every
sufficient bound on the number of loop iterations gives `r`. -/
def RrSchedules32 (timeQuantum : Int) (proc r : List Process) : Prop :=
  ∃ N, ∀ fuel, N ≤ fuel → rr_schedule32 timeQuantum fuel proc = some r

/-- The loop of `rr_metrics` without the admission guard. -/
def rr_loop_unguarded32 (timeQuantum : Int) : Nat → RrState → Option RrState
  | 0, s => if s.completed_processes_count < s.proc.length then none else some s
  | fuel + 1, s =>
    if s.completed_processes_count < s.proc.length then
      if (rr_tick_unguarded timeQuantum s).completed_processes_count <
          (rr_tick_unguarded timeQuantum s).proc.length then
        rr_loop_unguarded32 timeQuantum fuel
          (rr_advance32 (rr_tick_unguarded timeQuantum s))
      else some (rr_tick_unguarded timeQuantum s)
    else some s

/-- The process array that `rr_metrics` without the guard leaves. -/
def rr_schedule_unguarded32 (timeQuantum : Int) (fuel : Nat) (proc : List Process) :
    Option (List Process) :=
  if proc.length = 0 then some proc
  else (rr_loop_unguarded32 timeQuantum fuel (rr_init proc)).map fun s => s.proc

/-- The value that `rr_metrics` without the guard returns. -/
def rr_metrics_unguarded32 (timeQuantum : Int) (fuel : Nat) (proc : List Process) :
    Option Metrics32 :=
  if proc.length = 0 then
    some { avgTurnaround := some 0, avgWaiting := some 0, avgResponse := some 0 }
  else (rr_loop_unguarded32 timeQuantum fuel (rr_init proc)).map
    fun s => calculate_metrics32 s.proc

/-! ### Relating the two computations -/

/-- A state `w` of the 32-bit run and a state `s` of the run in the integers that take the
same decisions: they agree on everything that steps 1 to 3 read, and the clock of `w` is
the clock of `s` reduced to 32 bits.  The start and completion stamps are not compared. -/
structure RrSameControl (s w : RrState) : Prop where
  len : w.proc.length = s.proc.length
  arrival : ∀ i, (procAt w.proc i).arrivalTime = (procAt s.proc i).arrivalTime
  rem : w.remaining_burst_time = s.remaining_burst_time
  done : w.is_completed = s.is_completed
  queue : w.ready_queue = s.ready_queue
  front : w.queue_front_idx = s.queue_front_idx
  rear : w.queue_rear_idx = s.queue_rear_idx
  cnt : w.processes_in_queue = s.processes_in_queue
  cc : w.completed_processes_count = s.completed_processes_count
  run : w.current_running_process_idx = s.current_running_process_idx
  slice : w.current_quantum_slice_used = s.current_quantum_slice_used
  start_len : w.actual_start_time.length = s.actual_start_time.length
  time : w.current_time = wrap32 s.current_time

/-- The burst still to be served in the SJF loop. -/
def sjfPendingBurst (s : SjfState) : Int :=
  ((sjfPending s.currentTime s.proc s.completed_procs).map Prod.snd).sum

/-- The cursor of the SJF loop run on `orig` is within the range of `int` and will stay
so: it is not negative, and the cursor plus the burst still to be served is at most
`INT_MAX`. -/
structure SjfFits (orig : List Process) (s : SjfState) : Prop where
  time_nonneg : 0 ≤ s.currentTime
  pending_le : sjfPendingBurst s ≤ totalBurst orig
  bound : s.currentTime + sjfPendingBurst s ≤ INT_MAX

/-- The clock of the Round-Robin loop run on `orig` will stay within the range of `int`:
the clock plus the burst still to be served is at most `INT_MAX + 1`. -/
structure RrFits (orig : List Process) (s : RrState) : Prop where
  rem_le : s.remaining_burst_time.sum ≤ totalBurst orig
  bound : s.current_time + s.remaining_burst_time.sum ≤ INT_MAX + 1

/-! # Theorems -/

/-! ## Array lemmas -/

theorem getD_set {α : Type} (l : List α) (k i : Nat) (v d : α) :
    (l.set k v).getD i d = if k = i ∧ k < l.length then v else l.getD i d := by
  simp only [List.getD_eq_getElem?_getD, List.getElem?_set]
  by_cases h : k = i
  · subst h
    by_cases hk : k < l.length
    · simp [hk]
    · simp [hk, List.getElem?_eq_none (not_lt.mp hk)]
  · simp [h]

theorem procAt_set (l : List Process) (k i : Nat) (v : Process) :
    procAt (l.set k v) i = if k = i ∧ k < l.length then v else procAt l i := by
  unfold procAt
  exact getD_set l k i v default

theorem procAt_mem (l : List Process) (i : Nat) (h : i < l.length) : procAt l i ∈ l := by
  unfold procAt
  rw [List.getD_eq_getElem?_getD, List.getElem?_eq_getElem h]
  exact List.getElem_mem h

theorem mem_procAt (l : List Process) (p : Process) (h : p ∈ l) :
    ∃ i, i < l.length ∧ procAt l i = p := by
  obtain ⟨i, hi, rfl⟩ := List.mem_iff_getElem.mp h
  refine ⟨i, hi, ?_⟩
  unfold procAt
  rw [List.getD_eq_getElem?_getD, List.getElem?_eq_getElem hi]
  rfl

theorem count_true_set (l : List Bool) (k : Nat) (hk : k < l.length)
    (hf : l.getD k false = false) :
    (l.set k true).count true = l.count true + 1 := by
  rw [List.count_set true true l k hk]
  have : l[k] = false := by
    rw [List.getD_eq_getElem?_getD, List.getElem?_eq_getElem hk] at hf
    simpa using hf
  simp [this]

theorem all_true_of_count (l : List Bool) (h : l.count true = l.length) (i : Nat)
    (hi : i < l.length) : l.getD i false = true := by
  rw [List.getD_eq_getElem?_getD, List.getElem?_eq_getElem hi]
  have := (List.count_eq_length.mp h) l[i] (List.getElem_mem hi)
  simp [← this]

/-! ## The exchange sort permutes the array -/

theorem bubblePass_perm (k : Nat) (l : List Process) : (bubblePass k l).Perm l := by
  induction k generalizing l with
  | zero => unfold bubblePass; exact List.Perm.refl _
  | succ k ih =>
    match l with
    | [] => unfold bubblePass; exact List.Perm.refl _
    | [a] => unfold bubblePass; exact List.Perm.refl _
    | a :: b :: rest =>
      unfold bubblePass
      split
      · exact ((ih (a :: rest)).cons b).trans (List.Perm.swap a b rest)
      · exact (ih (b :: rest)).cons a

theorem foldl_bubblePass_perm (n : Nat) (is : List Nat) (l : List Process) :
    (is.foldl (fun acc i => bubblePass (n - i - 1) acc) l).Perm l := by
  induction is generalizing l with
  | nil => exact List.Perm.refl _
  | cons i is ih =>
    rw [List.foldl_cons]
    exact (ih _).trans (bubblePass_perm _ l)

theorem sortByArrival_perm (proc : List Process) : (sortByArrival proc).Perm proc :=
  foldl_bubblePass_perm proc.length _ proc

theorem sortByArrival_length (proc : List Process) :
    (sortByArrival proc).length = proc.length :=
  (sortByArrival_perm proc).length_eq

theorem sortByArrival_mem (proc : List Process) (p : Process) :
    p ∈ sortByArrival proc ↔ p ∈ proc :=
  (sortByArrival_perm proc).mem_iff

/-! ## The FCFS walk -/

theorem fcfs_walk_length (t : Int) (l : List Process) : (fcfs_walk t l).length = l.length := by
  induction l generalizing t with
  | nil => rfl
  | cons p rest ih => simp [fcfs_walk, ih]

/-- Every slot written by the walk starts no earlier than the cursor and the arrival, and
lasts exactly the burst time; arrival and burst are those of the input at that index. -/
theorem fcfs_walk_spec (t : Int) (l : List Process) (hb : ∀ p ∈ l, 0 ≤ p.burstTime) :
    (∀ q ∈ fcfs_walk t l, t ≤ q.startTime ∧ q.arrivalTime ≤ q.startTime ∧
        q.completionTime = q.startTime + q.burstTime) ∧
      (fcfs_walk t l).Pairwise (fun p q => p.completionTime ≤ q.startTime) ∧
      (fcfs_walk t l).map (fun p => (p.arrivalTime, p.burstTime)) =
        l.map (fun p => (p.arrivalTime, p.burstTime)) := by
  induction l generalizing t with
  | nil => simp [fcfs_walk]
  | cons p rest ih =>
    have hp := hb p (List.mem_cons_self _ _)
    have hrest : ∀ q ∈ rest, 0 ≤ q.burstTime := fun q hq => hb q (List.mem_cons_of_mem _ hq)
    obtain ⟨h1, h2, h3⟩ := ih ((if t < p.arrivalTime then p.arrivalTime else t) + p.burstTime) hrest
    simp only [fcfs_walk]
    refine ⟨?_, ?_, ?_⟩
    · intro q hq
      rcases List.mem_cons.mp hq with rfl | hq
      · dsimp only
        split_ifs <;> omega
      · obtain ⟨a, b, c⟩ := h1 q hq
        refine ⟨?_, b, c⟩
        split_ifs at a <;> omega
    · refine List.pairwise_cons.mpr ⟨?_, h2⟩
      intro q hq
      exact (h1 q hq).1
    · simp only [List.map_cons, h3]

/-! ## The SJF selection scan -/

theorem sjf_scan_upto (s : SjfState) (m : Nat) :
    SjfScanInv s m ((List.range m).foldl (sjf_scan_step s) (none, INT_MAX)) := by
  induction m with
  | zero =>
    refine ⟨fun _ => ⟨rfl, ?_⟩, ?_⟩
    · intro i hi; omega
    · intro k hk; simp at hk
  | succ m ih =>
    rw [List.range_succ, List.foldl_append]
    generalize (List.range m).foldl (sjf_scan_step s) (none, INT_MAX) = acc at ih
    obtain ⟨hnone, hsome⟩ := ih
    simp only [List.foldl_cons, List.foldl_nil]
    unfold sjf_scan_step
    split_ifs with hc
    · -- index `m` becomes the candidate
      obtain ⟨hf, ha, hlt⟩ := hc
      refine ⟨fun h => by simp at h, ?_⟩
      intro k hk
      simp only [Option.some.injEq] at hk
      subst hk
      have hmax : (procAt s.proc m).burstTime < INT_MAX := by
        cases hacc : acc.1 with
        | none => rw [(hnone hacc).1] at hlt; exact hlt
        | some k0 =>
          obtain ⟨_, _, h2, h3, _⟩ := hsome k0 hacc
          omega
      refine ⟨Nat.lt_succ_self _, ⟨hf, ha⟩, rfl, hmax, ?_⟩
      intro j hj he
      rcases Nat.lt_succ_iff_lt_or_eq.mp hj with hj | rfl
      · cases hacc : acc.1 with
        | none =>
          have := (hnone hacc).2 j hj he
          rw [(hnone hacc).1] at hlt
          constructor <;> intros <;> omega
        | some k0 =>
          obtain ⟨_, _, h2, _, h3⟩ := hsome k0 hacc
          have := (h3 j hj he).1
          constructor <;> intros <;> omega
      · exact ⟨le_refl _, fun _ => le_refl _⟩
    · -- the candidate stays
      refine ⟨?_, ?_⟩
      · intro h
        refine ⟨(hnone h).1, ?_⟩
        intro i hi he
        rcases Nat.lt_succ_iff_lt_or_eq.mp hi with hi | rfl
        · exact (hnone h).2 i hi he
        · by_contra hcon
          apply hc
          refine ⟨he.1, he.2, ?_⟩
          rw [(hnone h).1]; omega
      · intro k hk
        obtain ⟨h0, h1, h2, hmax, h3⟩ := hsome k hk
        refine ⟨Nat.lt_succ_of_lt h0, h1, h2, hmax, ?_⟩
        intro j hj he
        rcases Nat.lt_succ_iff_lt_or_eq.mp hj with hj | rfl
        · exact h3 j hj he
        · have : ¬ (procAt s.proc j).burstTime < acc.2 := fun hlt => hc ⟨he.1, he.2, hlt⟩
          rw [h2] at this
          constructor
          · omega
          · intro _; omega

theorem sjf_scan_spec (s : SjfState) : SjfScanInv s s.proc.length (sjf_scan s) :=
  sjf_scan_upto s s.proc.length

/-! ## One iteration of the SJF loop keeps the invariant -/

theorem sjf_step_inv (orig : List Process) (s : SjfState) (hI : SjfInv orig s)
    (hb : ∀ i, i < orig.length → 0 < (procAt orig i).burstTime) :
    SjfInv orig (sjf_step s) := by
  have hscan := sjf_scan_spec s
  unfold sjf_step
  cases hk : (sjf_scan s).1 with
  | none =>
    dsimp only
    exact
      { len_proc := hI.len_proc
        len_flags := hI.len_flags
        count_eq := hI.count_eq
        arrival_eq := hI.arrival_eq
        burst_eq := hI.burst_eq
        slot := fun i hi => by
          obtain ⟨a, b, c⟩ := hI.slot i hi
          exact ⟨a, b, by dsimp only; omega⟩
        disjoint := hI.disjoint
        greedy := hI.greedy }
  | some k =>
    obtain ⟨hkn, ⟨hkf, hka⟩, -, -, hmin⟩ := hscan.2 k hk
    have hkfl : k < s.completed_procs.length := by rw [hI.len_flags, ← hI.len_proc]; exact hkn
    have hbk : 0 < (procAt s.proc k).burstTime := by
      rw [hI.burst_eq]; exact hb k (by rw [← hI.len_proc]; exact hkn)
    have hpos : ∀ i, i < orig.length → 0 < (procAt s.proc i).burstTime := by
      intro i hi; rw [hI.burst_eq]; exact hb i hi
    dsimp only
    have hP : ∀ i v, procAt (s.proc.set k v) i = if k = i then v else procAt s.proc i := by
      intro i v; rw [procAt_set]; simp [hkn]
    have hF : ∀ i, (s.completed_procs.set k true).getD i false =
        if k = i then true else s.completed_procs.getD i false := by
      intro i; rw [getD_set]; simp [hkfl]
    refine
      { len_proc := by simp [hI.len_proc]
        len_flags := by simp [hI.len_flags]
        count_eq := by
          dsimp only
          rw [count_true_set _ k hkfl hkf, hI.count_eq]
        arrival_eq := ?_
        burst_eq := ?_
        slot := ?_
        disjoint := ?_
        greedy := ?_ }
    · intro i
      dsimp only
      rw [hP]
      split_ifs with h
      · subst h; exact hI.arrival_eq k
      · exact hI.arrival_eq i
    · intro i
      dsimp only
      rw [hP]
      split_ifs with h
      · subst h; exact hI.burst_eq k
      · exact hI.burst_eq i
    · intro i
      dsimp only
      rw [hP, hF]
      split_ifs with h
      · subst h
        intro _
        dsimp only
        exact ⟨hka, rfl, le_refl _⟩
      · intro hi
        obtain ⟨a, b, c⟩ := hI.slot i hi
        exact ⟨a, b, by omega⟩
    · intro i j hij
      dsimp only
      rw [hP, hP, hF, hF]
      split_ifs with h1 h2 h2
      · omega
      · intro _ hj
        dsimp only
        right
        exact (hI.slot j hj).2.2
      · intro hi _
        dsimp only
        left
        exact (hI.slot i hi).2.2
      · exact hI.disjoint i j hij
    · intro i j hj
      dsimp only
      rw [hP, hP, hF, hF]
      split_ifs with h1 h2 h2
      · intro _ h; dsimp only at h; simp at h
      · subst h1
        intro _ h ha
        dsimp only at h ha ⊢
        by_cases hjf : s.completed_procs.getD j false = true
        · exfalso
          rcases h with h | h
          · rw [hjf] at h; exact absurd h (by decide)
          · obtain ⟨_, b, c⟩ := hI.slot j hjf
            have := hpos j hj
            omega
        · have hjf' : s.completed_procs.getD j false = false := by simpa using hjf
          obtain ⟨m1, m2⟩ := hmin j (by rw [hI.len_proc]; exact hj) ⟨hjf', ha⟩
          refine ⟨m1, fun he => ?_⟩
          have := m2 he.symm
          omega
      · subst h2
        intro hi _ ha
        dsimp only at ha ⊢
        exact hI.greedy i k (by rw [← hI.len_proc]; exact hkn) hi (Or.inl hkf) (by omega)
      · exact hI.greedy i j hj

/-! ## The SJF loop terminates -/

theorem sjf_init_inv (orig : List Process) : SjfInv orig (sjf_init orig) := by
  have hflag : ∀ i, (List.replicate orig.length false).getD i false = false := by
    intro i
    rw [List.getD_eq_getElem?_getD, List.getElem?_replicate]
    split_ifs <;> rfl
  refine
    { len_proc := rfl
      len_flags := by simp [sjf_init]
      count_eq := by simp [sjf_init, List.count_replicate]
      arrival_eq := fun _ => rfl
      burst_eq := fun _ => rfl
      slot := ?_
      disjoint := ?_
      greedy := ?_ }
  · intro i hi
    simp only [sjf_init] at hi
    rw [hflag] at hi
    exact absurd hi (by decide)
  · intro i j _ hi
    simp only [sjf_init] at hi
    rw [hflag] at hi
    exact absurd hi (by decide)
  · intro i j _ hi
    simp only [sjf_init] at hi
    rw [hflag] at hi
    exact absurd hi (by decide)

theorem exists_unflagged (l : List Bool) (h : l.count true < l.length) :
    ∃ i, i < l.length ∧ l.getD i false = false := by
  by_contra hcon
  push_neg at hcon
  have : l.count true = l.length := by
    rw [List.count_eq_length]
    intro b hb
    obtain ⟨i, hi, rfl⟩ := List.mem_iff_getElem.mp hb
    have := hcon i hi
    rw [List.getD_eq_getElem?_getD, List.getElem?_eq_getElem hi] at this
    simpa using this
  omega

theorem sjf_completed_le (orig : List Process) (s : SjfState) (hI : SjfInv orig s) :
    s.completed ≤ orig.length := by
  rw [hI.count_eq, ← hI.len_flags]
  exact List.count_le_length _ _

theorem sjf_step_measure (orig : List Process) (M : Int) (s : SjfState) (hI : SjfInv orig s)
    (hM : ∀ i, i < orig.length → (procAt orig i).arrivalTime ≤ M)
    (hb : ∀ i, i < orig.length →
      0 < (procAt orig i).burstTime ∧ (procAt orig i).burstTime < INT_MAX)
    (hlt : s.completed < orig.length) :
    (orig.length - (sjf_step s).completed) + (M - (sjf_step s).currentTime).toNat <
      (orig.length - s.completed) + (M - s.currentTime).toNat := by
  have hscan := sjf_scan_spec s
  unfold sjf_step
  cases hk : (sjf_scan s).1 with
  | none =>
    dsimp only
    obtain ⟨i, hi, hif⟩ := exists_unflagged s.completed_procs (by
      rw [← hI.count_eq, hI.len_flags]; exact hlt)
    rw [hI.len_flags] at hi
    have h1 := (hscan.1 hk).2 i (by rw [hI.len_proc]; exact hi)
    have h2 := (hb i hi).2
    have h3 := hM i hi
    rw [← hI.arrival_eq] at h3
    rw [← hI.burst_eq] at h2
    have h4 : s.currentTime < (procAt s.proc i).arrivalTime := by
      by_contra hcon
      have := h1 ⟨hif, not_lt.mp hcon⟩
      omega
    omega
  | some k =>
    obtain ⟨hkn, -, -, -, -⟩ := hscan.2 k hk
    dsimp only
    have := (hb k (by rw [← hI.len_proc]; exact hkn)).1
    rw [← hI.burst_eq] at this
    omega

theorem sjf_loop_total (orig : List Process) (M : Int)
    (hM : ∀ i, i < orig.length → (procAt orig i).arrivalTime ≤ M)
    (hb : ∀ i, i < orig.length →
      0 < (procAt orig i).burstTime ∧ (procAt orig i).burstTime < INT_MAX) :
    ∀ (fuel : Nat) (s : SjfState), SjfInv orig s →
      (orig.length - s.completed) + (M - s.currentTime).toNat ≤ fuel →
      ∃ r, sjf_loop fuel s = some r ∧ SjfInv orig r ∧ r.completed = orig.length := by
  intro fuel
  induction fuel with
  | zero =>
    intro s hI hm
    have hle := sjf_completed_le orig s hI
    refine ⟨s, ?_, hI, by omega⟩
    unfold sjf_loop
    rw [hI.len_proc, if_neg (by omega)]
  | succ fuel ih =>
    intro s hI hm
    have hle := sjf_completed_le orig s hI
    unfold sjf_loop
    rw [hI.len_proc]
    split_ifs with hlt
    · have hdec := sjf_step_measure orig M s hI hM hb hlt
      exact ih (sjf_step s) (sjf_step_inv orig s hI (fun i hi => (hb i hi).1)) (by omega)
    · exact ⟨s, rfl, hI, by omega⟩

theorem sjf_loop_mono (fuel : Nat) (s r : SjfState) (h : sjf_loop fuel s = some r) :
    ∀ extra, sjf_loop (fuel + extra) s = some r := by
  induction fuel generalizing s with
  | zero =>
    intro extra
    unfold sjf_loop at h
    split_ifs at h with hlt
    cases extra with
    | zero => unfold sjf_loop; rw [if_neg hlt]; exact h
    | succ e => rw [Nat.zero_add]; unfold sjf_loop; rw [if_neg hlt]; exact h
  | succ fuel ih =>
    intro extra
    rw [Nat.add_right_comm]
    unfold sjf_loop at h ⊢
    split_ifs at h ⊢ with hlt
    · exact ih _ h extra
    · exact h

theorem exists_arrival_bound (l : List Process) : ∃ M : Int, ∀ p ∈ l, p.arrivalTime ≤ M := by
  induction l with
  | nil => exact ⟨0, fun p hp => absurd hp (List.not_mem_nil p)⟩
  | cons a rest ih =>
    obtain ⟨M, hM⟩ := ih
    refine ⟨max a.arrivalTime M, ?_⟩
    intro p hp
    rcases List.mem_cons.mp hp with rfl | hp
    · exact le_max_left _ _
    · exact le_trans (hM p hp) (le_max_right _ _)

/-- Total correctness of the SJF loop: on an array whose burst times lie strictly between
`0` and `INT_MAX` the loop ends, in a state that satisfies the invariant with every
process completed, and that state is the same for every sufficient number of iterations. -/
theorem sjf_total (orig : List Process)
    (hb : ∀ p ∈ orig, 0 < p.burstTime ∧ p.burstTime < INT_MAX) :
    ∃ (N : Nat) (r : SjfState), (∀ fuel, N ≤ fuel → sjf_loop fuel (sjf_init orig) = some r) ∧
      SjfInv orig r ∧ r.completed = orig.length := by
  obtain ⟨M, hM⟩ := exists_arrival_bound orig
  have hM' : ∀ i, i < orig.length → (procAt orig i).arrivalTime ≤ M :=
    fun i hi => hM _ (procAt_mem orig i hi)
  have hb' : ∀ i, i < orig.length →
      0 < (procAt orig i).burstTime ∧ (procAt orig i).burstTime < INT_MAX :=
    fun i hi => hb _ (procAt_mem orig i hi)
  obtain ⟨r, hr, hI, hc⟩ := sjf_loop_total orig M hM' hb'
    ((orig.length - (sjf_init orig).completed) + (M - (sjf_init orig).currentTime).toNat)
    (sjf_init orig) (sjf_init_inv orig) (le_refl _)
  refine ⟨(orig.length - (sjf_init orig).completed) +
    (M - (sjf_init orig).currentTime).toNat, r, ?_, hI, hc⟩
  intro fuel hf
  obtain ⟨e, rfl⟩ := Nat.exists_eq_add_of_le hf
  exact sjf_loop_mono _ _ _ hr e

/-- Partial correctness of the SJF loop, whatever the burst times above `0`: a state the
loop ends in satisfies the invariant with every process completed. -/
theorem sjf_loop_inv (orig : List Process)
    (hb : ∀ i, i < orig.length → 0 < (procAt orig i).burstTime) :
    ∀ (fuel : Nat) (s r : SjfState), SjfInv orig s → sjf_loop fuel s = some r →
      SjfInv orig r ∧ r.completed = orig.length := by
  intro fuel
  induction fuel with
  | zero =>
    intro s r hI h
    have hle := sjf_completed_le orig s hI
    unfold sjf_loop at h
    rw [hI.len_proc] at h
    split_ifs at h with hlt
    cases h
    exact ⟨hI, by omega⟩
  | succ fuel ih =>
    intro s r hI h
    have hle := sjf_completed_le orig s hI
    unfold sjf_loop at h
    rw [hI.len_proc] at h
    split_ifs at h with hlt
    · exact ih _ _ (sjf_step_inv orig s hI hb) h
    · cases h
      exact ⟨hI, by omega⟩

/-- In a final state of the SJF loop every flag is set. -/
theorem sjf_final_flags (orig : List Process) (r : SjfState) (hI : SjfInv orig r)
    (hc : r.completed = orig.length) (i : Nat) (hi : i < orig.length) :
    r.completed_procs.getD i false = true := by
  apply all_true_of_count
  · rw [← hI.count_eq, hc, hI.len_flags]
  · rw [hI.len_flags]; exact hi

/-! ## A burst time equal to `INT_MAX` is never selected -/

theorem count_true_lt_of_unflagged (l : List Bool) (i : Nat) (hi : i < l.length)
    (hf : l.getD i false = false) : l.count true < l.length := by
  rcases Nat.lt_or_ge (l.count true) l.length with h | h
  · exact h
  · have heq : l.count true = l.length := le_antisymm (List.count_le_length _ _) h
    have := all_true_of_count l heq i hi
    rw [hf] at this
    exact absurd this (by decide)

theorem sjf_starved (fuel : Nat) (s : SjfState) (i : Nat) (hi : i < s.proc.length)
    (hlen : s.completed_procs.length = s.proc.length)
    (hcount : s.completed = s.completed_procs.count true)
    (hf : s.completed_procs.getD i false = false)
    (hb : INT_MAX ≤ (procAt s.proc i).burstTime) : sjf_loop fuel s = none := by
  have hlt : s.completed < s.proc.length := by
    rw [hcount, ← hlen]
    exact count_true_lt_of_unflagged _ i (by rw [hlen]; exact hi) hf
  induction fuel generalizing s with
  | zero => unfold sjf_loop; rw [if_pos hlt]
  | succ fuel ih =>
    unfold sjf_loop
    rw [if_pos hlt]
    have hscan := sjf_scan_spec s
    have hstep : (sjf_step s).proc.length = s.proc.length ∧
        (sjf_step s).completed_procs.length = s.proc.length ∧
        (sjf_step s).completed = (sjf_step s).completed_procs.count true ∧
        (sjf_step s).completed_procs.getD i false = false ∧
        INT_MAX ≤ (procAt (sjf_step s).proc i).burstTime := by
      unfold sjf_step
      cases hk : (sjf_scan s).1 with
      | none => exact ⟨rfl, hlen, hcount, hf, hb⟩
      | some k =>
        obtain ⟨hkn, ⟨hkf, -⟩, -, hmax, -⟩ := hscan.2 k hk
        have hki : k ≠ i := by
          rintro rfl
          omega
        dsimp only
        refine ⟨by simp, by simp [hlen], ?_, ?_, ?_⟩
        · rw [count_true_set _ k (by rw [hlen]; exact hkn) hkf, hcount]
        · rw [getD_set, if_neg (fun h => hki h.1)]; exact hf
        · rw [procAt_set, if_neg (fun h => hki h.1)]; exact hb
    obtain ⟨h1, h2, h3, h4, h5⟩ := hstep
    refine ih (sjf_step s) (by rw [h1]; exact hi) (by rw [h1]; exact h2) h3 h4 h5 ?_
    rw [h3, h1, ← h2]
    exact count_true_lt_of_unflagged _ i (by rw [h2]; exact hi) h4

/-- On a batch that holds a process with a burst time of `INT_MAX` or more the loop of
`sjf_metrics` never ends: that process fails the test `burstTime < shortest_burst`. -/
theorem sjf_never_returns (proc : List Process) (p : Process) (hp : p ∈ proc)
    (hb : INT_MAX ≤ p.burstTime) (fuel : Nat) : sjf_schedule fuel proc = none := by
  obtain ⟨i, hi, rfl⟩ := mem_procAt _ p ((sortByArrival_mem proc p).mpr hp)
  unfold sjf_schedule
  rw [sjf_starved fuel (sjf_init (sortByArrival proc)) i hi]
  · rfl
  · simp [sjf_init]
  · simp [sjf_init, List.count_replicate]
  · simp only [sjf_init]
    rw [List.getD_eq_getElem?_getD, List.getElem?_replicate, if_pos hi]
    rfl
  · exact hb

/-! ## What `sjf_metrics` leaves in the array -/

theorem sjf_schedule_total (proc : List Process)
    (h : ∀ p ∈ proc, 0 < p.burstTime ∧ p.burstTime < INT_MAX) :
    ∃ s : SjfState, SjfReturns proc s.proc ∧ SjfInv (sortByArrival proc) s ∧
      s.completed = proc.length := by
  obtain ⟨N, r, hr, hI, hc⟩ := sjf_total (sortByArrival proc)
    (fun p hp => h p ((sortByArrival_mem proc p).mp hp))
  refine ⟨r, ⟨N, fun fuel hf => ?_⟩, hI, by rw [hc, sortByArrival_length]⟩
  unfold sjf_schedule
  rw [hr fuel hf]
  rfl

theorem sjf_final_length (proc : List Process) (s : SjfState)
    (hI : SjfInv (sortByArrival proc) s) : s.proc.length = proc.length := by
  rw [hI.len_proc, sortByArrival_length]

theorem sjf_final_slot (proc : List Process) (s : SjfState)
    (hI : SjfInv (sortByArrival proc) s) (hc : s.completed = proc.length)
    (i : Nat) (hi : i < proc.length) :
    (procAt s.proc i).arrivalTime ≤ (procAt s.proc i).startTime ∧
    (procAt s.proc i).completionTime =
      (procAt s.proc i).startTime + (procAt s.proc i).burstTime := by
  have hf := sjf_final_flags _ s hI (by rw [hc, sortByArrival_length]) i
    (by rw [sortByArrival_length]; exact hi)
  exact ⟨(hI.slot i hf).1, (hI.slot i hf).2.1⟩

theorem sjf_final_noOverlap (proc : List Process) (s : SjfState)
    (hI : SjfInv (sortByArrival proc) s) (hc : s.completed = proc.length) :
    NoOverlap s.proc := by
  intro i j hi hj hij
  rw [sjf_final_length proc s hI] at hi hj
  have hf := fun k hk => sjf_final_flags _ s hI (by rw [hc, sortByArrival_length]) k
    (by rw [sortByArrival_length]; exact hk)
  exact hI.disjoint i j hij (hf i hi) (hf j hj)

theorem sjf_final_shortestFirst (proc : List Process) (s : SjfState)
    (hI : SjfInv (sortByArrival proc) s) (hc : s.completed = proc.length) :
    ShortestFirst s.proc := by
  intro i j hi hj hlt ha
  rw [sjf_final_length proc s hI] at hi hj
  have hf := fun k hk => sjf_final_flags _ s hI (by rw [hc, sortByArrival_length]) k
    (by rw [sortByArrival_length]; exact hk)
  exact hI.greedy i j (by rw [sortByArrival_length]; exact hj) (hf i hi) (Or.inr hlt) ha

/-! ## What `fcfs_metrics` leaves in the array -/

theorem procAt_eq_getElem (l : List Process) (i : Nat) (h : i < l.length) :
    procAt l i = l[i] := by
  unfold procAt
  rw [List.getD_eq_getElem?_getD, List.getElem?_eq_getElem h]
  rfl

theorem fcfs_schedule_length (proc : List Process) :
    (fcfs_schedule proc).length = proc.length := by
  unfold fcfs_schedule
  rw [fcfs_walk_length, sortByArrival_length]

theorem fcfs_schedule_noOverlap (proc : List Process) (hb : ∀ p ∈ proc, 0 ≤ p.burstTime) :
    NoOverlap (fcfs_schedule proc) := by
  have hs : ∀ p ∈ sortByArrival proc, 0 ≤ p.burstTime :=
    fun p hp => hb p ((sortByArrival_mem proc p).mp hp)
  obtain ⟨-, hpw, -⟩ := fcfs_walk_spec 0 (sortByArrival proc) hs
  have hidx := List.pairwise_iff_getElem.mp hpw
  intro i j hi hj hij
  rw [procAt_eq_getElem _ i hi, procAt_eq_getElem _ j hj]
  rcases Nat.lt_or_gt_of_ne hij with h | h
  · exact Or.inl (hidx i j hi hj h)
  · exact Or.inr (hidx j i hj hi h)

/-! ## Sums over the array -/

theorem totalSlotLength_eq_totalBurst (r : List Process)
    (h : ∀ p ∈ r, p.completionTime - p.startTime = p.burstTime) :
    totalSlotLength r = totalBurst r := by
  unfold totalSlotLength totalBurst
  congr 1
  exact List.map_congr_left h

theorem totalBurst_perm (l₁ l₂ : List Process) (h : l₁.Perm l₂) :
    totalBurst l₁ = totalBurst l₂ :=
  (h.map _).sum_eq

theorem totalBurst_congr (l₁ l₂ : List Process) (hlen : l₁.length = l₂.length)
    (h : ∀ i, (procAt l₁ i).burstTime = (procAt l₂ i).burstTime) :
    totalBurst l₁ = totalBurst l₂ := by
  unfold totalBurst
  congr 1
  apply List.ext_getElem
  · simp [hlen]
  · intro i h1 h2
    simp only [List.length_map] at h1 h2
    simp only [List.getElem_map]
    have := h i
    rw [procAt_eq_getElem _ i h1, procAt_eq_getElem _ i h2] at this
    exact this

theorem fcfs_schedule_totalBurst (proc : List Process) (hb : ∀ p ∈ proc, 0 ≤ p.burstTime) :
    totalBurst (fcfs_schedule proc) = totalBurst proc := by
  have hs : ∀ p ∈ sortByArrival proc, 0 ≤ p.burstTime :=
    fun p hp => hb p ((sortByArrival_mem proc p).mp hp)
  obtain ⟨-, -, hmap⟩ := fcfs_walk_spec 0 (sortByArrival proc) hs
  rw [← totalBurst_perm _ _ (sortByArrival_perm proc)]
  unfold totalBurst fcfs_schedule
  have := congrArg (List.map Prod.snd) hmap
  simp only [List.map_map] at this
  exact congrArg List.sum this

theorem sjfReturns_of_eval (proc r : List Process) (fuel : Nat)
    (h : sjf_schedule fuel proc = some r) : SjfReturns proc r := by
  refine ⟨fuel, fun f hf => ?_⟩
  obtain ⟨e, rfl⟩ := Nat.exists_eq_add_of_le hf
  unfold sjf_schedule at h ⊢
  cases hs : sjf_loop fuel (sjf_init (sortByArrival proc)) with
  | none => rw [hs] at h; cases h
  | some s =>
    rw [hs] at h
    rw [sjf_loop_mono _ _ _ hs e]
    exact h

theorem sjfReturns_unique (proc r₁ r₂ : List Process) (h₁ : SjfReturns proc r₁)
    (h₂ : SjfReturns proc r₂) : r₁ = r₂ := by
  obtain ⟨N₁, h₁⟩ := h₁
  obtain ⟨N₂, h₂⟩ := h₂
  have a := h₁ (max N₁ N₂) (le_max_left _ _)
  have b := h₂ (max N₁ N₂) (le_max_right _ _)
  rw [a] at b
  exact Option.some.inj b

/-! ## FCFS and SJF in the integers -/

/-- In the integers: on a batch with burstTime > 0 the FCFS schedule is ordered
(completionTime >= startTime >= arrivalTime), and with every burstTime below `INT_MAX` the
SJF loop ends and its schedule is ordered too. -/
theorem fcfs_sjf_ordered (proc : List Process) (hn : 1 ≤ proc.length)
    (h : ∀ p ∈ proc, 0 ≤ p.arrivalTime ∧ 0 < p.burstTime) :
    ((fcfs_schedule proc).length = proc.length ∧ ∀ p ∈ fcfs_schedule proc, Ordered p) ∧
    ((∀ p ∈ proc, p.burstTime < INT_MAX) →
      ∃ r, SjfReturns proc r ∧ r.length = proc.length ∧ ∀ p ∈ r, Ordered p) := by
  have _ := hn
  refine ⟨⟨fcfs_schedule_length proc, ?_⟩, ?_⟩
  · have hs : ∀ p ∈ sortByArrival proc, 0 ≤ p.burstTime :=
      fun p hp => le_of_lt (h p ((sortByArrival_mem proc p).mp hp)).2
    obtain ⟨hslot, -, hmap⟩ := fcfs_walk_spec 0 (sortByArrival proc) hs
    intro p hp
    obtain ⟨-, h2, h3⟩ := hslot p hp
    have hpos : 0 ≤ p.burstTime := by
      have hmem : (p.arrivalTime, p.burstTime) ∈
          (sortByArrival proc).map (fun q => (q.arrivalTime, q.burstTime)) := by
        rw [← hmap]
        exact List.mem_map.mpr ⟨p, hp, rfl⟩
      obtain ⟨q, hq, heq⟩ := List.mem_map.mp hmem
      have := hs q hq
      have hb : q.burstTime = p.burstTime := congrArg Prod.snd heq
      omega
    exact ⟨h2, by omega⟩
  · intro hmax
    obtain ⟨s, hret, hI, hc⟩ := sjf_schedule_total proc (fun p hp => ⟨(h p hp).2, hmax p hp⟩)
    refine ⟨s.proc, hret, sjf_final_length proc s hI, ?_⟩
    intro p hp
    obtain ⟨i, hi, rfl⟩ := mem_procAt _ p hp
    rw [sjf_final_length proc s hI] at hi
    obtain ⟨a, b⟩ := sjf_final_slot proc s hI hc i hi
    have hbp : 0 < (procAt s.proc i).burstTime := by
      rw [hI.burst_eq]
      exact (h _ ((sortByArrival_mem proc _).mp
        (procAt_mem _ i (by rw [sortByArrival_length]; exact hi)))).2
    exact ⟨a, by omega⟩

/-- In the integers: the slots of the FCFS schedule do not overlap, and with every
burstTime below `INT_MAX` the SJF loop ends and its slots do not overlap either. -/
theorem fcfs_sjf_noOverlap (proc : List Process) (hn : 1 ≤ proc.length)
    (h : ∀ p ∈ proc, 0 ≤ p.arrivalTime ∧ 0 < p.burstTime) :
    ((fcfs_schedule proc).length = proc.length ∧ NoOverlap (fcfs_schedule proc)) ∧
    ((∀ p ∈ proc, p.burstTime < INT_MAX) →
      ∃ r, SjfReturns proc r ∧ r.length = proc.length ∧ NoOverlap r) := by
  have _ := hn
  refine ⟨⟨fcfs_schedule_length proc,
    fcfs_schedule_noOverlap proc (fun p hp => le_of_lt (h p hp).2)⟩, ?_⟩
  intro hmax
  obtain ⟨s, hret, hI, hc⟩ := sjf_schedule_total proc (fun p hp => ⟨(h p hp).2, hmax p hp⟩)
  exact ⟨s.proc, hret, sjf_final_length proc s hI, sjf_final_noOverlap proc s hI hc⟩

/-- C4 (amended): `sjf_metrics` on the batch [(0,8), (1,4), (2,9), (3,5)] returns; the
sum over the four processes of completionTime - arrivalTime - burstTime is 31 and
avgWaiting is 31/4 = 7.75 (the processes run in the order P0, P1, P3, P2 without
preemption). -/
theorem c4_sjf_textbook_batch_waiting :
    ∃ r, SjfReturns [mkProc 0 8, mkProc 1 4, mkProc 2 9, mkProc 3 5] r ∧
      r = [⟨0, 8, 0, 8⟩, ⟨1, 4, 8, 12⟩, ⟨2, 9, 17, 26⟩, ⟨3, 5, 12, 17⟩] ∧
      total_waiting r = 31 ∧ (calculate_metrics r).avgWaiting = 31 / 4 := by
  refine ⟨_, sjfReturns_of_eval _ _ 4 (by decide), rfl, by decide, ?_⟩
  norm_num [calculate_metrics, total_waiting]

/-- C4, counterexample: on the batch [(0,8), (1,4), (2,9), (3,5)] the array `sjf_metrics`
leaves has total waiting time different from 26 and avgWaiting different from 6.5. -/
theorem c4_sjf_textbook_batch_counterexample :
    ∃ r, SjfReturns [mkProc 0 8, mkProc 1 4, mkProc 2 9, mkProc 3 5] r ∧
      total_waiting r ≠ 26 ∧ (calculate_metrics r).avgWaiting ≠ 13 / 2 := by
  refine ⟨[⟨0, 8, 0, 8⟩, ⟨1, 4, 8, 12⟩, ⟨2, 9, 17, 26⟩, ⟨3, 5, 12, 17⟩],
    sjfReturns_of_eval _ _ 4 (by decide), by decide, ?_⟩
  norm_num [calculate_metrics, total_waiting]

/-- In the integers: with 0 < burstTime < INT_MAX the SJF loop ends and its schedule is
shortest-first with the lowest index winning ties. -/
theorem sjf_shortestFirst (proc : List Process)
    (h : ∀ p ∈ proc, 0 < p.burstTime ∧ p.burstTime < INT_MAX) :
    ∃ r, SjfReturns proc r ∧ r.length = proc.length ∧ ShortestFirst r := by
  obtain ⟨s, hret, hI, hc⟩ := sjf_schedule_total proc h
  exact ⟨s.proc, hret, sjf_final_length proc s hI, sjf_final_shortestFirst proc s hI hc⟩

/-- In the integers: every slot of the FCFS schedule, and of the SJF schedule when every
burstTime is below `INT_MAX`, lasts exactly the burst time. -/
theorem fcfs_sjf_slot_is_burst (proc : List Process) (hn : 1 ≤ proc.length)
    (h : ∀ p ∈ proc, 0 < p.burstTime) :
    ((fcfs_schedule proc).length = proc.length ∧
      (∀ p ∈ fcfs_schedule proc, p.completionTime - p.startTime = p.burstTime) ∧
      totalSlotLength (fcfs_schedule proc) = totalBurst proc) ∧
    ((∀ p ∈ proc, p.burstTime < INT_MAX) →
      ∃ r, SjfReturns proc r ∧ r.length = proc.length ∧
        (∀ p ∈ r, p.completionTime - p.startTime = p.burstTime) ∧
        totalSlotLength r = totalBurst proc) := by
  have _ := hn
  have hb : ∀ p ∈ proc, 0 ≤ p.burstTime := fun p hp => le_of_lt (h p hp)
  have hs : ∀ p ∈ sortByArrival proc, 0 ≤ p.burstTime :=
    fun p hp => hb p ((sortByArrival_mem proc p).mp hp)
  constructor
  · have hslot : ∀ p ∈ fcfs_schedule proc, p.completionTime - p.startTime = p.burstTime := by
      intro p hp
      have := ((fcfs_walk_spec 0 (sortByArrival proc) hs).1 p hp).2.2
      omega
    exact ⟨fcfs_schedule_length proc, hslot,
      (totalSlotLength_eq_totalBurst _ hslot).trans (fcfs_schedule_totalBurst proc hb)⟩
  · intro hmax
    obtain ⟨s, hret, hI, hc⟩ := sjf_schedule_total proc (fun p hp => ⟨h p hp, hmax p hp⟩)
    have hslot : ∀ p ∈ s.proc, p.completionTime - p.startTime = p.burstTime := by
      intro p hp
      obtain ⟨i, hi, rfl⟩ := mem_procAt _ p hp
      rw [sjf_final_length proc s hI] at hi
      have := (sjf_final_slot proc s hI hc i hi).2
      omega
    refine ⟨s.proc, hret, sjf_final_length proc s hI, hslot, ?_⟩
    rw [totalSlotLength_eq_totalBurst _ hslot,
      totalBurst_congr s.proc (sortByArrival proc) hI.len_proc hI.burst_eq]
    exact totalBurst_perm _ _ (sortByArrival_perm proc)

/-! ## The ring buffer -/

theorem ringList_length (queue : List Nat) (front count n : Nat) :
    (ringList queue front count n).length = count := by
  simp [ringList]

theorem mod_add_ne_of_lt (front i c n : Nat) (hi : i < c) (hc : c < n) :
    (front + i) % n ≠ (front + c) % n := by
  intro h
  have h1 : i % n = c % n := Nat.ModEq.add_left_cancel' front h
  rw [Nat.mod_eq_of_lt (lt_trans hi hc), Nat.mod_eq_of_lt hc] at h1
  omega

/-- Writing at the slot after the last live entry appends to the live entries. -/
theorem ringList_enqueue (queue : List Nat) (front count n x : Nat) (hn : queue.length = n)
    (hc : count < n) :
    ringList (queue.set ((front + count) % n) x) front (count + 1) n =
      ringList queue front count n ++ [x] := by
  have hpos : (front + count) % n < queue.length := by
    rw [hn]; exact Nat.mod_lt _ (by omega)
  unfold ringList
  rw [List.range_succ, List.map_append]
  congr 1
  · apply List.map_congr_left
    intro i hi
    have hi' : i < count := List.mem_range.mp hi
    rw [getD_set, if_neg]
    intro h
    exact mod_add_ne_of_lt front i count n hi' hc h.1.symm
  · simp only [List.map_cons, List.map_nil]
    rw [getD_set, if_pos ⟨rfl, hpos⟩]

/-- The front slot holds the first live entry, and advancing the front drops it. -/
theorem ringList_dequeue (queue : List Nat) (front count n : Nat) (hf : front < n)
    (hc : 0 < count) :
    ringList queue front count n =
      queue.getD front 0 :: ringList queue ((front + 1) % n) (count - 1) n := by
  obtain ⟨c, rfl⟩ : ∃ c, count = c + 1 := ⟨count - 1, by omega⟩
  unfold ringList
  rw [List.range_succ_eq_map, List.map_cons, List.map_map, Nat.add_sub_cancel]
  congr 1
  · rw [Nat.add_zero, Nat.mod_eq_of_lt hf]
  · apply List.map_congr_left
    intro i _
    simp only [Function.comp]
    congr 1
    rw [Nat.mod_add_mod]
    congr 1
    omega

theorem isProcessActiveOrInQueue_iff (i : Nat) (queue : List Nat) (count front n : Nat)
    (run : Option Nat) :
    isProcessActiveOrInQueue i queue count front n run = true ↔
      run = some i ∨ i ∈ ringList queue front count n := by
  unfold isProcessActiveOrInQueue ringList
  split_ifs with h
  · simp [h]
  · simp only [List.any_eq_true, List.mem_range, decide_eq_true_eq, List.mem_map, h, false_or]

theorem isProcessActiveOrInQueue_eq_false (i : Nat) (queue : List Nat) (count front n : Nat)
    (run : Option Nat) :
    isProcessActiveOrInQueue i queue count front n run = false ↔
      run ≠ some i ∧ i ∉ ringList queue front count n := by
  rw [← not_iff_not]
  simp only [Bool.not_eq_false, isProcessActiveOrInQueue_iff]
  tauto

/-- A duplicate-free list of indices below `n` that misses one such index has fewer than
`n` entries. -/
theorem length_lt_of_nodup_of_not_mem (l : List Nat) (n x : Nat) (hnd : l.Nodup)
    (hlt : ∀ y ∈ l, y < n) (hx : x < n) (hxl : x ∉ l) : l.length < n := by
  have hsub : (x :: l) ⊆ List.range n := by
    intro y hy
    rcases List.mem_cons.mp hy with rfl | hy
    · exact List.mem_range.mpr hx
    · exact List.mem_range.mpr (hlt y hy)
  have hnd' : (x :: l).Nodup := List.nodup_cons.mpr ⟨hxl, hnd⟩
  have := (List.subperm_of_subset hnd' hsub).length_le
  simp only [List.length_cons, List.length_range] at this
  omega

/-! ## The queue invariant through the steps of a tick -/

theorem rr_enqueue_pos (s : RrState) (hQ : RrQInv s) :
    ((s.queue_rear_idx + 1) % (s.proc.length : Int)).toNat =
      (s.queue_front_idx + s.processes_in_queue) % s.proc.length := by
  rw [hQ.rear_rel]
  exact Int.toNat_ofNat _

theorem rr_queue_length (s : RrState) : (queueList s).length = s.processes_in_queue :=
  ringList_length _ _ _ _

theorem rr_enqueue_queueList (s : RrState) (x : Nat) (hQ : RrQInv s)
    (hx : x < s.proc.length) (hxq : x ∉ queueList s) :
    queueList (rr_enqueue s x) = queueList s ++ [x] := by
  have hc : s.processes_in_queue < s.proc.length := by
    rw [← rr_queue_length]
    exact length_lt_of_nodup_of_not_mem _ _ x hQ.q_nodup hQ.q_lt hx hxq
  unfold queueList rr_enqueue
  simp only
  rw [rr_enqueue_pos s hQ]
  exact ringList_enqueue _ _ _ _ x hQ.len_queue hc

theorem rr_enqueue_inv (s : RrState) (x : Nat) (hQ : RrQInv s) (hx : x < s.proc.length)
    (hxq : x ∉ queueList s) (hlive : s.is_completed.getD x false = false)
    (hrun : s.current_running_process_idx ≠ some x) : RrQInv (rr_enqueue s x) := by
  have hql := rr_enqueue_queueList s x hQ hx hxq
  have hmem : ∀ y, y ∈ queueList (rr_enqueue s x) ↔ y ∈ queueList s ∨ y = x := by
    intro y; rw [hql]; simp
  refine
    { n_pos := hQ.n_pos
      len_rem := hQ.len_rem
      len_start := hQ.len_start
      len_done := hQ.len_done
      len_queue := by simp [rr_enqueue, hQ.len_queue]
      front_lt := hQ.front_lt
      rear_rel := ?_
      q_nodup := ?_
      q_lt := ?_
      q_live := ?_
      run_lt := hQ.run_lt
      run_live := hQ.run_live
      run_notin := ?_
      count_eq := hQ.count_eq }
  · show ((s.queue_rear_idx + 1) % (s.proc.length : Int) + 1) % (s.proc.length : Int) =
      (((s.queue_front_idx + (s.processes_in_queue + 1)) % s.proc.length : Nat) : Int)
    rw [hQ.rear_rel]
    norm_cast
    rw [Nat.mod_add_mod, Nat.add_assoc]
  · rw [hql]
    exact List.Nodup.append hQ.q_nodup (List.nodup_singleton x)
      (by
        intro y hy hy'
        rw [List.mem_singleton] at hy'
        subst hy'
        exact hxq hy)
  · intro y hy
    rcases (hmem y).mp hy with h | rfl
    · exact hQ.q_lt y h
    · exact hx
  · intro y hy
    rcases (hmem y).mp hy with h | rfl
    · exact hQ.q_live y h
    · exact hlive
  · intro y hy hmy
    rcases (hmem y).mp hmy with h | rfl
    · exact hQ.run_notin y hy h
    · exact hrun hy

theorem rr_enqueue_frame (s : RrState) (x : Nat) : RrFrame s (rr_enqueue s x) :=
  ⟨rfl, rfl, rfl, rfl, rfl, rfl, rfl, rfl, rfl⟩

theorem RrFrame.refl (s : RrState) : RrFrame s s :=
  ⟨rfl, rfl, rfl, rfl, rfl, rfl, rfl, rfl, rfl⟩

theorem RrFrame.trans {s₁ s₂ s₃ : RrState} (h₁ : RrFrame s₁ s₂) (h₂ : RrFrame s₂ s₃) :
    RrFrame s₁ s₃ :=
  ⟨h₂.1.trans h₁.1, h₂.2.trans h₁.2, h₂.3.trans h₁.3, h₂.4.trans h₁.4, h₂.5.trans h₁.5,
    h₂.6.trans h₁.6, h₂.7.trans h₁.7, h₂.8.trans h₁.8, h₂.9.trans h₁.9⟩

/-- Step 1 at index `i`: the guarded enqueue, in terms of the live entries. -/
theorem rr_admission_step_spec (s : RrState) (i : Nat) (hQ : RrQInv s) (hi : i < s.proc.length) :
    RrQInv (rr_admission_step s i) ∧ RrFrame s (rr_admission_step s i) ∧
      queueList (rr_admission_step s i) = queueList s ++ (if rrAdmits s i then [i] else []) := by
  unfold rr_admission_step
  by_cases h1 : s.is_completed.getD i false = false ∧
      (procAt s.proc i).arrivalTime = s.current_time
  · rw [if_pos h1]
    by_cases h2 : isProcessActiveOrInQueue i s.ready_queue s.processes_in_queue
        s.queue_front_idx s.proc.length s.current_running_process_idx = false
    · rw [if_pos h2]
      obtain ⟨hr, hq⟩ := (isProcessActiveOrInQueue_eq_false _ _ _ _ _ _).mp h2
      have hadm : rrAdmits s i := ⟨h1.1, h1.2, hr, hq⟩
      rw [if_pos hadm]
      exact ⟨rr_enqueue_inv s i hQ hi hq h1.1 hr, rr_enqueue_frame s i,
        rr_enqueue_queueList s i hQ hi hq⟩
    · rw [if_neg h2]
      have hadm : ¬ rrAdmits s i := by
        intro h
        exact h2 ((isProcessActiveOrInQueue_eq_false _ _ _ _ _ _).mpr ⟨h.2.2.1, h.2.2.2⟩)
      rw [if_neg hadm, List.append_nil]
      exact ⟨hQ, RrFrame.refl s, rfl⟩
  · rw [if_neg h1]
    have hadm : ¬ rrAdmits s i := fun h => h1 ⟨h.1, h.2.1⟩
    rw [if_neg hadm, List.append_nil]
    exact ⟨hQ, RrFrame.refl s, rfl⟩

theorem rrAdmits_congr (s s' : RrState) (hF : RrFrame s s') (j : Nat)
    (hq : j ∈ queueList s' ↔ j ∈ queueList s) : rrAdmits s' j ↔ rrAdmits s j := by
  unfold rrAdmits
  rw [hF.is_completed, hF.proc, hF.current_time, hF.current_running_process_idx, hq]

/-- Step 1 over a duplicate-free list of indices: the queue grows by exactly the indices
that the entry state admits, in list order. -/
theorem rr_admission_fold_spec (is : List Nat) (s : RrState) (hQ : RrQInv s)
    (hnd : is.Nodup) (hlt : ∀ i ∈ is, i < s.proc.length) :
    RrQInv (is.foldl rr_admission_step s) ∧ RrFrame s (is.foldl rr_admission_step s) ∧
      queueList (is.foldl rr_admission_step s) =
        queueList s ++ is.filter (fun i => decide (rrAdmits s i)) := by
  induction is generalizing s with
  | nil => exact ⟨hQ, RrFrame.refl s, by simp⟩
  | cons i is ih =>
    obtain ⟨hQ1, hF1, hq1⟩ := rr_admission_step_spec s i hQ (hlt i (List.mem_cons_self _ _))
    obtain ⟨hi_notin, hnd'⟩ := List.nodup_cons.mp hnd
    have hlt' : ∀ j ∈ is, j < (rr_admission_step s i).proc.length := by
      intro j hj
      rw [hF1.proc]
      exact hlt j (List.mem_cons_of_mem _ hj)
    obtain ⟨hQ2, hF2, hq2⟩ := ih (rr_admission_step s i) hQ1 hnd' hlt'
    rw [List.foldl_cons]
    refine ⟨hQ2, hF1.trans hF2, ?_⟩
    rw [hq2, hq1, List.filter_cons, List.append_assoc]
    have hfilter : is.filter (fun j => decide (rrAdmits (rr_admission_step s i) j)) =
        is.filter (fun j => decide (rrAdmits s j)) := by
      apply List.filter_congr
      intro j hj
      have hji : j ≠ i := fun h => hi_notin (h ▸ hj)
      have : rrAdmits (rr_admission_step s i) j ↔ rrAdmits s j := by
        apply rrAdmits_congr s _ hF1
        rw [hq1]
        split_ifs <;> simp [hji]
      simp only [this]
    rw [hfilter]
    by_cases hadm : rrAdmits s i
    · simp [hadm]
    · simp [hadm]

/-- Step 1 of the tick. -/
theorem rr_admission_spec (s : RrState) (hQ : RrQInv s) :
    RrQInv (rr_admission s) ∧ RrFrame s (rr_admission s) ∧
      queueList (rr_admission s) =
        queueList s ++ (List.range s.proc.length).filter (fun i => decide (rrAdmits s i)) :=
  rr_admission_fold_spec _ s hQ (List.nodup_range _) (fun _ hi => List.mem_range.mp hi)

/-! ## Step 1 (admission) and the loop invariant -/

theorem rr_admission_mem (s : RrState) (hQ : RrQInv s) (i : Nat) :
    i ∈ queueList (rr_admission s) ↔
      i ∈ queueList s ∨ (i < s.proc.length ∧ rrAdmits s i) := by
  rw [(rr_admission_spec s hQ).2.2]
  simp only [List.mem_append, List.mem_filter, List.mem_range, decide_eq_true_eq]

theorem rr_admission_inv (orig : List Process) (timeQuantum : Int) (s : RrState)
    (hI : RrInv orig timeQuantum s) :
    RrCore orig timeQuantum (rr_admission s) ∧
      RrTimed s.current_time (s.current_time - 1) (rr_admission s) := by
  obtain ⟨hQa, hF, -⟩ := rr_admission_spec s hI.core.q
  have hmem := rr_admission_mem s hI.core.q
  have hC := hI.core
  have hT := hI.timed
  refine ⟨?_, ?_⟩
  · exact
      { q := hQa
        len_proc := by rw [hF.proc]; exact hC.len_proc
        arrival_eq := by rw [hF.proc]; exact hC.arrival_eq
        burst_eq := by rw [hF.proc]; exact hC.burst_eq
        time_nonneg := by rw [hF.current_time]; exact hC.time_nonneg
        rem_pos := by
          rw [hF.proc, hF.is_completed, hF.remaining_burst_time]; exact hC.rem_pos
        rem_zero := by
          rw [hF.proc, hF.is_completed, hF.remaining_burst_time]; exact hC.rem_zero
        run_started := by
          rw [hF.current_running_process_idx, hF.actual_start_time]; exact hC.run_started
        started_arr := by
          rw [hF.proc, hF.actual_start_time]; exact hC.started_arr
        done_times := by
          rw [hF.proc, hF.is_completed, hF.actual_start_time]; exact hC.done_times
        slice := by rw [hF.current_quantum_slice_used]; exact hC.slice }
  · refine
      { waiting := ?_
        future := ?_
        started_le := by rw [hF.proc, hF.actual_start_time]; exact hT.started_le }
    · rw [hF.proc, hF.is_completed, hF.current_running_process_idx]
      intro i hi hlive harr
      by_cases hrun : s.current_running_process_idx = some i
      · exact Or.inr hrun
      · left
        rw [hmem]
        by_cases hq : i ∈ queueList s
        · exact Or.inl hq
        · right
          refine ⟨hi, hlive, ?_, hrun, hq⟩
          by_contra hne
          have hlt : (procAt s.proc i).arrivalTime ≤ s.current_time - 1 := by omega
          rcases hT.waiting i hi hlive hlt with h | h
          · exact hq h
          · exact hrun h
    · rw [hF.proc, hF.is_completed, hF.current_running_process_idx, hF.actual_start_time]
      intro i hi harr
      obtain ⟨h1, h2, h3, h4⟩ := hT.future i hi (by omega)
      refine ⟨?_, h2, h3, h4⟩
      rw [hmem]
      rintro (h | ⟨-, h⟩)
      · exact h1 h
      · have := h.2.1
        omega

/-! ## Step 2 (execution) and the loop invariant -/

theorem getD_set_of_lt {α : Type} (l : List α) (k i : Nat) (v d : α) (h : k < l.length) :
    (l.set k v).getD i d = if k = i then v else l.getD i d := by
  rw [getD_set]
  by_cases hk : k = i
  · rw [if_pos ⟨hk, h⟩, if_pos hk]
  · rw [if_neg (fun hh => hk hh.1), if_neg hk]

theorem procAt_set_of_lt (l : List Process) (k i : Nat) (v : Process) (h : k < l.length) :
    procAt (l.set k v) i = if k = i then v else procAt l i := by
  unfold procAt
  exact getD_set_of_lt l k i v default h

/-- The running process consumes its last time unit: it is stamped and marked
completed, and the CPU is freed. -/
theorem rr_complete_inv (orig : List Process) (q : Int) (s b : RrState) (idx : Nat)
    (hC : RrCore orig q s) (hT : RrTimed s.current_time (s.current_time - 1) s)
    (hrun : s.current_running_process_idx = some idx)
    (h0 : s.remaining_burst_time.getD idx 0 - 1 = 0)
    (e_proc : b.proc = s.proc.set idx
      { procAt s.proc idx with
        completionTime := s.current_time
        startTime := s.actual_start_time.getD idx 0 })
    (e_rem : b.remaining_burst_time =
      s.remaining_burst_time.set idx (s.remaining_burst_time.getD idx 0 - 1))
    (e_start : b.actual_start_time = s.actual_start_time)
    (e_done : b.is_completed = s.is_completed.set idx true)
    (e_queue : b.ready_queue = s.ready_queue)
    (e_front : b.queue_front_idx = s.queue_front_idx)
    (e_rear : b.queue_rear_idx = s.queue_rear_idx)
    (e_cnt : b.processes_in_queue = s.processes_in_queue)
    (e_time : b.current_time = s.current_time)
    (e_cc : b.completed_processes_count = s.completed_processes_count + 1)
    (e_run : b.current_running_process_idx = none)
    (e_slice : b.current_quantum_slice_used = 0) :
    RrCore orig q b ∧ RrTimed s.current_time (s.current_time - 1) b := by
  have hQ := hC.q
  have hidx : idx < s.proc.length := hQ.run_lt idx hrun
  have hlive : s.is_completed.getD idx false = false := hQ.run_live idx hrun
  have hnotin : idx ∉ queueList s := hQ.run_notin idx hrun
  have hlen : b.proc.length = s.proc.length := by rw [e_proc, List.length_set]
  have hql : queueList b = queueList s := by
    unfold queueList; rw [e_queue, e_front, e_cnt, hlen]
  have hP : ∀ i, procAt b.proc i = if idx = i then
      { procAt s.proc idx with
        completionTime := s.current_time
        startTime := s.actual_start_time.getD idx 0 } else procAt s.proc i := by
    intro i; rw [e_proc, procAt_set_of_lt _ _ _ _ hidx]
  have hR : ∀ i, b.remaining_burst_time.getD i 0 =
      if idx = i then s.remaining_burst_time.getD idx 0 - 1
      else s.remaining_burst_time.getD i 0 := by
    intro i; rw [e_rem, getD_set_of_lt _ _ _ _ _ (by rw [hQ.len_rem]; exact hidx)]
  have hD : ∀ i, b.is_completed.getD i false =
      if idx = i then true else s.is_completed.getD i false := by
    intro i; rw [e_done, getD_set_of_lt _ _ _ _ _ (by rw [hQ.len_done]; exact hidx)]
  have hQb : RrQInv b :=
    { n_pos := by rw [hlen]; exact hQ.n_pos
      len_rem := by rw [e_rem, List.length_set, hlen]; exact hQ.len_rem
      len_start := by rw [e_start, hlen]; exact hQ.len_start
      len_done := by rw [e_done, List.length_set, hlen]; exact hQ.len_done
      len_queue := by rw [e_queue, hlen]; exact hQ.len_queue
      front_lt := by rw [e_front, hlen]; exact hQ.front_lt
      rear_rel := by rw [e_rear, e_front, e_cnt, hlen]; exact hQ.rear_rel
      q_nodup := by rw [hql]; exact hQ.q_nodup
      q_lt := by rw [hql, hlen]; exact hQ.q_lt
      q_live := by
        rw [hql]
        intro x hx
        rw [hD, if_neg (fun (h : idx = x) => hnotin (h ▸ hx))]
        exact hQ.q_live x hx
      run_lt := by rw [e_run]; intro x hx; cases hx
      run_live := by rw [e_run]; intro x hx; cases hx
      run_notin := by rw [e_run]; intro x hx; cases hx
      count_eq := by
        rw [e_cc, e_done, count_true_set _ idx (by rw [hQ.len_done]; exact hidx) hlive,
          hQ.count_eq] }
  refine ⟨?_, ?_⟩
  · exact
      { q := hQb
        len_proc := by rw [hlen]; exact hC.len_proc
        arrival_eq := by
          intro i
          rw [hP]
          split_ifs with h
          · subst h; exact hC.arrival_eq idx
          · exact hC.arrival_eq i
        burst_eq := by
          intro i
          rw [hP]
          split_ifs with h
          · subst h; exact hC.burst_eq idx
          · exact hC.burst_eq i
        time_nonneg := by rw [e_time]; exact hC.time_nonneg
        rem_pos := by
          intro i hi
          rw [hD, hR]
          split_ifs with h
          · intro hh; exact absurd hh (by decide)
          · exact hC.rem_pos i (by rw [← hlen]; exact hi)
        rem_zero := by
          intro i hi
          rw [hD, hR]
          split_ifs with h
          · intro _; exact h0
          · exact hC.rem_zero i (by rw [← hlen]; exact hi)
        run_started := by rw [e_run]; intro x hx; cases hx
        started_arr := by
          intro i hi
          rw [e_start, hP]
          split_ifs with h
          · subst h; exact hC.started_arr idx hidx
          · exact hC.started_arr i (by rw [← hlen]; exact hi)
        done_times := by
          intro i hi
          rw [hD, hP, e_start]
          split_ifs with h
          · subst h
            intro _
            have h1 := hC.run_started idx hrun
            have h2 := hT.started_le idx hidx h1
            exact ⟨rfl, h1, by show s.actual_start_time.getD idx 0 < s.current_time; omega⟩
          · exact hC.done_times i (by rw [← hlen]; exact hi)
        slice := by
          rw [e_slice]
          have := hC.slice
          omega }
  · exact
      { waiting := by
          intro i hi
          rw [hD, hP, hql, e_run]
          split_ifs with h
          · intro hh; exact absurd hh (by decide)
          · intro hl ha
            rcases hT.waiting i (by rw [← hlen]; exact hi) hl ha with hw | hw
            · exact Or.inl hw
            · rw [hrun] at hw
              exact absurd (Option.some.inj hw) h
        future := by
          intro i hi
          rw [hD, hP, hql, e_run, e_start]
          split_ifs with h
          · subst h
            intro ha
            exact absurd hrun (hT.future idx hidx ha).2.1
          · intro ha
            obtain ⟨h1, -, h3, h4⟩ := hT.future i (by rw [← hlen]; exact hi) ha
            exact ⟨h1, by simp, h3, h4⟩
        started_le := by
          rw [hlen, e_start]; exact hT.started_le }

/-- The running process reaches the end of its quantum with burst left: it goes to the
tail of the ready queue and the CPU is freed. -/
theorem rr_preempt_inv (orig : List Process) (q : Int) (s b : RrState) (idx : Nat)
    (hC : RrCore orig q s) (hT : RrTimed s.current_time (s.current_time - 1) s)
    (hrun : s.current_running_process_idx = some idx)
    (h0 : s.remaining_burst_time.getD idx 0 - 1 ≠ 0)
    (e_proc : b.proc = s.proc)
    (e_rem : b.remaining_burst_time =
      s.remaining_burst_time.set idx (s.remaining_burst_time.getD idx 0 - 1))
    (e_start : b.actual_start_time = s.actual_start_time)
    (e_done : b.is_completed = s.is_completed)
    (e_queue : b.ready_queue =
      s.ready_queue.set ((s.queue_rear_idx + 1) % (s.proc.length : Int)).toNat idx)
    (e_front : b.queue_front_idx = s.queue_front_idx)
    (e_rear : b.queue_rear_idx = (s.queue_rear_idx + 1) % (s.proc.length : Int))
    (e_cnt : b.processes_in_queue = s.processes_in_queue + 1)
    (e_time : b.current_time = s.current_time)
    (e_cc : b.completed_processes_count = s.completed_processes_count)
    (e_run : b.current_running_process_idx = none)
    (e_slice : b.current_quantum_slice_used = 0) :
    RrCore orig q b ∧ RrTimed s.current_time (s.current_time - 1) b := by
  have hQ := hC.q
  have hidx : idx < s.proc.length := hQ.run_lt idx hrun
  have hlive : s.is_completed.getD idx false = false := hQ.run_live idx hrun
  have hnotin : idx ∉ queueList s := hQ.run_notin idx hrun
  have hcap : s.processes_in_queue < s.proc.length := by
    rw [← rr_queue_length]
    exact length_lt_of_nodup_of_not_mem _ _ idx hQ.q_nodup hQ.q_lt hidx hnotin
  have hql : queueList b = queueList s ++ [idx] := by
    unfold queueList
    rw [e_queue, e_front, e_cnt, e_proc, rr_enqueue_pos s hQ]
    exact ringList_enqueue _ _ _ _ idx hQ.len_queue hcap
  have hmem : ∀ y, y ∈ queueList b ↔ y ∈ queueList s ∨ y = idx := by
    intro y; rw [hql]; simp
  have hR : ∀ i, b.remaining_burst_time.getD i 0 =
      if idx = i then s.remaining_burst_time.getD idx 0 - 1
      else s.remaining_burst_time.getD i 0 := by
    intro i; rw [e_rem, getD_set_of_lt _ _ _ _ _ (by rw [hQ.len_rem]; exact hidx)]
  have hQb : RrQInv b :=
    { n_pos := by rw [e_proc]; exact hQ.n_pos
      len_rem := by rw [e_rem, List.length_set, e_proc]; exact hQ.len_rem
      len_start := by rw [e_start, e_proc]; exact hQ.len_start
      len_done := by rw [e_done, e_proc]; exact hQ.len_done
      len_queue := by rw [e_queue, List.length_set, e_proc]; exact hQ.len_queue
      front_lt := by rw [e_front, e_proc]; exact hQ.front_lt
      rear_rel := by
        rw [e_rear, e_front, e_cnt, e_proc, hQ.rear_rel]
        norm_cast
        rw [Nat.mod_add_mod, Nat.add_assoc]
      q_nodup := by
        rw [hql]
        exact List.Nodup.append hQ.q_nodup (List.nodup_singleton idx)
          (by
            intro y hy hy'
            rw [List.mem_singleton] at hy'
            subst hy'
            exact hnotin hy)
      q_lt := by
        intro y hy
        rw [e_proc]
        rcases (hmem y).mp hy with h | rfl
        · exact hQ.q_lt y h
        · exact hidx
      q_live := by
        intro y hy
        rw [e_done]
        rcases (hmem y).mp hy with h | rfl
        · exact hQ.q_live y h
        · exact hlive
      run_lt := by rw [e_run]; intro x hx; cases hx
      run_live := by rw [e_run]; intro x hx; cases hx
      run_notin := by rw [e_run]; intro x hx; cases hx
      count_eq := by rw [e_cc, e_done]; exact hQ.count_eq }
  refine ⟨?_, ?_⟩
  · exact
      { q := hQb
        len_proc := by rw [e_proc]; exact hC.len_proc
        arrival_eq := by rw [e_proc]; exact hC.arrival_eq
        burst_eq := by rw [e_proc]; exact hC.burst_eq
        time_nonneg := by rw [e_time]; exact hC.time_nonneg
        rem_pos := by
          intro i hi
          rw [e_done, hR]
          split_ifs with h
          · subst h
            intro hl
            have := hC.rem_pos idx hidx hl
            omega
          · exact hC.rem_pos i (by rw [← e_proc]; exact hi)
        rem_zero := by
          intro i hi
          rw [e_done, hR]
          split_ifs with h
          · subst h
            intro hl
            rw [hlive] at hl
            exact absurd hl (by decide)
          · exact hC.rem_zero i (by rw [← e_proc]; exact hi)
        run_started := by rw [e_run]; intro x hx; cases hx
        started_arr := by rw [e_proc, e_start]; exact hC.started_arr
        done_times := by rw [e_proc, e_done, e_start]; exact hC.done_times
        slice := by
          rw [e_slice]
          have := hC.slice
          omega }
  · exact
      { waiting := by
          intro i hi hl ha
          rw [e_proc] at hi ha
          rw [e_done] at hl
          left
          rw [hmem]
          rcases hT.waiting i hi hl ha with hw | hw
          · exact Or.inl hw
          · rw [hrun] at hw
            exact Or.inr (Option.some.inj hw).symm
        future := by
          intro i hi ha
          rw [e_proc] at hi ha
          rw [e_done, e_start, e_run, hmem]
          obtain ⟨h1, h2, h3, h4⟩ := hT.future i hi ha
          refine ⟨?_, by simp, h3, h4⟩
          rintro (h | rfl)
          · exact h1 h
          · exact h2 hrun
        started_le := by
          rw [e_proc, e_start]; exact hT.started_le }

/-- The running process consumes a time unit and stays on the CPU. -/
theorem rr_continue_inv (orig : List Process) (q : Int) (s b : RrState) (idx : Nat)
    (hC : RrCore orig q s) (hT : RrTimed s.current_time (s.current_time - 1) s)
    (hrun : s.current_running_process_idx = some idx)
    (h0 : s.remaining_burst_time.getD idx 0 - 1 ≠ 0)
    (hq : s.current_quantum_slice_used + 1 ≠ q)
    (e_proc : b.proc = s.proc)
    (e_rem : b.remaining_burst_time =
      s.remaining_burst_time.set idx (s.remaining_burst_time.getD idx 0 - 1))
    (e_start : b.actual_start_time = s.actual_start_time)
    (e_done : b.is_completed = s.is_completed)
    (e_queue : b.ready_queue = s.ready_queue)
    (e_front : b.queue_front_idx = s.queue_front_idx)
    (e_rear : b.queue_rear_idx = s.queue_rear_idx)
    (e_cnt : b.processes_in_queue = s.processes_in_queue)
    (e_time : b.current_time = s.current_time)
    (e_cc : b.completed_processes_count = s.completed_processes_count)
    (e_run : b.current_running_process_idx = s.current_running_process_idx)
    (e_slice : b.current_quantum_slice_used = s.current_quantum_slice_used + 1) :
    RrCore orig q b ∧ RrTimed s.current_time (s.current_time - 1) b := by
  have hQ := hC.q
  have hidx : idx < s.proc.length := hQ.run_lt idx hrun
  have hlive : s.is_completed.getD idx false = false := hQ.run_live idx hrun
  have hql : queueList b = queueList s := by
    unfold queueList; rw [e_queue, e_front, e_cnt, e_proc]
  have hR : ∀ i, b.remaining_burst_time.getD i 0 =
      if idx = i then s.remaining_burst_time.getD idx 0 - 1
      else s.remaining_burst_time.getD i 0 := by
    intro i; rw [e_rem, getD_set_of_lt _ _ _ _ _ (by rw [hQ.len_rem]; exact hidx)]
  have hQb : RrQInv b :=
    { n_pos := by rw [e_proc]; exact hQ.n_pos
      len_rem := by rw [e_rem, List.length_set, e_proc]; exact hQ.len_rem
      len_start := by rw [e_start, e_proc]; exact hQ.len_start
      len_done := by rw [e_done, e_proc]; exact hQ.len_done
      len_queue := by rw [e_queue, e_proc]; exact hQ.len_queue
      front_lt := by rw [e_front, e_proc]; exact hQ.front_lt
      rear_rel := by rw [e_rear, e_front, e_cnt, e_proc]; exact hQ.rear_rel
      q_nodup := by rw [hql]; exact hQ.q_nodup
      q_lt := by rw [hql, e_proc]; exact hQ.q_lt
      q_live := by rw [hql, e_done]; exact hQ.q_live
      run_lt := by rw [e_run, e_proc]; exact hQ.run_lt
      run_live := by rw [e_run, e_done]; exact hQ.run_live
      run_notin := by rw [e_run, hql]; exact hQ.run_notin
      count_eq := by rw [e_cc, e_done]; exact hQ.count_eq }
  refine ⟨?_, ?_⟩
  · exact
      { q := hQb
        len_proc := by rw [e_proc]; exact hC.len_proc
        arrival_eq := by rw [e_proc]; exact hC.arrival_eq
        burst_eq := by rw [e_proc]; exact hC.burst_eq
        time_nonneg := by rw [e_time]; exact hC.time_nonneg
        rem_pos := by
          intro i hi
          rw [e_done, hR]
          split_ifs with h
          · subst h
            intro hl
            have := hC.rem_pos idx hidx hl
            omega
          · exact hC.rem_pos i (by rw [← e_proc]; exact hi)
        rem_zero := by
          intro i hi
          rw [e_done, hR]
          split_ifs with h
          · subst h
            intro hl
            rw [hlive] at hl
            exact absurd hl (by decide)
          · exact hC.rem_zero i (by rw [← e_proc]; exact hi)
        run_started := by rw [e_run, e_start]; exact hC.run_started
        started_arr := by rw [e_proc, e_start]; exact hC.started_arr
        done_times := by rw [e_proc, e_done, e_start]; exact hC.done_times
        slice := by
          rw [e_slice]
          have := hC.slice
          omega }
  · exact
      { waiting := by rw [e_proc, e_done, hql, e_run]; exact hT.waiting
        future := by rw [e_proc, e_done, hql, e_run, e_start]; exact hT.future
        started_le := by rw [e_proc, e_start]; exact hT.started_le }

/-- Sum of an array after one write. -/
theorem sum_set_int (l : List Int) (k : Nat) (v : Int) (h : k < l.length) :
    (l.set k v).sum = l.sum - l.getD k 0 + v := by
  induction l generalizing k with
  | nil => simp at h
  | cons a rest ih =>
    cases k with
    | zero => simp [List.set]; ring
    | succ k =>
      have hk : k < rest.length := by simpa using h
      simp only [List.set_cons_succ, List.sum_cons, ih k hk, List.getD_cons_succ]
      ring

/-- Step 2 of the tick keeps the invariant, leaves the clock alone, and takes one unit off
the total remaining burst exactly when a process is running. -/
theorem rr_execute_inv (orig : List Process) (q : Int) (s : RrState)
    (hC : RrCore orig q s) (hT : RrTimed s.current_time (s.current_time - 1) s) :
    (RrCore orig q (rr_execute q s) ∧
        RrTimed s.current_time (s.current_time - 1) (rr_execute q s)) ∧
      (rr_execute q s).current_time = s.current_time ∧
      (rr_execute q s).remaining_burst_time.sum =
        s.remaining_burst_time.sum -
          (if s.current_running_process_idx = none then 0 else 1) := by
  cases hrun : s.current_running_process_idx with
  | none =>
    have : rr_execute q s = s := by unfold rr_execute; rw [hrun]
    rw [this]
    exact ⟨⟨hC, hT⟩, rfl, by simp⟩
  | some idx =>
    have hidx : idx < s.remaining_burst_time.length := by
      rw [hC.q.len_rem]; exact hC.q.run_lt idx hrun
    have hsum : (s.remaining_burst_time.set idx
        (s.remaining_burst_time.getD idx 0 - 1)).sum = s.remaining_burst_time.sum - 1 := by
      rw [sum_set_int _ _ _ hidx]; ring
    have hget : (s.remaining_burst_time.set idx
        (s.remaining_burst_time.getD idx 0 - 1)).getD idx 0 =
        s.remaining_burst_time.getD idx 0 - 1 := by
      rw [getD_set_of_lt _ _ _ _ _ hidx, if_pos rfl]
    rw [if_neg (Option.some_ne_none idx)]
    unfold rr_execute
    rw [hrun]
    dsimp only
    rw [hget]
    split_ifs with h0 hq
    · exact ⟨rr_complete_inv orig q s _ idx hC hT hrun h0
        rfl rfl rfl rfl rfl rfl rfl rfl rfl rfl rfl rfl, rfl, by simpa using hsum⟩
    · exact ⟨rr_preempt_inv orig q s _ idx hC hT hrun h0
        rfl rfl rfl rfl rfl rfl rfl rfl rfl rfl rfl rfl, rfl, by simpa [rr_enqueue] using hsum⟩
    · exact ⟨rr_continue_inv orig q s _ idx hC hT hrun h0 hq
        rfl rfl rfl rfl rfl rfl rfl rfl rfl rfl hrun.symm rfl, rfl, by simpa using hsum⟩

/-! ## Step 3 (dispatch), step 4 (clock) and the loop invariant -/

/-- The free CPU takes the head of the ready queue. -/
theorem rr_take_inv (orig : List Process) (q : Int) (s b : RrState) (idx : Nat)
    (hC : RrCore orig q s) (hT : RrTimed s.current_time (s.current_time - 1) s)
    (hrun : s.current_running_process_idx = none) (hcnt : 0 < s.processes_in_queue)
    (hidx : idx = s.ready_queue.getD s.queue_front_idx 0)
    (e_proc : b.proc = s.proc)
    (e_rem : b.remaining_burst_time = s.remaining_burst_time)
    (e_start : b.actual_start_time =
      if s.actual_start_time.getD idx 0 = -1 then s.actual_start_time.set idx s.current_time
      else s.actual_start_time)
    (e_done : b.is_completed = s.is_completed)
    (e_queue : b.ready_queue = s.ready_queue)
    (e_front : b.queue_front_idx = (s.queue_front_idx + 1) % s.proc.length)
    (e_rear : b.queue_rear_idx = s.queue_rear_idx)
    (e_cnt : b.processes_in_queue = s.processes_in_queue - 1)
    (e_time : b.current_time = s.current_time)
    (e_cc : b.completed_processes_count = s.completed_processes_count)
    (e_run : b.current_running_process_idx = some idx)
    (e_slice : b.current_quantum_slice_used = 0) :
    RrCore orig q b ∧ RrTimed s.current_time s.current_time b := by
  have hQ := hC.q
  have hdq : queueList s = idx :: queueList b := by
    unfold queueList
    rw [e_queue, e_front, e_cnt, e_proc, hidx]
    exact ringList_dequeue _ _ _ _ hQ.front_lt hcnt
  have hnd := hQ.q_nodup
  rw [hdq] at hnd
  obtain ⟨hnotin, hnd'⟩ := List.nodup_cons.mp hnd
  have hin : idx ∈ queueList s := by rw [hdq]; exact List.mem_cons_self _ _
  have hsub : ∀ y, y ∈ queueList b → y ∈ queueList s := by
    intro y hy; rw [hdq]; exact List.mem_cons_of_mem _ hy
  have hlt : idx < s.proc.length := hQ.q_lt idx hin
  have hlive : s.is_completed.getD idx false = false := hQ.q_live idx hin
  have harr : (procAt s.proc idx).arrivalTime ≤ s.current_time := by
    by_contra hcon
    exact (hT.future idx hlt (not_le.mp hcon)).1 hin
  have hS : ∀ i, b.actual_start_time.getD i 0 =
      if idx = i ∧ s.actual_start_time.getD idx 0 = -1 then s.current_time
      else s.actual_start_time.getD i 0 := by
    intro i
    rw [e_start]
    by_cases h : s.actual_start_time.getD idx 0 = -1
    · rw [if_pos h, getD_set_of_lt _ _ _ _ _ (by rw [hQ.len_start]; exact hlt)]
      by_cases hi : idx = i
      · rw [if_pos hi, if_pos ⟨hi, h⟩]
      · rw [if_neg hi, if_neg (fun hh => hi hh.1)]
    · rw [if_neg h, if_neg (fun hh => h hh.2)]
  have htime := hC.time_nonneg
  have hQb : RrQInv b :=
    { n_pos := by rw [e_proc]; exact hQ.n_pos
      len_rem := by rw [e_rem, e_proc]; exact hQ.len_rem
      len_start := by
        rw [e_start, e_proc]
        split_ifs
        · rw [List.length_set]; exact hQ.len_start
        · exact hQ.len_start
      len_done := by rw [e_done, e_proc]; exact hQ.len_done
      len_queue := by rw [e_queue, e_proc]; exact hQ.len_queue
      front_lt := by rw [e_front, e_proc]; exact Nat.mod_lt _ hQ.n_pos
      rear_rel := by
        rw [e_rear, e_front, e_cnt, e_proc, hQ.rear_rel, Nat.mod_add_mod]
        congr 2
        omega
      q_nodup := hnd'
      q_lt := by
        intro y hy
        rw [e_proc]
        exact hQ.q_lt y (hsub y hy)
      q_live := by
        intro y hy
        rw [e_done]
        exact hQ.q_live y (hsub y hy)
      run_lt := by
        rw [e_run, e_proc]
        intro x hx
        cases hx
        exact hlt
      run_live := by
        rw [e_run, e_done]
        intro x hx
        cases hx
        exact hlive
      run_notin := by
        rw [e_run]
        intro x hx
        cases hx
        exact hnotin
      count_eq := by rw [e_cc, e_done]; exact hQ.count_eq }
  refine ⟨?_, ?_⟩
  · exact
      { q := hQb
        len_proc := by rw [e_proc]; exact hC.len_proc
        arrival_eq := by rw [e_proc]; exact hC.arrival_eq
        burst_eq := by rw [e_proc]; exact hC.burst_eq
        time_nonneg := by rw [e_time]; exact hC.time_nonneg
        rem_pos := by rw [e_proc, e_done, e_rem]; exact hC.rem_pos
        rem_zero := by rw [e_proc, e_done, e_rem]; exact hC.rem_zero
        run_started := by
          rw [e_run]
          intro x hx
          cases hx
          rw [hS]
          split_ifs with h
          · omega
          · intro hh
            exact h ⟨rfl, hh⟩
        started_arr := by
          intro i hi
          rw [e_proc] at hi ⊢
          rw [hS]
          split_ifs with h
          · intro _
            rw [← h.1]
            exact harr
          · exact hC.started_arr i hi
        done_times := by
          intro i hi hd
          rw [e_proc] at hi ⊢
          rw [e_done] at hd
          rw [hS, if_neg]
          · exact hC.done_times i hi hd
          · rintro ⟨rfl, -⟩
            rw [hlive] at hd
            exact absurd hd (by decide)
        slice := by
          rw [e_slice]
          have := hC.slice
          omega }
  · exact
      { waiting := by
          intro i hi hl ha
          rw [e_proc] at hi ha
          rw [e_done] at hl
          rw [e_run]
          rcases hT.waiting i hi hl ha with hw | hw
          · rw [hdq] at hw
            rcases List.mem_cons.mp hw with rfl | hw
            · exact Or.inr rfl
            · exact Or.inl hw
          · rw [hrun] at hw
            cases hw
        future := by
          intro i hi ha
          rw [e_proc] at hi ha
          rw [e_done, e_run, hS]
          obtain ⟨h1, h2, h3, h4⟩ := hT.future i hi ha
          have hne : idx ≠ i := by
            rintro rfl
            exact h1 hin
          refine ⟨fun h => h1 (hsub i h), ?_, h3, ?_⟩
          · intro h
            exact hne (Option.some.inj h)
          · rw [if_neg (fun hh => hne hh.1)]
            exact h4
        started_le := by
          intro i hi
          rw [e_proc] at hi
          rw [hS]
          split_ifs with h
          · intro _; exact le_refl _
          · intro hh
            have := hT.started_le i hi hh
            omega }

/-- Step 3 of the tick keeps the invariant, brings the recorded first dispatches up to the
current time, and leaves the CPU idle only with an empty queue. -/
theorem rr_dispatch_inv (orig : List Process) (q : Int) (s : RrState)
    (hC : RrCore orig q s) (hT : RrTimed s.current_time (s.current_time - 1) s) :
    (RrCore orig q (rr_dispatch s) ∧
        RrTimed s.current_time s.current_time (rr_dispatch s)) ∧
      ((rr_dispatch s).current_running_process_idx = none →
        (rr_dispatch s).processes_in_queue = 0) ∧
      (rr_dispatch s).current_time = s.current_time ∧
      (rr_dispatch s).remaining_burst_time = s.remaining_burst_time ∧
      (rr_dispatch s).completed_processes_count = s.completed_processes_count := by
  unfold rr_dispatch
  dsimp only
  split_ifs with h h2
  · exact ⟨rr_take_inv orig q s _ (s.ready_queue.getD s.queue_front_idx 0) hC hT h.1 h.2 rfl
      rfl rfl (if_pos h2).symm rfl rfl rfl rfl rfl rfl rfl rfl rfl,
      (fun hh => hh.elim), rfl, rfl, rfl⟩
  · exact ⟨rr_take_inv orig q s _ (s.ready_queue.getD s.queue_front_idx 0) hC hT h.1 h.2 rfl
      rfl rfl (if_neg h2).symm rfl rfl rfl rfl rfl rfl rfl rfl rfl,
      (fun hh => hh.elim), rfl, rfl, rfl⟩
  · refine ⟨⟨hC, ⟨hT.waiting, hT.future, ?_⟩⟩, ?_, rfl, rfl, rfl⟩
    · intro i hi hh
      have := hT.started_le i hi hh
      omega
    · intro hrun
      by_contra hne
      exact h ⟨hrun, Nat.pos_of_ne_zero hne⟩

theorem rr_advance_inv (orig : List Process) (q : Int) (s : RrState)
    (hC : RrCore orig q s) (hT : RrTimed s.current_time s.current_time s)
    (hidle : s.current_running_process_idx = none → s.processes_in_queue = 0) :
    RrInv orig q (rr_advance s) := by
  have ht : (rr_advance s).current_time - 1 = s.current_time := by
    show s.current_time + 1 - 1 = s.current_time
    ring
  refine ⟨?_, ?_, hidle⟩
  · exact
      { q :=
          { n_pos := hC.q.n_pos
            len_rem := hC.q.len_rem
            len_start := hC.q.len_start
            len_done := hC.q.len_done
            len_queue := hC.q.len_queue
            front_lt := hC.q.front_lt
            rear_rel := hC.q.rear_rel
            q_nodup := hC.q.q_nodup
            q_lt := hC.q.q_lt
            q_live := hC.q.q_live
            run_lt := hC.q.run_lt
            run_live := hC.q.run_live
            run_notin := hC.q.run_notin
            count_eq := hC.q.count_eq }
        len_proc := hC.len_proc
        arrival_eq := hC.arrival_eq
        burst_eq := hC.burst_eq
        time_nonneg := by
          show 0 ≤ s.current_time + 1
          have := hC.time_nonneg
          omega
        rem_pos := hC.rem_pos
        rem_zero := hC.rem_zero
        run_started := hC.run_started
        started_arr := hC.started_arr
        done_times := hC.done_times
        slice := hC.slice }
  · rw [ht]
    exact ⟨hT.waiting, hT.future, hT.started_le⟩

/-- One iteration of the loop: steps 1 to 3 followed by the clock tick re-establish the
invariant; the tick takes one unit off the total remaining burst exactly when a process
was running at the loop head. -/
theorem rr_tick_inv (orig : List Process) (q : Int) (s : RrState) (hI : RrInv orig q s) :
    RrInv orig q (rr_advance (rr_tick q s)) ∧
      (rr_tick q s).current_time = s.current_time ∧
      (rr_tick q s).remaining_burst_time.sum =
        s.remaining_burst_time.sum -
          (if (rr_admission s).current_running_process_idx = none then 0 else 1) := by
  obtain ⟨hCa, hTa⟩ := rr_admission_inv orig q s hI
  have hFa := (rr_admission_spec s hI.core.q).2.1
  rw [← hFa.current_time] at hTa
  obtain ⟨⟨hCb, hTb⟩, hbt, hbsum⟩ := rr_execute_inv orig q (rr_admission s) hCa hTa
  rw [← hbt] at hTb
  obtain ⟨⟨hCd, hTd⟩, hidle, hdt, hdrem, -⟩ :=
    rr_dispatch_inv orig q (rr_execute q (rr_admission s)) hCb hTb
  rw [← hdt] at hTd
  refine ⟨rr_advance_inv orig q _ hCd hTd hidle, ?_, ?_⟩
  · show (rr_dispatch (rr_execute q (rr_admission s))).current_time = s.current_time
    rw [hdt, hbt, hFa.current_time]
  · show (rr_dispatch (rr_execute q (rr_admission s))).remaining_burst_time.sum = _
    rw [hdrem, hbsum, hFa.remaining_burst_time]

/-! ## The Round-Robin loop: initial state, termination, final state -/

theorem procAt_map_reset (proc : List Process) (i : Nat) :
    procAt (proc.map fun p => { p with startTime := 0, completionTime := 0 }) i =
      { procAt proc i with startTime := 0, completionTime := 0 } := by
  unfold procAt
  rw [List.getD_eq_getElem?_getD, List.getD_eq_getElem?_getD, List.getElem?_map]
  cases proc[i]? <;> rfl

theorem getD_map_burst (proc : List Process) (i : Nat) :
    (proc.map fun p => p.burstTime).getD i 0 = (procAt proc i).burstTime := by
  unfold procAt
  rw [List.getD_eq_getElem?_getD, List.getD_eq_getElem?_getD, List.getElem?_map]
  cases proc[i]? <;> rfl

theorem getD_map_false (proc : List Process) (i : Nat) :
    (proc.map fun _ => false).getD i false = false := by
  rw [List.getD_eq_getElem?_getD, List.getElem?_map]
  cases proc[i]? <;> rfl

theorem getD_map_neg_one (proc : List Process) (i : Nat) (hi : i < proc.length) :
    (proc.map fun _ => (-1 : Int)).getD i 0 = -1 := by
  rw [List.getD_eq_getElem?_getD, List.getElem?_map, List.getElem?_eq_getElem hi]
  rfl

theorem rr_init_inv (proc : List Process) (q : Int) (hn : 1 ≤ proc.length)
    (h : ∀ p ∈ proc, 0 ≤ p.arrivalTime ∧ 0 < p.burstTime) (hq : 1 ≤ q) :
    RrInv proc q (rr_init proc) := by
  have hlen : (rr_init proc).proc.length = proc.length := by simp [rr_init]
  have hql : queueList (rr_init proc) = [] := by simp [queueList, rr_init, ringList]
  have hQ : RrQInv (rr_init proc) :=
    { n_pos := by rw [hlen]; exact hn
      len_rem := by simp [rr_init]
      len_start := by simp [rr_init]
      len_done := by simp [rr_init]
      len_queue := by simp [rr_init]
      front_lt := by rw [hlen]; exact hn
      rear_rel := by simp [rr_init]
      q_nodup := by rw [hql]; exact List.nodup_nil
      q_lt := by rw [hql]; intro x hx; cases hx
      q_live := by rw [hql]; intro x hx; cases hx
      run_lt := by intro x hx; cases hx
      run_live := by intro x hx; cases hx
      run_notin := by intro x hx; cases hx
      count_eq := by
        show 0 = (proc.map fun _ => false).count true
        symm
        rw [List.count_eq_zero]
        intro hmem
        obtain ⟨_, _, hh⟩ := List.mem_map.mp hmem
        cases hh }
  refine ⟨?_, ?_, fun _ => rfl⟩
  · exact
      { q := hQ
        len_proc := hlen
        arrival_eq := by
          intro i
          show (procAt (proc.map _) i).arrivalTime = _
          rw [procAt_map_reset]
        burst_eq := by
          intro i
          show (procAt (proc.map _) i).burstTime = _
          rw [procAt_map_reset]
        time_nonneg := le_refl _
        rem_pos := by
          intro i hi _
          rw [hlen] at hi
          show 1 ≤ (proc.map fun p => p.burstTime).getD i 0
          rw [getD_map_burst]
          have := (h _ (procAt_mem proc i hi)).2
          omega
        rem_zero := by
          intro i _ hd
          have : (proc.map fun _ => false).getD i false = true := hd
          rw [getD_map_false] at this
          exact absurd this (by decide)
        run_started := by intro x hx; cases hx
        started_arr := by
          intro i hi hs
          rw [hlen] at hi
          exact absurd (getD_map_neg_one proc i hi) hs
        done_times := by
          intro i _ hd
          have : (proc.map fun _ => false).getD i false = true := hd
          rw [getD_map_false] at this
          exact absurd this (by decide)
        slice := ⟨le_refl _, by show (0 : Int) < q; omega⟩ }
  · exact
      { waiting := by
          intro i hi _ ha
          rw [hlen] at hi
          have h1 : (procAt (rr_init proc).proc i).arrivalTime = (procAt proc i).arrivalTime := by
            show (procAt (proc.map _) i).arrivalTime = _
            rw [procAt_map_reset]
          have h2 := (h _ (procAt_mem proc i hi)).1
          have h3 : (rr_init proc).current_time = 0 := rfl
          omega
        future := by
          intro i hi _
          rw [hlen] at hi
          rw [hql]
          exact ⟨List.not_mem_nil i, (fun hh => by cases hh), getD_map_false proc i,
            getD_map_neg_one proc i hi⟩
        started_le := by
          intro i hi hs
          rw [hlen] at hi
          exact absurd (getD_map_neg_one proc i hi) hs }

theorem sum_nonneg_of_getD (l : List Int) (h : ∀ i, i < l.length → 0 ≤ l.getD i 0) :
    0 ≤ l.sum := by
  apply List.sum_nonneg
  intro x hx
  obtain ⟨i, hi, rfl⟩ := List.mem_iff_getElem.mp hx
  have := h i hi
  rw [List.getD_eq_getElem?_getD, List.getElem?_eq_getElem hi] at this
  exact this

theorem sum_eq_zero_of_getD (l : List Int) (h : ∀ i, i < l.length → l.getD i 0 = 0) :
    l.sum = 0 := by
  apply List.sum_eq_zero
  intro x hx
  obtain ⟨i, hi, rfl⟩ := List.mem_iff_getElem.mp hx
  have := h i hi
  rw [List.getD_eq_getElem?_getD, List.getElem?_eq_getElem hi] at this
  exact this

theorem rr_remaining_nonneg (orig : List Process) (q : Int) (s : RrState)
    (hC : RrCore orig q s) : 0 ≤ s.remaining_burst_time.sum := by
  apply sum_nonneg_of_getD
  intro i hi
  rw [hC.q.len_rem] at hi
  cases hd : s.is_completed.getD i false with
  | false => have := hC.rem_pos i hi hd; omega
  | true => rw [hC.rem_zero i hi hd]

theorem rr_completed_le (orig : List Process) (q : Int) (s : RrState)
    (hC : RrCore orig q s) : s.completed_processes_count ≤ s.proc.length := by
  rw [hC.q.count_eq, ← hC.q.len_done]
  exact List.count_le_length _ _

/-- Every iteration that the loop goes through lowers the bound on the iterations left. -/
theorem rr_measure_decrease (orig : List Process) (q M : Int) (s : RrState)
    (hI : RrInv orig q s) (hcond : s.completed_processes_count < s.proc.length)
    (hM : ∀ i, i < orig.length → (procAt orig i).arrivalTime ≤ M) :
    rrMeasure M (rr_advance (rr_tick q s)) < rrMeasure M s := by
  obtain ⟨hI', ht, hsum⟩ := rr_tick_inv orig q s hI
  have hFa := (rr_admission_spec s hI.core.q).2.1
  rw [hFa.current_running_process_idx] at hsum
  have hnn := rr_remaining_nonneg orig q _ hI'.core
  have hsum' : (rr_advance (rr_tick q s)).remaining_burst_time.sum =
      s.remaining_burst_time.sum -
        (if s.current_running_process_idx = none then 0 else 1) := hsum
  have ht' : (rr_advance (rr_tick q s)).current_time = s.current_time + 1 := by
    show (rr_tick q s).current_time + 1 = _
    rw [ht]
  unfold rrMeasure
  rw [ht']
  rw [hsum'] at hnn ⊢
  by_cases hrun : s.current_running_process_idx = none
  · rw [if_pos hrun] at hnn ⊢
    obtain ⟨i, hi, hif⟩ := exists_unflagged s.is_completed (by
      rw [← hI.core.q.count_eq, hI.core.q.len_done]; exact hcond)
    rw [hI.core.q.len_done] at hi
    have hq0 : queueList s = [] := by
      apply List.eq_nil_of_length_eq_zero
      rw [rr_queue_length]
      exact hI.idle_empty hrun
    have harr : s.current_time ≤ (procAt s.proc i).arrivalTime := by
      by_contra hcon
      rcases hI.timed.waiting i hi hif (by omega) with hw | hw
      · rw [hq0] at hw
        cases hw
      · rw [hrun] at hw
        cases hw
    have hb := hM i (by rw [← hI.core.len_proc]; exact hi)
    rw [← hI.core.arrival_eq] at hb
    omega
  · rw [if_neg hrun] at hnn ⊢
    omega

/-- Total correctness of the loop from any state that satisfies the invariant. -/
theorem rr_loop_total (orig : List Process) (q M : Int)
    (hM : ∀ i, i < orig.length → (procAt orig i).arrivalTime ≤ M) :
    ∀ (fuel : Nat) (s : RrState), RrInv orig q s →
      s.completed_processes_count < s.proc.length → rrMeasure M s ≤ fuel →
      ∃ r, rr_loop q fuel s = some r ∧ RrInv orig q (rr_advance r) ∧
        r.completed_processes_count = r.proc.length := by
  intro fuel
  induction fuel with
  | zero =>
    intro s hI hcond hm
    have := rr_measure_decrease orig q M s hI hcond hM
    omega
  | succ fuel ih =>
    intro s hI hcond hm
    have hdec := rr_measure_decrease orig q M s hI hcond hM
    obtain ⟨hI', -, -⟩ := rr_tick_inv orig q s hI
    unfold rr_loop
    rw [if_pos hcond]
    split_ifs with hc
    · exact ih _ hI' hc (by omega)
    · refine ⟨_, rfl, hI', ?_⟩
      have := rr_completed_le orig q _ hI'.core
      have h1 : (rr_advance (rr_tick q s)).completed_processes_count =
          (rr_tick q s).completed_processes_count := rfl
      have h2 : (rr_advance (rr_tick q s)).proc = (rr_tick q s).proc := rfl
      rw [h1, h2] at this
      omega

theorem rr_loop_mono (q : Int) (fuel : Nat) (s r : RrState)
    (h : rr_loop q fuel s = some r) : ∀ extra, rr_loop q (fuel + extra) s = some r := by
  induction fuel generalizing s with
  | zero =>
    intro extra
    unfold rr_loop at h
    split_ifs at h with hlt
    cases extra with
    | zero => unfold rr_loop; rw [if_neg hlt]; exact h
    | succ e => rw [Nat.zero_add]; unfold rr_loop; rw [if_neg hlt]; exact h
  | succ fuel ih =>
    intro extra
    rw [Nat.add_right_comm]
    unfold rr_loop at h ⊢
    split_ifs at h ⊢ with hlt hc
    · exact ih _ h extra
    · exact h
    · exact h

theorem rrReturns_of_eval (q : Int) (proc : List Process) (r : RrState) (fuel : Nat)
    (h : rr_final q fuel proc = some r) : RrReturns q proc r := by
  refine ⟨fuel, fun f hf => ?_⟩
  obtain ⟨e, rfl⟩ := Nat.exists_eq_add_of_le hf
  exact rr_loop_mono q fuel _ r h e

/-- Total correctness of `rr_metrics` on a well-formed batch: the loop ends, in a state
whose successor satisfies the invariant and in which the completion counter equals `n`. -/
theorem rr_total (proc : List Process) (q : Int) (hn : 1 ≤ proc.length)
    (h : ∀ p ∈ proc, 0 ≤ p.arrivalTime ∧ 0 < p.burstTime) (hq : 1 ≤ q) :
    ∃ r, RrReturns q proc r ∧ RrInv proc q (rr_advance r) ∧
      r.completed_processes_count = r.proc.length := by
  obtain ⟨M, hM⟩ := exists_arrival_bound proc
  have hM' : ∀ i, i < proc.length → (procAt proc i).arrivalTime ≤ M :=
    fun i hi => hM _ (procAt_mem proc i hi)
  have hI := rr_init_inv proc q hn h hq
  have hcond : (rr_init proc).completed_processes_count < (rr_init proc).proc.length := by
    rw [hI.core.len_proc]
    exact hn
  obtain ⟨r, hr, hI', hc⟩ := rr_loop_total proc q M hM' (rrMeasure M (rr_init proc))
    (rr_init proc) hI hcond (le_refl _)
  exact ⟨r, rrReturns_of_eval q proc r _ hr, hI', hc⟩

/-- In the final state every process is marked completed, has no burst left, and carries
its first dispatch time and a later completion time. -/
theorem rr_final_state (orig : List Process) (q : Int) (r : RrState)
    (hI : RrInv orig q (rr_advance r))
    (hc : r.completed_processes_count = r.proc.length) (i : Nat) (hi : i < r.proc.length) :
    r.is_completed.getD i false = true ∧ r.remaining_burst_time.getD i 0 = 0 ∧
      (procAt r.proc i).arrivalTime ≤ (procAt r.proc i).startTime ∧
      (procAt r.proc i).startTime < (procAt r.proc i).completionTime := by
  have hC := hI.core
  have hflag : r.is_completed.getD i false = true := by
    apply all_true_of_count
    · have h1 : r.completed_processes_count = r.is_completed.count true := hC.q.count_eq
      have h2 : r.is_completed.length = r.proc.length := hC.q.len_done
      rw [← h1, hc, h2]
    · have h2 : r.is_completed.length = r.proc.length := hC.q.len_done
      rw [h2]; exact hi
  obtain ⟨d1, d2, d3⟩ := hC.done_times i hi hflag
  have d4 := hC.started_arr i hi d2
  refine ⟨hflag, hC.rem_zero i hi hflag, ?_, d3⟩
  show (procAt r.proc i).arrivalTime ≤ (procAt r.proc i).startTime
  have d1' : (procAt r.proc i).startTime = r.actual_start_time.getD i 0 := d1
  have d4' : (procAt r.proc i).arrivalTime ≤ r.actual_start_time.getD i 0 := d4
  omega

/-! ## Busy ticks of the Round-Robin loop -/

theorem rr_admission_step_frame (s : RrState) (i : Nat) : RrFrame s (rr_admission_step s i) := by
  unfold rr_admission_step
  split_ifs
  · exact rr_enqueue_frame s i
  · exact RrFrame.refl s
  · exact RrFrame.refl s

theorem rr_admission_fold_frame (is : List Nat) (s : RrState) :
    RrFrame s (is.foldl rr_admission_step s) := by
  induction is generalizing s with
  | nil => exact RrFrame.refl s
  | cons i is ih =>
    rw [List.foldl_cons]
    exact (rr_admission_step_frame s i).trans (ih _)

theorem rr_admission_frame (s : RrState) : RrFrame s (rr_admission s) :=
  rr_admission_fold_frame _ s

/-- Step 2 keeps the slice counter below the quantum: the incremented value is at most the
quantum, and when it reaches the quantum the CPU is freed and the counter reset. -/
theorem rr_execute_slice (q : Int) (s : RrState)
    (h : 0 ≤ s.current_quantum_slice_used ∧ s.current_quantum_slice_used < q) :
    0 ≤ (rr_execute q s).current_quantum_slice_used ∧
      (rr_execute q s).current_quantum_slice_used < q ∧
      (s.current_running_process_idx ≠ none → s.current_quantum_slice_used + 1 = q →
        (rr_execute q s).current_running_process_idx = none) := by
  unfold rr_execute
  cases hrun : s.current_running_process_idx with
  | none => exact ⟨h.1, h.2, fun hh => absurd rfl hh⟩
  | some idx =>
    dsimp only
    split_ifs with h0 hq
    · exact ⟨le_refl _, by show (0 : Int) < q; omega, fun _ _ => rfl⟩
    · exact ⟨le_refl _, by show (0 : Int) < q; omega, fun _ _ => rfl⟩
    · refine ⟨by show 0 ≤ s.current_quantum_slice_used + 1; omega,
        by show s.current_quantum_slice_used + 1 < q; omega, fun _ hh => absurd hh hq⟩

theorem rr_dispatch_slice (q : Int) (s : RrState)
    (h : 0 ≤ s.current_quantum_slice_used ∧ s.current_quantum_slice_used < q) :
    0 ≤ (rr_dispatch s).current_quantum_slice_used ∧
      (rr_dispatch s).current_quantum_slice_used < q := by
  unfold rr_dispatch
  dsimp only
  split_ifs
  · exact ⟨le_refl _, by show (0 : Int) < q; omega⟩
  · exact ⟨le_refl _, by show (0 : Int) < q; omega⟩
  · exact h

theorem rr_tick_slice (q : Int) (s : RrState)
    (h : 0 ≤ s.current_quantum_slice_used ∧ s.current_quantum_slice_used < q) :
    0 ≤ (rr_tick q s).current_quantum_slice_used ∧
      (rr_tick q s).current_quantum_slice_used < q := by
  have ha : 0 ≤ (rr_admission s).current_quantum_slice_used ∧
      (rr_admission s).current_quantum_slice_used < q := by
    rw [(rr_admission_frame s).current_quantum_slice_used]; exact h
  have hb := rr_execute_slice q _ ha
  exact rr_dispatch_slice q _ ⟨hb.1, hb.2.1⟩

theorem rr_run_slice (q : Int) (k : Nat) (s : RrState)
    (h : 0 ≤ s.current_quantum_slice_used ∧ s.current_quantum_slice_used < q) :
    0 ≤ (rr_run q k s).current_quantum_slice_used ∧
      (rr_run q k s).current_quantum_slice_used < q := by
  induction k generalizing s with
  | zero => exact h
  | succ k ih =>
    unfold rr_run
    split_ifs
    · exact ih _ (rr_tick_slice q s h)
    · exact h

/-- The state in which the loop ends is the end-of-tick state of one of the loop heads
that `rr_run` enumerates. -/
theorem rr_loop_run (q : Int) :
    ∀ (fuel : Nat) (s r : RrState), rr_loop q fuel s = some r →
      s.completed_processes_count < s.proc.length →
      ∃ k, k < fuel ∧ r = rr_tick q (rr_run q k s) := by
  intro fuel
  induction fuel with
  | zero =>
    intro s r h hcond
    unfold rr_loop at h
    rw [if_pos hcond] at h
    cases h
  | succ fuel ih =>
    intro s r h hcond
    unfold rr_loop at h
    rw [if_pos hcond] at h
    split_ifs at h with hc
    · obtain ⟨k, hk, hr⟩ := ih _ r h hc
      refine ⟨k + 1, by omega, ?_⟩
      rw [hr]
      conv_rhs => unfold rr_run
      rw [if_pos ⟨hcond, hc⟩]
    · cases h
      exact ⟨0, by omega, rfl⟩

/-! ## Claims on Round Robin -/

theorem rrSchedules_of_returns (q : Int) (proc : List Process) (r : RrState)
    (hn : 1 ≤ proc.length) (h : RrReturns q proc r) : RrSchedules q proc r.proc := by
  obtain ⟨N, hN⟩ := h
  refine ⟨N, fun fuel hf => ?_⟩
  unfold rr_schedule
  rw [if_neg (by omega), hN fuel hf]
  rfl

/-- In the integers: the Round-Robin loop ends and every process of the resulting array
satisfies completionTime >= startTime >= arrivalTime. -/
theorem rr_ordered (proc : List Process) (timeQuantum : Int) (hn : 1 ≤ proc.length)
    (h : ∀ p ∈ proc, 0 ≤ p.arrivalTime ∧ 0 < p.burstTime) (hq : 1 ≤ timeQuantum) :
    ∃ r, RrSchedules timeQuantum proc r ∧ r.length = proc.length ∧ ∀ p ∈ r, Ordered p := by
  obtain ⟨r, hret, hI, hc⟩ := rr_total proc timeQuantum hn h hq
  have hlen : r.proc.length = proc.length := hI.core.len_proc
  refine ⟨r.proc, rrSchedules_of_returns timeQuantum proc r hn hret, hlen, ?_⟩
  intro p hp
  obtain ⟨i, hi, rfl⟩ := mem_procAt _ p hp
  obtain ⟨-, -, h3, h4⟩ := rr_final_state proc timeQuantum r hI hc i hi
  exact ⟨h3, le_of_lt h4⟩

/-- C9: for every batch and every timeQuantum >= 1, at the head of every iteration of the
loop of `rr_metrics` the slice counter is at least 0 and, once incremented in step 2, at
most timeQuantum; a running process whose incremented counter reaches timeQuantum leaves
the CPU in that step; and at the end of the tick the counter is strictly below
timeQuantum, in particular whenever a process is still on the CPU. -/
theorem c9_rr_slice_bound (proc : List Process) (timeQuantum : Int) (hq : 1 ≤ timeQuantum)
    (k : Nat) :
    (0 ≤ (rr_run timeQuantum k (rr_init proc)).current_quantum_slice_used ∧
      (rr_admission (rr_run timeQuantum k (rr_init proc))).current_quantum_slice_used + 1 ≤
        timeQuantum) ∧
    ((rr_admission (rr_run timeQuantum k (rr_init proc))).current_running_process_idx ≠ none →
      (rr_admission (rr_run timeQuantum k (rr_init proc))).current_quantum_slice_used + 1 =
        timeQuantum →
      (rr_execute timeQuantum
        (rr_admission (rr_run timeQuantum k (rr_init proc)))).current_running_process_idx =
        none) ∧
    0 ≤ (rr_tick timeQuantum
      (rr_run timeQuantum k (rr_init proc))).current_quantum_slice_used ∧
    ((rr_tick timeQuantum
        (rr_run timeQuantum k (rr_init proc))).current_running_process_idx ≠ none →
      (rr_tick timeQuantum (rr_run timeQuantum k (rr_init proc))).current_quantum_slice_used <
        timeQuantum) := by
  have h0 : 0 ≤ (rr_init proc).current_quantum_slice_used ∧
      (rr_init proc).current_quantum_slice_used < timeQuantum :=
    ⟨le_refl _, by show (0 : Int) < timeQuantum; omega⟩
  have hk := rr_run_slice timeQuantum k (rr_init proc) h0
  have ha : 0 ≤ (rr_admission (rr_run timeQuantum k (rr_init proc))).current_quantum_slice_used ∧
      (rr_admission (rr_run timeQuantum k (rr_init proc))).current_quantum_slice_used <
        timeQuantum := by
    rw [(rr_admission_frame _).current_quantum_slice_used]; exact hk
  have he := rr_execute_slice timeQuantum _ ha
  have ht := rr_tick_slice timeQuantum _ hk
  exact ⟨⟨hk.1, by omega⟩, he.2.2, ht.1, fun _ => ht.2⟩

/-- C9, witness: quantum 2 on the batch [(0,5), (1,3), (2,1)], at the head of iteration 2
(time 2), where P0 has run one tick of its slice and is preempted in step 2. -/
theorem c9_rr_slice_bound_witness :
    (1 : Int) ≤ 2 ∧
    (rr_run 2 2 (rr_init [mkProc 0 5, mkProc 1 3, mkProc 2 1])).current_quantum_slice_used =
      1 ∧
    (rr_execute 2 (rr_admission (rr_run 2 2
      (rr_init [mkProc 0 5, mkProc 1 3, mkProc 2 1])))).current_running_process_idx = none :=
  ⟨by decide, by decide,
    (c9_rr_slice_bound [mkProc 0 5, mkProc 1 3, mkProc 2 1] 2 (by decide) 2).2.1
      (by decide) (by decide)⟩

/-- C10: `rr_metrics` with timeQuantum = 2 on the batch [(0,5), (1,3), (2,1)] returns with
all three processes completed; at the loop head of time 2 P0 is running, and in that tick
it is preempted to the tail of the queue and P1 is dispatched, so P1 has startTime = 2;
the largest completionTime is 9 = 5 + 3 + 1. -/
theorem c10_rr_quantum2_scenario :
    ∃ r, RrReturns 2 [mkProc 0 5, mkProc 1 3, mkProc 2 1] r ∧
      r.proc = [⟨0, 5, 0, 9⟩, ⟨1, 3, 2, 8⟩, ⟨2, 1, 4, 5⟩] ∧
      r.is_completed = [true, true, true] ∧ r.completed_processes_count = 3 ∧
      (rr_run 2 2 (rr_init [mkProc 0 5, mkProc 1 3, mkProc 2 1])).current_time = 2 ∧
      (rr_run 2 2 (rr_init [mkProc 0 5, mkProc 1 3, mkProc 2 1])).current_running_process_idx
        = some 0 ∧
      (rr_tick 2 (rr_run 2 2
        (rr_init [mkProc 0 5, mkProc 1 3, mkProc 2 1]))).current_running_process_idx
        = some 1 ∧
      queueList (rr_tick 2 (rr_run 2 2 (rr_init [mkProc 0 5, mkProc 1 3, mkProc 2 1])))
        = [2, 0] ∧
      (procAt r.proc 1).startTime = 2 ∧
      (∀ p ∈ r.proc, p.completionTime ≤ 9) ∧ (∃ p ∈ r.proc, p.completionTime = 9) ∧
      totalBurst [mkProc 0 5, mkProc 1 3, mkProc 2 1] = 9 :=
  ⟨{  proc := [⟨0, 5, 0, 9⟩, ⟨1, 3, 2, 8⟩, ⟨2, 1, 4, 5⟩]
      remaining_burst_time := [0, 0, 0]
      actual_start_time := [0, 2, 4]
      is_completed := [true, true, true]
      ready_queue := [0, 1, 0]
      queue_front_idx := 0
      queue_rear_idx := 2
      processes_in_queue := 0
      current_time := 9
      completed_processes_count := 3
      current_running_process_idx := none
      current_quantum_slice_used := 0 },
    rrReturns_of_eval 2 _ _ 10 (by decide), rfl, rfl, rfl, by decide, by decide, by decide,
    by decide, by decide, by decide, by decide, by decide⟩

/-! ## Scenario and boundary claims -/

/-- C11: `fcfs_metrics` on the batch [(0,5), (1,3)] leaves P0 with startTime = 0 and
completionTime = 5, P1 with startTime = 5 and completionTime = 8, and returns
avgWaiting = 2, the total waiting time being 4 over 2 processes. -/
theorem c11_fcfs_scenario :
    fcfs_schedule [mkProc 0 5, mkProc 1 3] = [⟨0, 5, 0, 5⟩, ⟨1, 3, 5, 8⟩] ∧
      total_waiting (fcfs_schedule [mkProc 0 5, mkProc 1 3]) = 4 ∧
      (fcfs_metrics [mkProc 0 5, mkProc 1 3]).avgWaiting = 2 := by
  refine ⟨by decide, by decide, ?_⟩
  have h : fcfs_schedule [mkProc 0 5, mkProc 1 3] = [⟨0, 5, 0, 5⟩, ⟨1, 3, 5, 8⟩] := by decide
  unfold fcfs_metrics
  rw [h]
  norm_num [calculate_metrics, total_waiting]

theorem rr_single_unit_final (timeQuantum : Int) :
    rr_final timeQuantum 2 [mkProc 0 1] =
      some
        { proc := [⟨0, 1, 0, 1⟩]
          remaining_burst_time := [0]
          actual_start_time := [0]
          is_completed := [true]
          ready_queue := [0]
          queue_front_idx := 0
          queue_rear_idx := 0
          processes_in_queue := 0
          current_time := 1
          completed_processes_count := 1
          current_running_process_idx := none
          current_quantum_slice_used := 0 } := by
  have e0 : (rr_init [mkProc 0 1]).completed_processes_count <
      (rr_init [mkProc 0 1]).proc.length := by decide
  have e1 : (rr_tick timeQuantum (rr_init [mkProc 0 1])).completed_processes_count <
      (rr_tick timeQuantum (rr_init [mkProc 0 1])).proc.length := by
    show (0 : Nat) < 1
    decide
  have e2 : (rr_advance (rr_tick timeQuantum
      (rr_init [mkProc 0 1]))).completed_processes_count <
      (rr_advance (rr_tick timeQuantum (rr_init [mkProc 0 1]))).proc.length := by
    show (0 : Nat) < 1
    decide
  have e3 : ¬ (rr_tick timeQuantum (rr_advance (rr_tick timeQuantum
      (rr_init [mkProc 0 1])))).completed_processes_count <
      (rr_tick timeQuantum (rr_advance (rr_tick timeQuantum
        (rr_init [mkProc 0 1])))).proc.length := by
    show ¬ (1 : Nat) < 1
    decide
  show rr_loop timeQuantum (0 + 1 + 1) (rr_init [mkProc 0 1]) = _
  rw [rr_loop, if_pos e0, if_pos e1, rr_loop, if_pos e2, if_neg e3]
  simp [rr_tick, rr_init, rr_admission, rr_admission_step, rr_execute, rr_dispatch,
    rr_advance, mkProc, procAt, isProcessActiveOrInQueue, rr_enqueue, List.range_succ]

/-- C12: for the single-process batch [(arrival 0, burst 1)], each of `fcfs_metrics`,
`sjf_metrics` and `rr_metrics` (for every timeQuantum >= 1) returns, sets startTime = 0
and completionTime = 1, and returns the metrics of that array, in which avgWaiting = 0
and avgResponse = 0. -/
theorem c12_single_unit_process (timeQuantum : Int) (hq : 1 ≤ timeQuantum) :
    (fcfs_schedule [mkProc 0 1] = [⟨0, 1, 0, 1⟩] ∧
      fcfs_metrics [mkProc 0 1] = calculate_metrics [⟨0, 1, 0, 1⟩]) ∧
    (SjfReturns [mkProc 0 1] [⟨0, 1, 0, 1⟩] ∧
      ∃ N, ∀ fuel, N ≤ fuel →
        sjf_metrics fuel [mkProc 0 1] = some (calculate_metrics [⟨0, 1, 0, 1⟩])) ∧
    (RrSchedules timeQuantum [mkProc 0 1] [⟨0, 1, 0, 1⟩] ∧
      ∃ N, ∀ fuel, N ≤ fuel →
        rr_metrics timeQuantum fuel [mkProc 0 1] =
          some (calculate_metrics [⟨0, 1, 0, 1⟩])) ∧
    (calculate_metrics [⟨0, 1, 0, 1⟩]).avgWaiting = 0 ∧
    (calculate_metrics [⟨0, 1, 0, 1⟩]).avgResponse = 0 := by
  have _ := hq
  have hf : fcfs_schedule [mkProc 0 1] = [⟨0, 1, 0, 1⟩] := by decide
  have hs : SjfReturns [mkProc 0 1] [⟨0, 1, 0, 1⟩] := sjfReturns_of_eval _ _ 1 (by decide)
  have hr := rrReturns_of_eval timeQuantum [mkProc 0 1] _ 2 (rr_single_unit_final timeQuantum)
  refine ⟨⟨hf, by unfold fcfs_metrics; rw [hf]⟩, ⟨hs, ?_⟩, ⟨?_, ?_⟩, ?_, ?_⟩
  · obtain ⟨N, hN⟩ := hs
    refine ⟨N, fun fuel hfuel => ?_⟩
    unfold sjf_metrics
    rw [hN fuel hfuel]
    rfl
  · exact rrSchedules_of_returns timeQuantum _ _ (by decide) hr
  · obtain ⟨N, hN⟩ := hr
    refine ⟨N, fun fuel hfuel => ?_⟩
    unfold rr_metrics
    rw [if_neg (by decide), hN fuel hfuel]
    rfl
  · norm_num [calculate_metrics, total_waiting]
  · norm_num [calculate_metrics, total_response]

/-- C12, witness: timeQuantum = 2. -/
theorem c12_single_unit_process_witness :
    (1 : Int) ≤ 2 ∧ RrSchedules 2 [mkProc 0 1] [⟨0, 1, 0, 1⟩] :=
  ⟨by decide, (c12_single_unit_process 2 (by decide)).2.2.1.1⟩

/-! ## The exchange sort sorts, and keeps ties in input order -/

theorem bubblePass_length (k : Nat) (l : List Process) : (bubblePass k l).length = l.length :=
  (bubblePass_perm k l).length_eq

/-- A pass over exactly `k + 1` entries moves an entry of greatest arrival time to the
last place. -/
theorem bubblePass_last_max (k : Nat) (pre : List Process) (h : pre.length = k + 1) :
    ∃ init m, bubblePass k pre = init ++ [m] ∧
      ∀ x ∈ init, x.arrivalTime ≤ m.arrivalTime := by
  induction k generalizing pre with
  | zero =>
    obtain ⟨a, rfl⟩ := List.length_eq_one.mp h
    exact ⟨[], a, by simp [bubblePass], fun x hx => absurd hx (List.not_mem_nil x)⟩
  | succ k ih =>
    match pre, h with
    | a :: b :: rest, h =>
      have hlen : rest.length = k := by simpa using h
      unfold bubblePass
      split
      · rename_i hgt
        obtain ⟨init, m, he, hm⟩ := ih (a :: rest) (by simp [hlen])
        refine ⟨b :: init, m, by rw [he]; rfl, ?_⟩
        have ha : a ∈ init ++ [m] := by
          rw [← he]
          exact (bubblePass_perm k (a :: rest)).mem_iff.mpr (List.mem_cons_self _ _)
        have ham : a.arrivalTime ≤ m.arrivalTime := by
          rcases List.mem_append.mp ha with h1 | h1
          · exact hm a h1
          · rw [List.mem_singleton.mp h1]
        intro x hx
        rcases List.mem_cons.mp hx with rfl | hx
        · omega
        · exact hm x hx
      · rename_i hle
        obtain ⟨init, m, he, hm⟩ := ih (b :: rest) (by simp [hlen])
        refine ⟨a :: init, m, by rw [he]; rfl, ?_⟩
        have hb : b ∈ init ++ [m] := by
          rw [← he]
          exact (bubblePass_perm k (b :: rest)).mem_iff.mpr (List.mem_cons_self _ _)
        have hbm : b.arrivalTime ≤ m.arrivalTime := by
          rcases List.mem_append.mp hb with h1 | h1
          · exact hm b h1
          · rw [List.mem_singleton.mp h1]
        intro x hx
        rcases List.mem_cons.mp hx with rfl | hx
        · omega
        · exact hm x hx

/-- A pass over the first `k + 1` entries leaves the rest of the array alone. -/
theorem bubblePass_append (k : Nat) (pre suf : List Process) (h : pre.length = k + 1) :
    bubblePass k (pre ++ suf) = bubblePass k pre ++ suf := by
  induction k generalizing pre with
  | zero =>
    obtain ⟨a, rfl⟩ := List.length_eq_one.mp h
    simp [bubblePass]
  | succ k ih =>
    match pre, h with
    | a :: b :: rest, h =>
      have hlen : rest.length = k := by simpa using h
      simp only [List.cons_append]
      unfold bubblePass
      split
      · have := ih (a :: rest) (by simp [hlen])
        simp only [List.cons_append] at this
        rw [this]
        rfl
      · have := ih (b :: rest) (by simp [hlen])
        simp only [List.cons_append] at this
        rw [this]
        rfl

/-- After `m` passes the last `m` entries are sorted and no smaller than the others. -/
theorem bubble_passes_inv (proc : List Process) (m : Nat) (hm : m + 1 ≤ proc.length) :
    ∃ pre suf,
      (List.range m).foldl (fun acc i => bubblePass (proc.length - i - 1) acc) proc =
        pre ++ suf ∧
      pre.length = proc.length - m ∧ SortedByArrival suf ∧
      ∀ x ∈ pre, ∀ y ∈ suf, x.arrivalTime ≤ y.arrivalTime := by
  induction m with
  | zero =>
    exact ⟨proc, [], by simp, by simp, List.Pairwise.nil,
      fun x _ y hy => absurd hy (List.not_mem_nil y)⟩
  | succ m ih =>
    obtain ⟨pre, suf, he, hlen, hsorted, hle⟩ := ih (by omega)
    rw [List.range_succ, List.foldl_append, List.foldl_cons, List.foldl_nil, he]
    have hpre : pre.length = (proc.length - m - 1) + 1 := by omega
    rw [bubblePass_append _ pre suf hpre]
    obtain ⟨init, mx, hi, hmax⟩ := bubblePass_last_max _ pre hpre
    have hperm := bubblePass_perm (proc.length - m - 1) pre
    rw [hi] at hperm
    have hmem : ∀ x, x ∈ init ++ [mx] → x ∈ pre := fun x hx => hperm.mem_iff.mp hx
    refine ⟨init, mx :: suf, by rw [hi]; simp, ?_, ?_, ?_⟩
    · have := hperm.length_eq
      simp only [List.length_append, List.length_singleton] at this
      omega
    · refine List.pairwise_cons.mpr ⟨?_, hsorted⟩
      intro y hy
      exact hle mx (hmem mx (by simp)) y hy
    · intro x hx y hy
      rcases List.mem_cons.mp hy with rfl | hy
      · exact hmax x hx
      · exact hle x (hmem x (List.mem_append_left _ hx)) y hy

theorem sortByArrival_sorted (proc : List Process) : SortedByArrival (sortByArrival proc) := by
  unfold sortByArrival
  rcases Nat.eq_zero_or_pos proc.length with h0 | hpos
  · have : proc = [] := List.eq_nil_of_length_eq_zero h0
    subst this
    exact List.Pairwise.nil
  · obtain ⟨pre, suf, he, hlen, hsorted, hle⟩ :=
      bubble_passes_inv proc (proc.length - 1) (by omega)
    rw [he]
    have h1 : pre.length = 1 := by omega
    obtain ⟨a, rfl⟩ := List.length_eq_one.mp h1
    exact List.pairwise_cons.mpr ⟨fun y hy => hle a (List.mem_singleton.mpr rfl) y hy, hsorted⟩

/-- A pass never exchanges two entries of equal arrival time. -/
theorem bubblePass_arrivingAt (a : Int) (k : Nat) (l : List Process) :
    arrivingAt a (bubblePass k l) = arrivingAt a l := by
  induction k generalizing l with
  | zero => unfold bubblePass; rfl
  | succ k ih =>
    match l with
    | [] => unfold bubblePass; rfl
    | [x] => unfold bubblePass; rfl
    | x :: y :: rest =>
      unfold bubblePass
      split
      · rename_i hgt
        have h1 := ih (x :: rest)
        unfold arrivingAt at h1 ⊢
        rw [List.filter_cons, h1]
        by_cases hx : x.arrivalTime = a
        · have hy : ¬ y.arrivalTime = a := by omega
          simp [List.filter_cons, hx, hy]
        · simp [List.filter_cons, hx]
      · have h1 := ih (y :: rest)
        unfold arrivingAt at h1 ⊢
        rw [List.filter_cons, h1]
        simp [List.filter_cons]

theorem foldl_bubblePass_arrivingAt (a : Int) (n : Nat) (is : List Nat) (l : List Process) :
    arrivingAt a (is.foldl (fun acc i => bubblePass (n - i - 1) acc) l) = arrivingAt a l := by
  induction is generalizing l with
  | nil => rfl
  | cons i is ih =>
    rw [List.foldl_cons, ih, bubblePass_arrivingAt]

/-- Stability of the sort: the processes of any one arrival time keep their input order. -/
theorem sortByArrival_stable (a : Int) (proc : List Process) :
    arrivingAt a (sortByArrival proc) = arrivingAt a proc :=
  foldl_bubblePass_arrivingAt a proc.length _ proc

theorem nodup_not_both_orders (l : List Process) (p q : Process) (hnd : l.Nodup)
    (hne : p ≠ q) (h1 : List.Sublist [p, q] l) (h2 : List.Sublist [q, p] l) : False := by
  induction l with
  | nil => cases h1
  | cons x t ih =>
    obtain ⟨hx, hnd'⟩ := List.nodup_cons.mp hnd
    rcases List.sublist_cons_iff.mp h1 with a1 | ⟨r1, e1, s1⟩
    · rcases List.sublist_cons_iff.mp h2 with a2 | ⟨r2, e2, s2⟩
      · exact ih hnd' a1 a2
      · have hq : q = x := by injection e2
        exact hx (hq ▸ a1.subset (by simp))
    · have hp : p = x := by injection e1
      rcases List.sublist_cons_iff.mp h2 with a2 | ⟨r2, e2, s2⟩
      · exact hx (hp ▸ a2.subset (by simp))
      · have hq : q = x := by injection e2
        exact hne (hp.trans hq.symm)

theorem sortByArrival_no_reversal (proc : List Process) (p q : Process) :
    ¬ ReversesTie proc (sortByArrival proc) p q := by
  rintro ⟨hnd, hne, harr, h1, h2⟩
  have h3 : List.Sublist (arrivingAt q.arrivalTime [q, p])
      (arrivingAt q.arrivalTime (sortByArrival proc)) := List.Sublist.filter _ h2
  rw [sortByArrival_stable] at h3
  have h4 : arrivingAt q.arrivalTime [q, p] = [q, p] := by
    simp [arrivingAt, List.filter_cons, harr]
  rw [h4] at h3
  exact nodup_not_both_orders proc p q hnd hne h1 (h3.trans (List.filter_sublist _))

theorem fcfs_walk_pairs (t : Int) (l : List Process) :
    (fcfs_walk t l).map (fun p => (p.arrivalTime, p.burstTime)) =
      l.map (fun p => (p.arrivalTime, p.burstTime)) := by
  induction l generalizing t with
  | nil => rfl
  | cons p rest ih => simp only [fcfs_walk, List.map_cons, ih]

/-! ## Claims on the sort -/

/-- C13: for every batch, after `fcfs_metrics` the process array holds exactly the same
multiset of (arrivalTime, burstTime) pairs as the input, arranged in ascending
(non-decreasing) arrivalTime order. -/
theorem c13_fcfs_sorted_permutation (proc : List Process) :
    ((fcfs_schedule proc).map fun p => (p.arrivalTime, p.burstTime)).Perm
        (proc.map fun p => (p.arrivalTime, p.burstTime)) ∧
      SortedByArrival (fcfs_schedule proc) := by
  unfold fcfs_schedule
  constructor
  · rw [fcfs_walk_pairs]
    exact (sortByArrival_perm proc).map _
  · have h1 := sortByArrival_sorted proc
    have h2 := congrArg (List.map Prod.fst) (fcfs_walk_pairs 0 (sortByArrival proc))
    simp only [List.map_map] at h2
    unfold SortedByArrival at h1 ⊢
    have h3 : ((sortByArrival proc).map (Prod.fst ∘ fun p => (p.arrivalTime, p.burstTime))).Pairwise
        (fun a b => a ≤ b) := List.pairwise_map.mpr h1
    rw [← h2] at h3
    exact List.pairwise_map.mp h3

/-- C20 (amended): the exchange sort used by `fcfs_metrics` is stable: for every input
batch and every arrival time, the processes with that arrivalTime stand in the sorted
array in their input relative order. -/
theorem c20_sort_is_stable (proc : List Process) (a : Int) :
    arrivingAt a (sortByArrival proc) = arrivingAt a proc ∧
      ∀ p q, ¬ ReversesTie proc (sortByArrival proc) p q :=
  ⟨sortByArrival_stable a proc, sortByArrival_no_reversal proc⟩

/-- C20, counterexample: there is no input batch of pairwise different processes in which
two processes of equal arrivalTime are left by the sort in the opposite of their input
relative order. -/
theorem c20_sort_unstable_counterexample :
    ¬ ∃ (proc : List Process) (p q : Process), ReversesTie proc (sortByArrival proc) p q := by
  rintro ⟨proc, p, q, h⟩
  exact sortByArrival_no_reversal proc p q h

/-! ## Queue safety through the steps of a tick, for any batch -/

/-- A step that leaves the ring buffer alone keeps the safety invariant, provided the
queued processes stay uncompleted and the running slot is cleared or kept. -/
theorem rr_safe_of_same_queue (τ : Int) (s b : RrState) (hS : RrSafe τ s)
    (e_len : b.proc.length = s.proc.length)
    (e_arr : ∀ i, (procAt b.proc i).arrivalTime = (procAt s.proc i).arrivalTime)
    (e_rem : b.remaining_burst_time.length = s.remaining_burst_time.length)
    (e_start : b.actual_start_time.length = s.actual_start_time.length)
    (e_done : b.is_completed.length = s.is_completed.length)
    (e_queue : b.ready_queue = s.ready_queue)
    (e_front : b.queue_front_idx = s.queue_front_idx)
    (e_rear : b.queue_rear_idx = s.queue_rear_idx)
    (e_cnt : b.processes_in_queue = s.processes_in_queue)
    (hlive : ∀ x ∈ queueList s, b.is_completed.getD x false = false)
    (hrun : ∀ x, b.current_running_process_idx = some x →
      s.current_running_process_idx = some x ∧ b.is_completed.getD x false = false)
    (hcount : b.completed_processes_count = b.is_completed.count true) :
    RrSafe τ b := by
  have hQ := hS.q
  have hql : queueList b = queueList s := by
    unfold queueList; rw [e_queue, e_front, e_cnt, e_len]
  refine ⟨?_, ?_⟩
  · exact
      { n_pos := by rw [e_len]; exact hQ.n_pos
        len_rem := by rw [e_rem, e_len]; exact hQ.len_rem
        len_start := by rw [e_start, e_len]; exact hQ.len_start
        len_done := by rw [e_done, e_len]; exact hQ.len_done
        len_queue := by rw [e_queue, e_len]; exact hQ.len_queue
        front_lt := by rw [e_front, e_len]; exact hQ.front_lt
        rear_rel := by rw [e_rear, e_front, e_cnt, e_len]; exact hQ.rear_rel
        q_nodup := by rw [hql]; exact hQ.q_nodup
        q_lt := by rw [hql, e_len]; exact hQ.q_lt
        q_live := by rw [hql]; exact hlive
        run_lt := by
          intro x hx
          rw [e_len]
          exact hQ.run_lt x (hrun x hx).1
        run_live := fun x hx => (hrun x hx).2
        run_notin := by
          intro x hx
          rw [hql]
          exact hQ.run_notin x (hrun x hx).1
        count_eq := hcount }
  · intro i hi ha
    rw [e_len] at hi
    rw [e_arr] at ha
    rw [hql]
    obtain ⟨h1, h2⟩ := hS.not_yet i hi ha
    exact ⟨h1, fun hx => h2 (hrun i hx).1⟩

theorem prefix_of_eq_queue (l₁ l₂ : List Nat) (h : l₂ = l₁) : l₁ <+: l₂ :=
  h ▸ List.prefix_refl _

theorem rr_enqueue_safe (τ : Int) (s : RrState) (x : Nat) (hS : RrSafe τ s)
    (hx : x < s.proc.length) (hxq : x ∉ queueList s)
    (hlive : s.is_completed.getD x false = false)
    (hrun : s.current_running_process_idx ≠ some x)
    (harr : (procAt s.proc x).arrivalTime ≤ τ) :
    RrSafe τ (rr_enqueue s x) ∧ queueList (rr_enqueue s x) = queueList s ++ [x] := by
  have hql := rr_enqueue_queueList s x hS.q hx hxq
  refine ⟨⟨rr_enqueue_inv s x hS.q hx hxq hlive hrun, ?_⟩, hql⟩
  intro i hi ha
  have hi' : i < s.proc.length := hi
  have ha' : τ < (procAt s.proc i).arrivalTime := ha
  obtain ⟨h1, h2⟩ := hS.not_yet i hi' ha'
  refine ⟨?_, h2⟩
  rw [hql]
  intro hmem
  rcases List.mem_append.mp hmem with h | h
  · exact h1 h
  · rw [List.mem_singleton.mp h] at ha'
    omega

/-- Step 1 keeps the safety invariant and moves it on to the current time. -/
theorem rr_admission_safe (s : RrState) (hS : RrSafe (s.current_time - 1) s) :
    RrSafe s.current_time (rr_admission s) := by
  obtain ⟨hQa, hF, -⟩ := rr_admission_spec s hS.q
  have hmem := rr_admission_mem s hS.q
  refine ⟨hQa, ?_⟩
  rw [hF.proc, hF.current_running_process_idx]
  intro i hi ha
  obtain ⟨h1, h2⟩ := hS.not_yet i hi (by omega)
  refine ⟨?_, h2⟩
  rw [hmem]
  rintro (h | ⟨-, h⟩)
  · exact h1 h
  · have := h.2.1
    omega

/-- Step 2 keeps the safety invariant and every live entry of the queue. -/
theorem rr_execute_safe (q τ : Int) (s : RrState) (hS : RrSafe τ s) :
    RrSafe τ (rr_execute q s) ∧ queueList s <+: queueList (rr_execute q s) := by
  have hQ := hS.q
  cases hrun : s.current_running_process_idx with
  | none =>
    have : rr_execute q s = s := by unfold rr_execute; rw [hrun]
    rw [this]
    exact ⟨hS, List.prefix_refl _⟩
  | some idx =>
    have hidx : idx < s.proc.length := hQ.run_lt idx hrun
    have hlive : s.is_completed.getD idx false = false := hQ.run_live idx hrun
    have hnotin : idx ∉ queueList s := hQ.run_notin idx hrun
    have harr : (procAt s.proc idx).arrivalTime ≤ τ := by
      by_contra hcon
      exact (hS.not_yet idx hidx (not_le.mp hcon)).2 hrun
    unfold rr_execute
    rw [hrun]
    dsimp only
    split_ifs with h0 hq
    · -- completion
      refine ⟨rr_safe_of_same_queue τ s _ hS
        (by simp) (by
          intro i
          dsimp only
          rw [procAt_set_of_lt _ _ _ _ hidx]
          split_ifs with h
          · subst h; rfl
          · rfl)
        (by simp) rfl (by simp) rfl rfl rfl rfl
        (by
          intro x hx
          dsimp only
          rw [getD_set_of_lt _ _ _ _ _ (by rw [hQ.len_done]; exact hidx),
            if_neg (fun (h : idx = x) => hnotin (h ▸ hx))]
          exact hQ.q_live x hx)
        (by intro x hx; cases hx)
        (by
          dsimp only
          rw [count_true_set _ idx (by rw [hQ.len_done]; exact hidx) hlive, hQ.count_eq]),
        prefix_of_eq_queue _ _ (by simp [queueList])⟩
    · -- quantum expiry
      have a : RrSafe τ
          { s with
            remaining_burst_time :=
              s.remaining_burst_time.set idx (s.remaining_burst_time.getD idx 0 - 1)
            current_quantum_slice_used := 0
            current_running_process_idx := none } :=
        rr_safe_of_same_queue τ s _ hS
          rfl (fun _ => rfl) (by simp) rfl rfl rfl rfl rfl rfl hQ.q_live
          (by intro x hx; cases hx) hQ.count_eq
      obtain ⟨c, d⟩ := rr_enqueue_safe τ _ idx a hidx hnotin hlive
        (by intro hh; cases hh) harr
      exact ⟨c, d ▸ List.prefix_append _ _⟩
    · -- the process stays on the CPU
      refine ⟨rr_safe_of_same_queue τ s _ hS
        rfl (fun _ => rfl) (by simp) rfl rfl rfl rfl rfl rfl hQ.q_live
        (by
          intro x hx
          have hx' : some idx = some x := hx
          cases hx'
          exact ⟨hrun, hlive⟩)
        hQ.count_eq, prefix_of_eq_queue _ _ rfl⟩

/-- Step 3 keeps the safety invariant. -/
theorem rr_dispatch_safe (τ : Int) (s : RrState) (hS : RrSafe τ s) :
    RrSafe τ (rr_dispatch s) := by
  have hQ := hS.q
  by_cases hc : s.current_running_process_idx = none ∧ 0 < s.processes_in_queue
  · have hdq := ringList_dequeue s.ready_queue s.queue_front_idx s.processes_in_queue
      s.proc.length hQ.front_lt hc.2
    have hdq' : queueList s = s.ready_queue.getD s.queue_front_idx 0 ::
        ringList s.ready_queue ((s.queue_front_idx + 1) % s.proc.length)
          (s.processes_in_queue - 1) s.proc.length := hdq
    have hnd := hQ.q_nodup
    rw [hdq'] at hnd
    obtain ⟨hnotin, hnd'⟩ := List.nodup_cons.mp hnd
    have hin : s.ready_queue.getD s.queue_front_idx 0 ∈ queueList s := by
      rw [hdq']; exact List.mem_cons_self _ _
    have hsub : ∀ y, y ∈ ringList s.ready_queue ((s.queue_front_idx + 1) % s.proc.length)
        (s.processes_in_queue - 1) s.proc.length → y ∈ queueList s := by
      intro y hy; rw [hdq']; exact List.mem_cons_of_mem _ hy
    have hrel : (s.queue_rear_idx + 1) % (s.proc.length : Int) =
        (((((s.queue_front_idx + 1) % s.proc.length) + (s.processes_in_queue - 1)) %
          s.proc.length : Nat) : Int) := by
      rw [hQ.rear_rel, Nat.mod_add_mod]
      congr 2
      omega
    have key : ∀ (st : List Int), st.length = s.proc.length →
        RrSafe τ
          { s with
            current_running_process_idx := some (s.ready_queue.getD s.queue_front_idx 0)
            queue_front_idx := (s.queue_front_idx + 1) % s.proc.length
            processes_in_queue := s.processes_in_queue - 1
            current_quantum_slice_used := 0
            actual_start_time := st } := by
      intro st hst
      refine ⟨?_, ?_⟩
      · exact
          { n_pos := hQ.n_pos
            len_rem := hQ.len_rem
            len_start := hst
            len_done := hQ.len_done
            len_queue := hQ.len_queue
            front_lt := Nat.mod_lt _ hQ.n_pos
            rear_rel := hrel
            q_nodup := hnd'
            q_lt := fun y hy => hQ.q_lt y (hsub y hy)
            q_live := fun y hy => hQ.q_live y (hsub y hy)
            run_lt := by
              intro x hx
              cases hx
              exact hQ.q_lt _ hin
            run_live := by
              intro x hx
              cases hx
              exact hQ.q_live _ hin
            run_notin := by
              intro x hx
              cases hx
              exact hnotin
            count_eq := hQ.count_eq }
      · intro i hi ha
        obtain ⟨h1, -⟩ := hS.not_yet i hi ha
        refine ⟨fun h => h1 (hsub i h), ?_⟩
        intro hx
        cases hx
        exact h1 hin
    unfold rr_dispatch
    rw [if_pos hc]
    dsimp only
    split_ifs
    · exact key _ (by rw [List.length_set]; exact hQ.len_start)
    · exact key _ hQ.len_start
  · unfold rr_dispatch
    rw [if_neg hc]
    exact hS

theorem rr_advance_safe (s : RrState) (hS : RrSafe s.current_time s) :
    RrSafe ((rr_advance s).current_time - 1) (rr_advance s) := by
  have ht : (rr_advance s).current_time - 1 = s.current_time := by
    show s.current_time + 1 - 1 = s.current_time
    ring
  rw [ht]
  exact
    ⟨{  n_pos := hS.q.n_pos
        len_rem := hS.q.len_rem
        len_start := hS.q.len_start
        len_done := hS.q.len_done
        len_queue := hS.q.len_queue
        front_lt := hS.q.front_lt
        rear_rel := hS.q.rear_rel
        q_nodup := hS.q.q_nodup
        q_lt := hS.q.q_lt
        q_live := hS.q.q_live
        run_lt := hS.q.run_lt
        run_live := hS.q.run_live
        run_notin := hS.q.run_notin
        count_eq := hS.q.count_eq }, hS.not_yet⟩

/-! ## Queue safety along the whole run -/

theorem rr_init_qinv (proc : List Process) (hn : 1 ≤ proc.length) : RrQInv (rr_init proc) := by
  have hlen : (rr_init proc).proc.length = proc.length := by simp [rr_init]
  have hql : queueList (rr_init proc) = [] := by simp [queueList, rr_init, ringList]
  exact
    { n_pos := by rw [hlen]; exact hn
      len_rem := by simp [rr_init]
      len_start := by simp [rr_init]
      len_done := by simp [rr_init]
      len_queue := by simp [rr_init]
      front_lt := by rw [hlen]; exact hn
      rear_rel := by simp [rr_init]
      q_nodup := by rw [hql]; exact List.nodup_nil
      q_lt := by rw [hql]; intro x hx; cases hx
      q_live := by rw [hql]; intro x hx; cases hx
      run_lt := by intro x hx; cases hx
      run_live := by intro x hx; cases hx
      run_notin := by intro x hx; cases hx
      count_eq := by
        show 0 = (proc.map fun _ => false).count true
        symm
        rw [List.count_eq_zero]
        intro hmem
        obtain ⟨_, _, hh⟩ := List.mem_map.mp hmem
        cases hh }

theorem rr_init_safe (proc : List Process) (hn : 1 ≤ proc.length) (τ : Int) :
    RrSafe τ (rr_init proc) := by
  refine ⟨rr_init_qinv proc hn, ?_⟩
  intro i _ _
  have hql : queueList (rr_init proc) = [] := by simp [queueList, rr_init, ringList]
  rw [hql]
  exact ⟨List.not_mem_nil i, fun hh => by cases hh⟩

theorem rr_execute_time (q : Int) (s : RrState) :
    (rr_execute q s).current_time = s.current_time ∧
      (rr_execute q s).proc.length = s.proc.length := by
  unfold rr_execute
  cases s.current_running_process_idx with
  | none => exact ⟨rfl, rfl⟩
  | some idx =>
    dsimp only
    split_ifs
    · exact ⟨rfl, by simp⟩
    · exact ⟨rfl, rfl⟩
    · exact ⟨rfl, rfl⟩

theorem rr_dispatch_time (s : RrState) :
    (rr_dispatch s).current_time = s.current_time ∧
      (rr_dispatch s).proc = s.proc := by
  unfold rr_dispatch
  dsimp only
  split_ifs
  · exact ⟨rfl, rfl⟩
  · exact ⟨rfl, rfl⟩
  · exact ⟨rfl, rfl⟩

theorem rr_tick_time (q : Int) (s : RrState) :
    (rr_tick q s).current_time = s.current_time ∧
      (rr_tick q s).proc.length = s.proc.length := by
  unfold rr_tick
  rw [(rr_dispatch_time _).1, (rr_dispatch_time _).2, (rr_execute_time q _).1,
    (rr_execute_time q _).2, (rr_admission_frame s).current_time, (rr_admission_frame s).proc]
  exact ⟨rfl, rfl⟩

/-- One iteration of the loop keeps the safety invariant, for any batch and quantum. -/
theorem rr_tick_safe (q : Int) (s : RrState) (hS : RrSafe (s.current_time - 1) s) :
    RrSafe s.current_time (rr_admission s) ∧
      RrSafe s.current_time (rr_execute q (rr_admission s)) ∧
      RrSafe s.current_time (rr_tick q s) ∧
      RrSafe ((rr_advance (rr_tick q s)).current_time - 1) (rr_advance (rr_tick q s)) := by
  have ha := rr_admission_safe s hS
  have hb := (rr_execute_safe q _ _ ha).1
  have hd := rr_dispatch_safe _ _ hb
  refine ⟨ha, hb, hd, ?_⟩
  have ht := (rr_tick_time q s).1
  have hd' : RrSafe (rr_tick q s).current_time (rr_tick q s) := by rw [ht]; exact hd
  exact rr_advance_safe _ hd'

theorem rr_run_safe (q : Int) (k : Nat) (s : RrState)
    (hS : RrSafe (s.current_time - 1) s) :
    RrSafe ((rr_run q k s).current_time - 1) (rr_run q k s) := by
  induction k generalizing s with
  | zero => exact hS
  | succ k ih =>
    unfold rr_run
    split_ifs
    · exact ih _ (rr_tick_safe q s hS).2.2.2
    · exact hS

theorem rr_run_length (q : Int) (k : Nat) (s : RrState) :
    (rr_run q k s).proc.length = s.proc.length := by
  induction k generalizing s with
  | zero => rfl
  | succ k ih =>
    unfold rr_run
    split_ifs
    · rw [ih]
      exact (rr_tick_time q s).2
    · rfl

theorem rr_admission_upto_spec (s : RrState) (hQ : RrQInv s) (i : Nat)
    (hi : i ≤ s.proc.length) :
    RrQInv (rr_admission_upto s i) ∧ RrFrame s (rr_admission_upto s i) ∧
      queueList (rr_admission_upto s i) =
        queueList s ++ (List.range i).filter (fun j => decide (rrAdmits s j)) :=
  rr_admission_fold_spec _ s hQ (List.nodup_range _)
    (fun _ hj => lt_of_lt_of_le (List.mem_range.mp hj) hi)

theorem rr_admission_step_unguarded_eq (s : RrState) (i : Nat)
    (h : s.is_completed.getD i false = false ∧
        (procAt s.proc i).arrivalTime = s.current_time →
      s.current_running_process_idx ≠ some i ∧ i ∉ queueList s) :
    rr_admission_step_unguarded s i = rr_admission_step s i := by
  unfold rr_admission_step_unguarded rr_admission_step
  by_cases h1 : s.is_completed.getD i false = false ∧
      (procAt s.proc i).arrivalTime = s.current_time
  · rw [if_pos h1, if_pos h1,
      if_pos ((isProcessActiveOrInQueue_eq_false _ _ _ _ _ _).mpr (h h1))]
  · rw [if_neg h1, if_neg h1]

theorem rr_admission_fold_unguarded_eq (is : List Nat) (s : RrState) (hQ : RrQInv s)
    (hnd : is.Nodup) (hlt : ∀ i ∈ is, i < s.proc.length)
    (h : ∀ i ∈ is, (procAt s.proc i).arrivalTime = s.current_time →
      s.current_running_process_idx ≠ some i ∧ i ∉ queueList s) :
    is.foldl rr_admission_step_unguarded s = is.foldl rr_admission_step s := by
  induction is generalizing s with
  | nil => rfl
  | cons i is ih =>
    obtain ⟨hi_notin, hnd'⟩ := List.nodup_cons.mp hnd
    obtain ⟨hQ1, hF1, hq1⟩ := rr_admission_step_spec s i hQ (hlt i (List.mem_cons_self _ _))
    rw [List.foldl_cons, List.foldl_cons,
      rr_admission_step_unguarded_eq s i (fun hc => h i (List.mem_cons_self _ _) hc.2)]
    apply ih _ hQ1 hnd'
    · intro j hj
      rw [hF1.proc]
      exact hlt j (List.mem_cons_of_mem _ hj)
    · intro j hj
      rw [hF1.proc, hF1.current_time, hF1.current_running_process_idx, hq1]
      intro ha
      obtain ⟨h1, h2⟩ := h j (List.mem_cons_of_mem _ hj) ha
      refine ⟨h1, ?_⟩
      have hji : j ≠ i := fun hh => hi_notin (hh ▸ hj)
      split_ifs <;> simp [h2, hji]

theorem rr_admission_unguarded_eq (s : RrState) (hS : RrSafe (s.current_time - 1) s) :
    rr_admission_unguarded s = rr_admission s := by
  unfold rr_admission_unguarded rr_admission
  apply rr_admission_fold_unguarded_eq _ s hS.q (List.nodup_range _)
    (fun _ hi => List.mem_range.mp hi)
  intro i hi ha
  obtain ⟨h1, h2⟩ := hS.not_yet i (List.mem_range.mp hi) (by omega)
  exact ⟨h2, h1⟩

theorem rr_loop_unguarded_eq (q : Int) :
    ∀ (fuel : Nat) (s : RrState), RrSafe (s.current_time - 1) s →
      rr_loop_unguarded q fuel s = rr_loop q fuel s := by
  intro fuel
  induction fuel with
  | zero => intro s _; rfl
  | succ fuel ih =>
    intro s hS
    have ht : rr_tick_unguarded q s = rr_tick q s := by
      unfold rr_tick_unguarded rr_tick
      rw [rr_admission_unguarded_eq s hS]
    unfold rr_loop_unguarded rr_loop
    rw [ht]
    split_ifs
    · exact ih _ (rr_tick_safe q s hS).2.2.2
    · rfl
    · rfl

/-- Every call of the guard in step 1 returns false: the process it is asked about arrives
now, so it is neither queued nor running. -/
theorem rr_guard_false (s : RrState) (hS : RrSafe (s.current_time - 1) s) (i : Nat)
    (hi : i < s.proc.length)
    (hc : (rr_admission_upto s i).is_completed.getD i false = false ∧
      (procAt (rr_admission_upto s i).proc i).arrivalTime =
        (rr_admission_upto s i).current_time) :
    isProcessActiveOrInQueue i (rr_admission_upto s i).ready_queue
      (rr_admission_upto s i).processes_in_queue (rr_admission_upto s i).queue_front_idx
      (rr_admission_upto s i).proc.length
      (rr_admission_upto s i).current_running_process_idx = false := by
  obtain ⟨-, hF, hq⟩ := rr_admission_upto_spec s hS.q i (le_of_lt hi)
  rw [hF.proc, hF.current_time] at hc
  obtain ⟨h1, h2⟩ := hS.not_yet i hi (by have := hc.2; omega)
  rw [isProcessActiveOrInQueue_eq_false]
  refine ⟨by rw [hF.current_running_process_idx]; exact h2, ?_⟩
  show i ∉ queueList (rr_admission_upto s i)
  rw [hq]
  intro hmem
  rcases List.mem_append.mp hmem with h | h
  · exact h1 h
  · have := (List.mem_filter.mp h).1
    simp at this

/-- In the integers the clock never repeats: each call of `isProcessActiveOrInQueue`
made in the admission step returns false, and the loop without the guard leaves the same
array and the same Metrics, for every bound on the number of loop iterations. -/
theorem rr_guard_never_fires_exact (proc : List Process) (timeQuantum : Int) :
    (∀ k i, i < proc.length →
      (rr_admission_upto (rr_run timeQuantum k (rr_init proc)) i).is_completed.getD i false
          = false ∧
        (procAt (rr_admission_upto (rr_run timeQuantum k (rr_init proc)) i).proc
          i).arrivalTime =
          (rr_admission_upto (rr_run timeQuantum k (rr_init proc)) i).current_time →
      isProcessActiveOrInQueue i
        (rr_admission_upto (rr_run timeQuantum k (rr_init proc)) i).ready_queue
        (rr_admission_upto (rr_run timeQuantum k (rr_init proc)) i).processes_in_queue
        (rr_admission_upto (rr_run timeQuantum k (rr_init proc)) i).queue_front_idx
        (rr_admission_upto (rr_run timeQuantum k (rr_init proc)) i).proc.length
        (rr_admission_upto (rr_run timeQuantum k (rr_init proc))
          i).current_running_process_idx = false) ∧
    ∀ fuel, rr_schedule_unguarded timeQuantum fuel proc = rr_schedule timeQuantum fuel proc ∧
      rr_metrics_unguarded timeQuantum fuel proc = rr_metrics timeQuantum fuel proc := by
  rcases Nat.eq_zero_or_pos proc.length with h0 | hpos
  · refine ⟨fun k i hi => by omega, fun fuel => ?_⟩
    unfold rr_schedule_unguarded rr_schedule rr_metrics_unguarded rr_metrics
    rw [if_pos h0, if_pos h0, if_pos h0, if_pos h0]
    exact ⟨rfl, rfl⟩
  · have hS0 : RrSafe ((rr_init proc).current_time - 1) (rr_init proc) :=
      rr_init_safe proc hpos _
    refine ⟨?_, fun fuel => ?_⟩
    · intro k i hi
      have hS := rr_run_safe timeQuantum k (rr_init proc) hS0
      have hlen : (rr_run timeQuantum k (rr_init proc)).proc.length = proc.length := by
        rw [rr_run_length]
        simp [rr_init]
      exact rr_guard_false _ hS i (by rw [hlen]; exact hi)
    · have hne : ¬ proc.length = 0 := by omega
      unfold rr_schedule_unguarded rr_schedule rr_metrics_unguarded rr_metrics rr_final
      rw [if_neg hne, if_neg hne, if_neg hne, if_neg hne,
        rr_loop_unguarded_eq timeQuantum fuel _ hS0]
      exact ⟨rfl, rfl⟩

/-! ## Further invariants carried along the Round-Robin loop -/

/-- A property that every iteration re-establishes holds in the state the loop ends in. -/
theorem rr_loop_carries (orig : List Process) (q : Int) (P : RrState → Prop)
    (hstep : ∀ s, RrInv orig q s → P s → P (rr_advance (rr_tick q s))) :
    ∀ (fuel : Nat) (s r : RrState), RrInv orig q s → P s →
      s.completed_processes_count < s.proc.length → rr_loop q fuel s = some r →
      P (rr_advance r) := by
  intro fuel
  induction fuel with
  | zero =>
    intro s r _ _ hcond h
    unfold rr_loop at h
    rw [if_pos hcond] at h
    cases h
  | succ fuel ih =>
    intro s r hI hP hcond h
    unfold rr_loop at h
    rw [if_pos hcond] at h
    split_ifs at h with hc
    · exact ih _ r (rr_tick_inv orig q s hI).1 (hstep s hI hP) hc h
    · cases h
      exact hstep s hI hP

/-- Step 2 and the elapsed-time invariant: the tick at time `t` is the one more unit that
the running process consumes. -/
theorem rr_execute_elapsed (orig : List Process) (q : Int) (s : RrState)
    (hC : RrCore orig q s) (hE : RrElapsed (s.current_time - 1) s) :
    RrElapsed s.current_time (rr_execute q s) := by
  have hQ := hC.q
  cases hrun : s.current_running_process_idx with
  | none =>
    have : rr_execute q s = s := by unfold rr_execute; rw [hrun]
    rw [this]
    exact ⟨hE.fresh, fun i hi hs => by have := hE.elapsed i hi hs; omega, hE.done_span⟩
  | some idx =>
    have hidx : idx < s.proc.length := hQ.run_lt idx hrun
    have hlive : s.is_completed.getD idx false = false := hQ.run_live idx hrun
    have hst : s.actual_start_time.getD idx 0 ≠ -1 := hC.run_started idx hrun
    have hel := hE.elapsed idx hidx hst
    have hR : ∀ i, (s.remaining_burst_time.set idx
        (s.remaining_burst_time.getD idx 0 - 1)).getD i 0 =
        if idx = i then s.remaining_burst_time.getD idx 0 - 1
        else s.remaining_burst_time.getD i 0 := by
      intro i; rw [getD_set_of_lt _ _ _ _ _ (by rw [hQ.len_rem]; exact hidx)]
    have hfresh : ∀ i, i < s.proc.length → s.actual_start_time.getD i 0 = -1 →
        (s.remaining_burst_time.set idx
          (s.remaining_burst_time.getD idx 0 - 1)).getD i 0 = (procAt s.proc i).burstTime := by
      intro i hi hs
      rw [hR, if_neg (fun (h : idx = i) => hst (h ▸ hs))]
      exact hE.fresh i hi hs
    have helapsed : ∀ i, i < s.proc.length → s.actual_start_time.getD i 0 ≠ -1 →
        (procAt s.proc i).burstTime - (s.remaining_burst_time.set idx
          (s.remaining_burst_time.getD idx 0 - 1)).getD i 0 ≤
          s.current_time - s.actual_start_time.getD i 0 := by
      intro i hi hs
      rw [hR]
      split_ifs with h
      · subst h; omega
      · have := hE.elapsed i hi hs
        omega
    unfold rr_execute
    rw [hrun]
    dsimp only
    rw [hR idx, if_pos rfl]
    split_ifs with h0 hq
    · -- completion
      have hP : ∀ i, procAt (s.proc.set idx
          { procAt s.proc idx with
            completionTime := s.current_time
            startTime := s.actual_start_time.getD idx 0 }) i =
          if idx = i then
            { procAt s.proc idx with
              completionTime := s.current_time
              startTime := s.actual_start_time.getD idx 0 }
          else procAt s.proc i := by
        intro i; rw [procAt_set_of_lt _ _ _ _ hidx]
      refine ⟨?_, ?_, ?_⟩
      · intro i hi hs
        have hi' : i < s.proc.length := by simpa using hi
        dsimp only at hs ⊢
        rw [hP]
        split_ifs with h
        · subst h; exact absurd hs hst
        · exact hfresh i hi' hs
      · intro i hi hs
        have hi' : i < s.proc.length := by simpa using hi
        dsimp only at hs ⊢
        rw [hP]
        split_ifs with h
        · subst h; exact helapsed idx hidx hs
        · exact helapsed i hi' hs
      · intro i hi hd
        have hi' : i < s.proc.length := by simpa using hi
        dsimp only at hd ⊢
        rw [getD_set_of_lt _ _ _ _ _ (by rw [hQ.len_done]; exact hidx)] at hd
        rw [hP]
        split_ifs with h
        · dsimp only
          omega
        · rw [if_neg h] at hd
          exact hE.done_span i hi' hd
    · exact ⟨hfresh, helapsed, hE.done_span⟩
    · exact ⟨hfresh, helapsed, hE.done_span⟩

/-- Step 3 and the elapsed-time invariant: a first dispatch records the current time. -/
theorem rr_dispatch_elapsed (orig : List Process) (q : Int) (s : RrState)
    (hC : RrCore orig q s) (hE : RrElapsed s.current_time s) :
    RrElapsed s.current_time (rr_dispatch s) := by
  have hQ := hC.q
  by_cases hc : s.current_running_process_idx = none ∧ 0 < s.processes_in_queue
  · have hdq := ringList_dequeue s.ready_queue s.queue_front_idx s.processes_in_queue
      s.proc.length hQ.front_lt hc.2
    have hin : s.ready_queue.getD s.queue_front_idx 0 ∈ queueList s := by
      show _ ∈ ringList _ _ _ _
      rw [hdq]; exact List.mem_cons_self _ _
    have hlt := hQ.q_lt _ hin
    unfold rr_dispatch
    rw [if_pos hc]
    dsimp only
    split_ifs with h
    · have hS : ∀ i, (s.actual_start_time.set (s.ready_queue.getD s.queue_front_idx 0)
          s.current_time).getD i 0 =
          if s.ready_queue.getD s.queue_front_idx 0 = i then s.current_time
          else s.actual_start_time.getD i 0 := by
        intro i; rw [getD_set_of_lt _ _ _ _ _ (by rw [hQ.len_start]; exact hlt)]
      refine ⟨?_, ?_, hE.done_span⟩
      · intro i hi hs
        dsimp only at hs ⊢
        rw [hS] at hs
        split_ifs at hs with hi'
        · have := hC.time_nonneg
          omega
        · exact hE.fresh i hi hs
      · intro i hi hs
        dsimp only at hs ⊢
        rw [hS] at hs ⊢
        split_ifs at hs ⊢ with hi'
        · subst hi'
          have := hE.fresh _ hlt h
          omega
        · exact hE.elapsed i hi hs
    · exact ⟨hE.fresh, hE.elapsed, hE.done_span⟩
  · unfold rr_dispatch
    rw [if_neg hc]
    exact hE

/-- One iteration of the loop re-establishes the elapsed-time invariant. -/
theorem rr_tick_elapsed (orig : List Process) (q : Int) (s : RrState)
    (hI : RrInv orig q s) (hE : RrElapsed (s.current_time - 1) s) :
    RrElapsed ((rr_advance (rr_tick q s)).current_time - 1) (rr_advance (rr_tick q s)) := by
  obtain ⟨hCa, hTa⟩ := rr_admission_inv orig q s hI
  have hFa := rr_admission_frame s
  have hEa : RrElapsed ((rr_admission s).current_time - 1) (rr_admission s) := by
    rw [hFa.current_time]
    exact
      { fresh := by
          rw [hFa.proc, hFa.actual_start_time, hFa.remaining_burst_time]; exact hE.fresh
        elapsed := by
          rw [hFa.proc, hFa.actual_start_time, hFa.remaining_burst_time]; exact hE.elapsed
        done_span := by rw [hFa.proc, hFa.is_completed]; exact hE.done_span }
  have hEb := rr_execute_elapsed orig q _ hCa hEa
  rw [← hFa.current_time] at hTa
  obtain ⟨⟨hCb, -⟩, hbt, -⟩ := rr_execute_inv orig q (rr_admission s) hCa hTa
  rw [← hbt] at hEb
  have hEd := rr_dispatch_elapsed orig q _ hCb hEb
  have ht : (rr_advance (rr_tick q s)).current_time - 1 =
      (rr_execute q (rr_admission s)).current_time := by
    show (rr_dispatch (rr_execute q (rr_admission s))).current_time + 1 - 1 = _
    rw [(rr_dispatch_time _).1]
    ring
  rw [ht]
  exact ⟨hEd.fresh, hEd.elapsed, hEd.done_span⟩

theorem rr_init_elapsed (proc : List Process) :
    RrElapsed ((rr_init proc).current_time - 1) (rr_init proc) := by
  have hlen : (rr_init proc).proc.length = proc.length := by simp [rr_init]
  refine ⟨?_, ?_, ?_⟩
  · intro i _ _
    show (proc.map fun p => p.burstTime).getD i 0 = (procAt (proc.map _) i).burstTime
    rw [getD_map_burst, procAt_map_reset]
  · intro i hi hs
    rw [hlen] at hi
    exact absurd (getD_map_neg_one proc i hi) hs
  · intro i _ hd
    have : (proc.map fun _ => false).getD i false = true := hd
    rw [getD_map_false] at this
    exact absurd this (by decide)

/-- In the integers: the Round-Robin loop ends and each process's
completionTime - startTime is at least its burstTime. -/
theorem rr_span_at_least_burst (proc : List Process) (timeQuantum : Int)
    (h : ∀ p ∈ proc, 0 ≤ p.arrivalTime ∧ 1 ≤ p.burstTime) (hq : 1 ≤ timeQuantum) :
    ∃ r, RrSchedules timeQuantum proc r ∧ r.length = proc.length ∧
      ∀ p ∈ r, p.burstTime ≤ p.completionTime - p.startTime := by
  have hn_or : proc = [] ∨ 1 ≤ proc.length := by cases proc <;> simp
  rcases hn_or with rfl | hn
  · exact ⟨[], ⟨0, fun _ _ => rfl⟩, rfl, fun p hp => absurd hp (List.not_mem_nil p)⟩
  have h' : ∀ p ∈ proc, 0 ≤ p.arrivalTime ∧ 0 < p.burstTime :=
    fun p hp => ⟨(h p hp).1, by have := (h p hp).2; omega⟩
  obtain ⟨r, hret, hI, hc⟩ := rr_total proc timeQuantum hn h' hq
  have hlen : r.proc.length = proc.length := hI.core.len_proc
  have hI0 := rr_init_inv proc timeQuantum hn h' hq
  obtain ⟨N, hN⟩ := hret
  have hE := rr_loop_carries proc timeQuantum
    (fun s => RrElapsed (s.current_time - 1) s)
    (fun s hI hP => rr_tick_elapsed proc timeQuantum s hI hP)
    N (rr_init proc) r hI0 (rr_init_elapsed proc)
    (by rw [hI0.core.len_proc]; exact hn) (hN N (le_refl _))
  refine ⟨r.proc, rrSchedules_of_returns timeQuantum proc r hn ⟨N, hN⟩, hlen, ?_⟩
  intro p hp
  obtain ⟨i, hi, rfl⟩ := mem_procAt _ p hp
  have hflag := (rr_final_state proc timeQuantum r hI hc i hi).1
  have := hE.done_span i hi hflag
  have h1 : (procAt (rr_advance r).proc i) = procAt r.proc i := rfl
  rw [h1] at this
  omega

/-! ## First dispatches follow the arrival order -/

theorem arrivesBefore_congr (p₁ p₂ : List Process)
    (h : ∀ i, (procAt p₁ i).arrivalTime = (procAt p₂ i).arrivalTime) (i j : Nat) :
    arrivesBefore p₁ i j ↔ arrivesBefore p₂ i j := by
  unfold arrivesBefore
  rw [h i, h j]

theorem arrivesBefore_asymm (p : List Process) (i j : Nat) (h₁ : arrivesBefore p i j)
    (h₂ : arrivesBefore p j i) : False := by
  unfold arrivesBefore at h₁ h₂
  omega

/-- What step 2 does to the queue, the first-dispatch times and the arrival times. -/
theorem rr_execute_effect (q : Int) (s : RrState) (hQ : RrQInv s) :
    (queueList (rr_execute q s) = queueList s ∨
      ∃ idx, s.current_running_process_idx = some idx ∧
        queueList (rr_execute q s) = queueList s ++ [idx]) ∧
    (rr_execute q s).actual_start_time = s.actual_start_time ∧
    (∀ i, (procAt (rr_execute q s).proc i).arrivalTime = (procAt s.proc i).arrivalTime) ∧
    (rr_execute q s).proc.length = s.proc.length := by
  cases hrun : s.current_running_process_idx with
  | none =>
    have : rr_execute q s = s := by unfold rr_execute; rw [hrun]
    rw [this]
    exact ⟨Or.inl rfl, rfl, fun _ => rfl, rfl⟩
  | some idx =>
    have hidx : idx < s.proc.length := hQ.run_lt idx hrun
    have hnotin : idx ∉ queueList s := hQ.run_notin idx hrun
    unfold rr_execute
    rw [hrun]
    dsimp only
    split_ifs with h0 hq
    · refine ⟨Or.inl (by simp [queueList]), rfl, ?_, by simp⟩
      intro i
      rw [procAt_set_of_lt _ _ _ _ hidx]
      split_ifs with h
      · subst h; rfl
      · rfl
    · refine ⟨Or.inr ⟨idx, rfl, ?_⟩, rfl, fun _ => rfl, rfl⟩
      have hQ2 : RrQInv
          { s with
            remaining_burst_time :=
              s.remaining_burst_time.set idx (s.remaining_burst_time.getD idx 0 - 1)
            current_quantum_slice_used := 0
            current_running_process_idx := none } :=
        { n_pos := hQ.n_pos
          len_rem := by simp [hQ.len_rem]
          len_start := hQ.len_start
          len_done := hQ.len_done
          len_queue := hQ.len_queue
          front_lt := hQ.front_lt
          rear_rel := hQ.rear_rel
          q_nodup := hQ.q_nodup
          q_lt := hQ.q_lt
          q_live := hQ.q_live
          run_lt := by intro x hx; cases hx
          run_live := by intro x hx; cases hx
          run_notin := by intro x hx; cases hx
          count_eq := hQ.count_eq }
      have key := rr_enqueue_queueList _ idx hQ2 hidx hnotin
      exact key
    · exact ⟨Or.inl rfl, rfl, fun _ => rfl, rfl⟩

/-- What step 3 does when it dispatches: the head leaves the queue and, on its first
dispatch, gets the current time as first-dispatch time. -/
theorem rr_dispatch_effect (s : RrState) (hQ : RrQInv s)
    (hc : s.current_running_process_idx = none ∧ 0 < s.processes_in_queue) :
    queueList s = s.ready_queue.getD s.queue_front_idx 0 :: queueList (rr_dispatch s) ∧
    (rr_dispatch s).proc = s.proc ∧
    ∀ i, (rr_dispatch s).actual_start_time.getD i 0 =
      if s.ready_queue.getD s.queue_front_idx 0 = i ∧
          s.actual_start_time.getD (s.ready_queue.getD s.queue_front_idx 0) 0 = -1 then
        s.current_time
      else s.actual_start_time.getD i 0 := by
  have hdq : queueList s = s.ready_queue.getD s.queue_front_idx 0 ::
      ringList s.ready_queue ((s.queue_front_idx + 1) % s.proc.length)
        (s.processes_in_queue - 1) s.proc.length :=
    ringList_dequeue s.ready_queue s.queue_front_idx s.processes_in_queue
      s.proc.length hQ.front_lt hc.2
  have hin : s.ready_queue.getD s.queue_front_idx 0 ∈ queueList s := by
    rw [hdq]; exact List.mem_cons_self _ _
  have hlt := hQ.q_lt _ hin
  unfold rr_dispatch
  rw [if_pos hc]
  dsimp only
  split_ifs with h
  · refine ⟨hdq, rfl, ?_⟩
    intro i
    dsimp only
    rw [getD_set_of_lt _ _ _ _ _ (by rw [hQ.len_start]; exact hlt)]
    by_cases hi : s.ready_queue.getD s.queue_front_idx 0 = i
    · rw [if_pos hi, if_pos ⟨hi, h⟩]
    · rw [if_neg hi, if_neg (fun hh => hi hh.1)]
  · refine ⟨hdq, rfl, ?_⟩
    intro i
    rw [if_neg (fun hh => h hh.2)]

theorem rr_admission_order (orig : List Process) (q : Int) (s : RrState)
    (hI : RrInv orig q s) (hO : RrOrder s) : RrOrder (rr_admission s) := by
  obtain ⟨-, hF, hql⟩ := rr_admission_spec s hI.core.q
  refine ⟨?_, ?_⟩
  · rw [hF.proc, hF.actual_start_time]
    exact hO.started_order
  · rw [hql, hF.proc, hF.actual_start_time, List.pairwise_append]
    refine ⟨hO.queue_order, ?_, ?_⟩
    · have h1 : ((List.range s.proc.length).filter
          (fun i => decide (rrAdmits s i))).Pairwise (fun x y => x < y) :=
        (List.pairwise_lt_range _).sublist (List.filter_sublist _)
      refine h1.imp_of_mem ?_
      intro x y hx hy hxy _ _
      have ax := (of_decide_eq_true (List.mem_filter.mp hx).2 : rrAdmits s x).2.1
      have ay := (of_decide_eq_true (List.mem_filter.mp hy).2 : rrAdmits s y).2.1
      exact Or.inr ⟨by rw [ax, ay], hxy⟩
    · intro x hx y hy _ _
      have ay := (of_decide_eq_true (List.mem_filter.mp hy).2 : rrAdmits s y).2.1
      have hxlt := hI.core.q.q_lt x hx
      have ax : (procAt s.proc x).arrivalTime ≤ s.current_time - 1 := by
        by_contra hcon
        exact (hI.timed.future x hxlt (not_le.mp hcon)).1 hx
      exact Or.inl (by omega)

theorem rr_execute_order (orig : List Process) (q : Int) (s : RrState)
    (hC : RrCore orig q s) (hO : RrOrder s) : RrOrder (rr_execute q s) := by
  obtain ⟨hq, hs, ha, hl⟩ := rr_execute_effect q s hC.q
  have hab := arrivesBefore_congr _ _ ha
  refine ⟨?_, ?_⟩
  · rw [hl, hs]
    intro i j hi hj hij
    exact hO.started_order i j hi hj ((hab i j).mp hij)
  · rw [hs]
    have hbase : (queueList s).Pairwise fun x y =>
        s.actual_start_time.getD x 0 = -1 → s.actual_start_time.getD y 0 = -1 →
          arrivesBefore (rr_execute q s).proc x y :=
      hO.queue_order.imp (fun {x y} h h1 h2 => (hab x y).mpr (h h1 h2))
    rcases hq with h | ⟨idx, hrun, h⟩
    · rw [h]; exact hbase
    · rw [h, List.pairwise_append]
      refine ⟨hbase, List.pairwise_singleton _ _, ?_⟩
      intro x _ y hy _ h2
      rw [List.mem_singleton.mp hy] at h2
      exact absurd h2 (hC.run_started idx hrun)

theorem rr_dispatch_order (orig : List Process) (q : Int) (s : RrState)
    (hC : RrCore orig q s) (hT : RrTimed s.current_time (s.current_time - 1) s)
    (hO : RrOrder s) : RrOrder (rr_dispatch s) := by
  have hQ := hC.q
  by_cases hc : s.current_running_process_idx = none ∧ 0 < s.processes_in_queue
  · obtain ⟨hdq, hp, hS⟩ := rr_dispatch_effect s hQ hc
    have hnd := hQ.q_nodup
    rw [hdq] at hnd
    obtain ⟨hnotin, -⟩ := List.nodup_cons.mp hnd
    have hin : s.ready_queue.getD s.queue_front_idx 0 ∈ queueList s := by
      rw [hdq]; exact List.mem_cons_self _ _
    have hlt := hQ.q_lt _ hin
    have harr : (procAt s.proc (s.ready_queue.getD s.queue_front_idx 0)).arrivalTime ≤
        s.current_time := by
      by_contra hcon
      exact (hT.future _ hlt (not_le.mp hcon)).1 hin
    have hqo := hO.queue_order
    rw [hdq] at hqo
    obtain ⟨hhead, htail⟩ := List.pairwise_cons.mp hqo
    have htime := hC.time_nonneg
    refine ⟨?_, ?_⟩
    · rw [hp]
      intro i j hi hj hij
      rw [hS i, hS j]
      by_cases hj' : s.ready_queue.getD s.queue_front_idx 0 = j ∧
          s.actual_start_time.getD (s.ready_queue.getD s.queue_front_idx 0) 0 = -1
      · -- `j` is dispatched for the first time now
        rw [if_pos hj']
        intro _
        have hne : ¬ s.ready_queue.getD s.queue_front_idx 0 = i := by
          intro h
          rw [← hj'.1, ← h] at hij
          exact arrivesBefore_asymm _ _ _ hij hij
        rw [if_neg (fun hh => hne hh.1)]
        have hstarted : s.actual_start_time.getD i 0 ≠ -1 := by
          intro hfresh
          have hlive : s.is_completed.getD i false = false := by
            cases hd : s.is_completed.getD i false with
            | false => rfl
            | true => exact absurd hfresh (hC.done_times i hi hd).2.1
          have hai : (procAt s.proc i).arrivalTime ≤ s.current_time := by
            have := hij
            unfold arrivesBefore at this
            rw [← hj'.1] at this
            omega
          rcases hT.waiting i hi hlive hai with hw | hw
          · rw [hdq] at hw
            rcases List.mem_cons.mp hw with h | h
            · exact hne h.symm
            · have := hhead i h hj'.2 hfresh
              rw [hj'.1] at this
              exact arrivesBefore_asymm _ _ _ hij this
          · rw [hc.1] at hw
            cases hw
        have := hT.started_le i hi hstarted
        exact ⟨hstarted, by omega⟩
      · rw [if_neg hj']
        intro hsj
        obtain ⟨h1, h2⟩ := hO.started_order i j hi hj hij hsj
        rw [if_neg (fun (hh : s.ready_queue.getD s.queue_front_idx 0 = i ∧
          s.actual_start_time.getD (s.ready_queue.getD s.queue_front_idx 0) 0 = -1) =>
          h1 (hh.1 ▸ hh.2))]
        exact ⟨h1, h2⟩
    · rw [hp]
      refine htail.imp_of_mem ?_
      intro x y hx hy h hx1 hy1
      have hxne : ¬ s.ready_queue.getD s.queue_front_idx 0 = x :=
        fun hh => hnotin (hh ▸ hx)
      have hyne : ¬ s.ready_queue.getD s.queue_front_idx 0 = y :=
        fun hh => hnotin (hh ▸ hy)
      rw [hS x, if_neg (fun hh => hxne hh.1)] at hx1
      rw [hS y, if_neg (fun hh => hyne hh.1)] at hy1
      exact h hx1 hy1
  · unfold rr_dispatch
    rw [if_neg hc]
    exact hO

/-- One iteration of the loop re-establishes the order invariant. -/
theorem rr_tick_order (orig : List Process) (q : Int) (s : RrState)
    (hI : RrInv orig q s) (hO : RrOrder s) : RrOrder (rr_advance (rr_tick q s)) := by
  obtain ⟨hCa, hTa⟩ := rr_admission_inv orig q s hI
  have hFa := rr_admission_frame s
  have hOa := rr_admission_order orig q s hI hO
  have hOb := rr_execute_order orig q _ hCa hOa
  rw [← hFa.current_time] at hTa
  obtain ⟨⟨hCb, hTb⟩, hbt, -⟩ := rr_execute_inv orig q (rr_admission s) hCa hTa
  rw [← hbt] at hTb
  have hOd := rr_dispatch_order orig q _ hCb hTb hOb
  exact ⟨hOd.started_order, hOd.queue_order⟩

theorem rr_init_order (proc : List Process) : RrOrder (rr_init proc) := by
  have hlen : (rr_init proc).proc.length = proc.length := by simp [rr_init]
  refine ⟨?_, ?_⟩
  · intro i j _ hj _ hs
    rw [hlen] at hj
    exact absurd (getD_map_neg_one proc j hj) hs
  · have hql : queueList (rr_init proc) = [] := by simp [queueList, rr_init, ringList]
    rw [hql]
    exact List.Pairwise.nil

/-- In the integers: the Round-Robin loop ends and first dispatch follows arrival order,
ties broken by ascending index. -/
theorem rr_first_dispatch_order (proc : List Process) (timeQuantum : Int)
    (h : ∀ p ∈ proc, 0 ≤ p.arrivalTime ∧ 1 ≤ p.burstTime) (hq : 1 ≤ timeQuantum) :
    ∃ r, RrSchedules timeQuantum proc r ∧ r.length = proc.length ∧
      ∀ i j, i < proc.length → j < proc.length →
        ((procAt r i).arrivalTime < (procAt r j).arrivalTime ∨
          ((procAt r i).arrivalTime = (procAt r j).arrivalTime ∧ i < j)) →
        (procAt r i).startTime < (procAt r j).startTime := by
  have hn_or : proc = [] ∨ 1 ≤ proc.length := by cases proc <;> simp
  rcases hn_or with rfl | hn
  · exact ⟨[], ⟨0, fun _ _ => rfl⟩, rfl, fun i _ hi => absurd hi (Nat.not_lt_zero i)⟩
  have h' : ∀ p ∈ proc, 0 ≤ p.arrivalTime ∧ 0 < p.burstTime :=
    fun p hp => ⟨(h p hp).1, by have := (h p hp).2; omega⟩
  obtain ⟨r, hret, hI, hc⟩ := rr_total proc timeQuantum hn h' hq
  have hlen : r.proc.length = proc.length := hI.core.len_proc
  have hI0 := rr_init_inv proc timeQuantum hn h' hq
  obtain ⟨N, hN⟩ := hret
  have hO := rr_loop_carries proc timeQuantum RrOrder
    (fun s hI hP => rr_tick_order proc timeQuantum s hI hP)
    N (rr_init proc) r hI0 (rr_init_order proc)
    (by rw [hI0.core.len_proc]; exact hn) (hN N (le_refl _))
  refine ⟨r.proc, rrSchedules_of_returns timeQuantum proc r hn ⟨N, hN⟩, hlen, ?_⟩
  intro i j hi hj hij
  rw [← hlen] at hi hj
  have hfi := (rr_final_state proc timeQuantum r hI hc i hi).1
  have hfj := (rr_final_state proc timeQuantum r hI hc j hj).1
  obtain ⟨di, -, -⟩ := hI.core.done_times i hi hfi
  obtain ⟨dj, dj2, -⟩ := hI.core.done_times j hj hfj
  have := (hO.started_order i j hi hj hij dj2).2
  have di' : (procAt r.proc i).startTime = r.actual_start_time.getD i 0 := di
  have dj' : (procAt r.proc j).startTime = r.actual_start_time.getD j 0 := dj
  have this' : r.actual_start_time.getD i 0 < r.actual_start_time.getD j 0 := this
  omega

/-! ## Pending work and sums of the SJF loop -/

theorem procAt_cons_succ (p : Process) (ps : List Process) (i : Nat) :
    procAt (p :: ps) (i + 1) = procAt ps i := by
  unfold procAt
  rfl

theorem procAt_cons_zero (p : Process) (ps : List Process) : procAt (p :: ps) 0 = p := by
  unfold procAt
  rfl

theorem mem_sjfPending (t : Int) (ps : List Process) (fs : List Bool) (x : Int × Int) :
    x ∈ sjfPending t ps fs ↔
      ∃ i, i < ps.length ∧ i < fs.length ∧ fs.getD i false = false ∧
        x = (max (procAt ps i).arrivalTime t, (procAt ps i).burstTime) := by
  induction ps generalizing fs with
  | nil => simp [sjfPending]
  | cons p ps ih =>
    cases fs with
    | nil => simp [sjfPending]
    | cons f fs =>
      unfold sjfPending
      constructor
      · intro hx
        split_ifs at hx with hf
        · obtain ⟨i, h1, h2, h3, h4⟩ := (ih fs).mp hx
          exact ⟨i + 1, by simpa using h1, by simpa using h2, by simpa using h3,
            by rw [procAt_cons_succ]; exact h4⟩
        · rcases List.mem_cons.mp hx with rfl | hx
          · exact ⟨0, by simp, by simp, by simpa using hf, by rw [procAt_cons_zero]⟩
          · obtain ⟨i, h1, h2, h3, h4⟩ := (ih fs).mp hx
            exact ⟨i + 1, by simpa using h1, by simpa using h2, by simpa using h3,
              by rw [procAt_cons_succ]; exact h4⟩
      · rintro ⟨i, h1, h2, h3, h4⟩
        cases i with
        | zero =>
          have hf : f = false := by simpa using h3
          rw [procAt_cons_zero] at h4
          rw [if_neg (by rw [hf]; decide), h4]
          exact List.mem_cons_self _ _
        | succ i =>
          rw [procAt_cons_succ] at h4
          have hmem : x ∈ sjfPending t ps fs :=
            (ih fs).mpr ⟨i, by simpa using h1, by simpa using h2, by simpa using h3, h4⟩
          split_ifs
          · exact hmem
          · exact List.mem_cons_of_mem _ hmem

/-- Completing process `k` takes its entry out of the pending work. -/
theorem sjfPending_set (t : Int) (ps : List Process) (fs : List Bool) (k : Nat)
    (v : Process) (h1 : k < ps.length) (h2 : k < fs.length)
    (h3 : fs.getD k false = false) :
    (sjfPending t ps fs).Perm
      ((max (procAt ps k).arrivalTime t, (procAt ps k).burstTime) ::
        sjfPending t (ps.set k v) (fs.set k true)) := by
  induction ps generalizing fs k with
  | nil => simp at h1
  | cons p ps ih =>
    cases fs with
    | nil => simp at h2
    | cons f fs =>
      cases k with
      | zero =>
        have hf : f = false := by simpa using h3
        subst hf
        simp [sjfPending, procAt_cons_zero]
      | succ k =>
        have h := ih fs k (by simpa using h1) (by simpa using h2) (by simpa using h3)
        rw [procAt_cons_succ]
        simp only [List.set_cons_succ]
        unfold sjfPending
        split_ifs
        · exact h
        · exact (h.cons _).trans (List.Perm.swap _ _ _)

/-- Moving the cursor forward raises the arrival times of the pending work. -/
theorem sjfPending_clip (t t' : Int) (h : t ≤ t') (ps : List Process) (fs : List Bool) :
    sjfPending t' ps fs = (sjfPending t ps fs).map fun x => (max x.1 t', x.2) := by
  induction ps generalizing fs with
  | nil => simp [sjfPending]
  | cons p ps ih =>
    cases fs with
    | nil => simp [sjfPending]
    | cons f fs =>
      unfold sjfPending
      split_ifs
      · exact ih fs
      · rw [List.map_cons, ih fs]
        congr 2
        dsimp only
        omega

theorem sjfDoneStart_set (ps : List Process) (fs : List Bool) (k : Nat) (v : Process)
    (h1 : k < ps.length) (h2 : k < fs.length) (h3 : fs.getD k false = false) :
    sjfDoneStart (ps.set k v) (fs.set k true) = v.startTime + sjfDoneStart ps fs := by
  induction ps generalizing fs k with
  | nil => simp at h1
  | cons p ps ih =>
    cases fs with
    | nil => simp at h2
    | cons f fs =>
      cases k with
      | zero =>
        have hf : f = false := by simpa using h3
        subst hf
        simp [sjfDoneStart]
      | succ k =>
        have h := ih fs k (by simpa using h1) (by simpa using h2) (by simpa using h3)
        simp only [List.set_cons_succ, sjfDoneStart, h]
        ring

theorem sjfDoneCompletion_set (ps : List Process) (fs : List Bool) (k : Nat) (v : Process)
    (h1 : k < ps.length) (h2 : k < fs.length) (h3 : fs.getD k false = false) :
    sjfDoneCompletion (ps.set k v) (fs.set k true) =
      v.completionTime + sjfDoneCompletion ps fs := by
  induction ps generalizing fs k with
  | nil => simp at h1
  | cons p ps ih =>
    cases fs with
    | nil => simp at h2
    | cons f fs =>
      cases k with
      | zero =>
        have hf : f = false := by simpa using h3
        subst hf
        simp [sjfDoneCompletion]
      | succ k =>
        have h := ih fs k (by simpa using h1) (by simpa using h2) (by simpa using h3)
        simp only [List.set_cons_succ, sjfDoneCompletion, h]
        ring

theorem sjfDone_all (ps : List Process) (fs : List Bool) (hlen : fs.length = ps.length)
    (h : ∀ i, i < ps.length → fs.getD i false = true) :
    sjfDoneStart ps fs = (ps.map fun p => p.startTime).sum ∧
      sjfDoneCompletion ps fs = (ps.map fun p => p.completionTime).sum := by
  induction ps generalizing fs with
  | nil => cases fs <;> simp [sjfDoneStart, sjfDoneCompletion]
  | cons p ps ih =>
    cases fs with
    | nil => simp at hlen
    | cons f fs =>
      have hf : f = true := by simpa using h 0 (by simp)
      obtain ⟨a, b⟩ := ih fs (by simpa using hlen) (fun i hi => by
        have := h (i + 1) (by simpa using hi)
        simpa using this)
      subst hf
      simp [sjfDoneStart, sjfDoneCompletion, a, b]

theorem sjfPending_init (t : Int) (ps : List Process) :
    sjfPending t ps (List.replicate ps.length false) =
      ps.map fun p => (max p.arrivalTime t, p.burstTime) := by
  induction ps with
  | nil => rfl
  | cons p ps ih => simp [sjfPending, List.replicate_succ, ih]

theorem sjfDone_init (ps : List Process) :
    sjfDoneStart ps (List.replicate ps.length false) = 0 ∧
      sjfDoneCompletion ps (List.replicate ps.length false) = 0 := by
  induction ps with
  | nil => exact ⟨rfl, rfl⟩
  | cons p ps ih => simp [sjfDoneStart, sjfDoneCompletion, List.replicate_succ, ih.1, ih.2]

/-! ## The SJF selection depends on the pending work only -/

theorem sjf_scan_none_pending (s : SjfState) (h : (sjf_scan s).1 = none) :
    ∀ x ∈ sjfPending s.currentTime s.proc s.completed_procs,
      x.1 ≤ s.currentTime → INT_MAX ≤ x.2 := by
  intro x hx hle
  obtain ⟨i, h1, -, h3, rfl⟩ := (mem_sjfPending _ _ _ x).mp hx
  have := ((sjf_scan_spec s).1 h).2 i h1 ⟨h3, by
    have : max (procAt s.proc i).arrivalTime s.currentTime ≤ s.currentTime := hle
    omega⟩
  exact this

theorem sjf_scan_some_pending (s : SjfState) (k : Nat)
    (hlen : s.completed_procs.length = s.proc.length) (h : (sjf_scan s).1 = some k) :
    k < s.proc.length ∧ s.completed_procs.getD k false = false ∧
      (procAt s.proc k).arrivalTime ≤ s.currentTime ∧
      (procAt s.proc k).burstTime < INT_MAX ∧
      (s.currentTime, (procAt s.proc k).burstTime) ∈
        sjfPending s.currentTime s.proc s.completed_procs ∧
      ∀ x ∈ sjfPending s.currentTime s.proc s.completed_procs,
        x.1 ≤ s.currentTime → (procAt s.proc k).burstTime ≤ x.2 := by
  obtain ⟨hk, ⟨hf, ha⟩, -, hmax, hmin⟩ := (sjf_scan_spec s).2 k h
  refine ⟨hk, hf, ha, hmax, ?_, ?_⟩
  · rw [mem_sjfPending]
    exact ⟨k, hk, by rw [hlen]; exact hk, hf, by rw [max_eq_right ha]⟩
  · intro x hx hle
    obtain ⟨i, h1, -, h3, rfl⟩ := (mem_sjfPending _ _ _ x).mp hx
    have hle' : max (procAt s.proc i).arrivalTime s.currentTime ≤ s.currentTime := hle
    exact (hmin i h1 ⟨h3, by omega⟩).1

theorem sjf_step_none (s : SjfState) (h : (sjf_scan s).1 = none) :
    sjf_step s = { s with currentTime := s.currentTime + 1 } := by
  unfold sjf_step
  rw [h]

theorem sjf_step_some (s : SjfState) (k : Nat) (h : (sjf_scan s).1 = some k) :
    sjf_step s =
      { proc := s.proc.set k
          { procAt s.proc k with
            startTime := s.currentTime
            completionTime := s.currentTime + (procAt s.proc k).burstTime }
        completed_procs := s.completed_procs.set k true
        currentTime := s.currentTime + (procAt s.proc k).burstTime
        completed := s.completed + 1 } := by
  unfold sjf_step
  rw [h]

/-- Two states that agree on cursor, pending work and sums so far still agree after one
iteration each. -/
theorem sjf_step_sim (o₁ o₂ : List Process) (s₁ s₂ : SjfState)
    (hI₁ : SjfInv o₁ s₁) (hI₂ : SjfInv o₂ s₂)
    (hb₁ : ∀ i, i < o₁.length → 0 < (procAt o₁ i).burstTime)
    (hb₂ : ∀ i, i < o₂.length → 0 < (procAt o₂ i).burstTime)
    (hS : SjfSim s₁ s₂) : SjfSim (sjf_step s₁) (sjf_step s₂) := by
  have hl₁ : s₁.completed_procs.length = s₁.proc.length := by
    rw [hI₁.len_flags, hI₁.len_proc]
  have hl₂ : s₂.completed_procs.length = s₂.proc.length := by
    rw [hI₂.len_flags, hI₂.len_proc]
  have ht := hS.time_eq
  cases h₁ : (sjf_scan s₁).1 with
  | none =>
    cases h₂ : (sjf_scan s₂).1 with
    | none =>
      rw [sjf_step_none s₁ h₁, sjf_step_none s₂ h₂]
      refine ⟨by show s₁.currentTime + 1 = s₂.currentTime + 1; rw [ht], hS.len_eq,
        hS.completed_eq, ?_, hS.start_eq, hS.completion_eq⟩
      show (sjfPending (s₁.currentTime + 1) s₁.proc s₁.completed_procs).Perm
        (sjfPending (s₂.currentTime + 1) s₂.proc s₂.completed_procs)
      have hf : (fun x : Int × Int => (max x.1 (s₁.currentTime + 1), x.2)) =
          fun x => (max x.1 (s₂.currentTime + 1), x.2) := by rw [ht]
      rw [sjfPending_clip s₁.currentTime (s₁.currentTime + 1) (by omega),
        sjfPending_clip s₂.currentTime (s₂.currentTime + 1) (by omega), hf]
      exact hS.pending_perm.map _
    | some k₂ =>
      exfalso
      obtain ⟨-, -, -, hmax, hmem, -⟩ := sjf_scan_some_pending s₂ k₂ hl₂ h₂
      have := sjf_scan_none_pending s₁ h₁ _ (hS.pending_perm.mem_iff.mpr hmem)
        (by show s₂.currentTime ≤ s₁.currentTime; omega)
      have this' : INT_MAX ≤ (procAt s₂.proc k₂).burstTime := this
      omega
  | some k₁ =>
    obtain ⟨hk₁, hf₁, ha₁, hmax₁, hmem₁, hmin₁⟩ := sjf_scan_some_pending s₁ k₁ hl₁ h₁
    cases h₂ : (sjf_scan s₂).1 with
    | none =>
      exfalso
      have := sjf_scan_none_pending s₂ h₂ _ (hS.pending_perm.mem_iff.mp hmem₁)
        (by show s₁.currentTime ≤ s₂.currentTime; omega)
      have this' : INT_MAX ≤ (procAt s₁.proc k₁).burstTime := this
      omega
    | some k₂ =>
      obtain ⟨hk₂, hf₂, ha₂, hmax₂, hmem₂, hmin₂⟩ := sjf_scan_some_pending s₂ k₂ hl₂ h₂
      have hle₁ : (procAt s₁.proc k₁).burstTime ≤ (procAt s₂.proc k₂).burstTime :=
        hmin₁ _ (hS.pending_perm.mem_iff.mpr hmem₂)
          (by show s₂.currentTime ≤ s₁.currentTime; omega)
      have hle₂ : (procAt s₂.proc k₂).burstTime ≤ (procAt s₁.proc k₁).burstTime :=
        hmin₂ _ (hS.pending_perm.mem_iff.mp hmem₁)
          (by show s₁.currentTime ≤ s₂.currentTime; omega)
      have hbeq : (procAt s₁.proc k₁).burstTime = (procAt s₂.proc k₂).burstTime :=
        le_antisymm hle₁ hle₂
      have hpos : 0 < (procAt s₁.proc k₁).burstTime := by
        rw [hI₁.burst_eq]
        exact hb₁ k₁ (by rw [← hI₁.len_proc]; exact hk₁)
      have hpos₂ : 0 < (procAt s₂.proc k₂).burstTime := by
        rw [hI₂.burst_eq]
        exact hb₂ k₂ (by rw [← hI₂.len_proc]; exact hk₂)
      have hp₁ := sjfPending_set s₁.currentTime s₁.proc s₁.completed_procs k₁
        { procAt s₁.proc k₁ with
          startTime := s₁.currentTime
          completionTime := s₁.currentTime + (procAt s₁.proc k₁).burstTime }
        hk₁ (by rw [hl₁]; exact hk₁) hf₁
      have hp₂ := sjfPending_set s₂.currentTime s₂.proc s₂.completed_procs k₂
        { procAt s₂.proc k₂ with
          startTime := s₂.currentTime
          completionTime := s₂.currentTime + (procAt s₂.proc k₂).burstTime }
        hk₂ (by rw [hl₂]; exact hk₂) hf₂
      rw [max_eq_right ha₁] at hp₁
      rw [max_eq_right ha₂] at hp₂
      have hhead : (s₁.currentTime, (procAt s₁.proc k₁).burstTime) =
          (s₂.currentTime, (procAt s₂.proc k₂).burstTime) := by rw [ht, hbeq]
      rw [hhead] at hp₁
      have hrest := (hp₁.symm.trans (hS.pending_perm.trans hp₂)).cons_inv
      rw [sjf_step_some s₁ k₁ h₁, sjf_step_some s₂ k₂ h₂]
      refine ⟨?_, ?_, ?_, ?_, ?_, ?_⟩
      · show s₁.currentTime + (procAt s₁.proc k₁).burstTime =
          s₂.currentTime + (procAt s₂.proc k₂).burstTime
        rw [ht, hbeq]
      · show (s₁.proc.set k₁ _).length = (s₂.proc.set k₂ _).length
        rw [List.length_set, List.length_set]
        exact hS.len_eq
      · show s₁.completed + 1 = s₂.completed + 1
        rw [hS.completed_eq]
      · show (sjfPending (s₁.currentTime + (procAt s₁.proc k₁).burstTime)
            (s₁.proc.set k₁ _) (s₁.completed_procs.set k₁ true)).Perm
          (sjfPending (s₂.currentTime + (procAt s₂.proc k₂).burstTime)
            (s₂.proc.set k₂ _) (s₂.completed_procs.set k₂ true))
        have hf : (fun x : Int × Int =>
            (max x.1 (s₁.currentTime + (procAt s₁.proc k₁).burstTime), x.2)) =
            fun x => (max x.1 (s₂.currentTime + (procAt s₂.proc k₂).burstTime), x.2) := by
          rw [ht, hbeq]
        rw [sjfPending_clip s₁.currentTime (s₁.currentTime + (procAt s₁.proc k₁).burstTime)
            (by omega),
          sjfPending_clip s₂.currentTime (s₂.currentTime + (procAt s₂.proc k₂).burstTime)
            (by omega), hf]
        exact hrest.map _
      · show sjfDoneStart (s₁.proc.set k₁ _) (s₁.completed_procs.set k₁ true) =
          sjfDoneStart (s₂.proc.set k₂ _) (s₂.completed_procs.set k₂ true)
        rw [sjfDoneStart_set _ _ _ _ hk₁ (by rw [hl₁]; exact hk₁) hf₁,
          sjfDoneStart_set _ _ _ _ hk₂ (by rw [hl₂]; exact hk₂) hf₂, hS.start_eq]
        show s₁.currentTime + _ = s₂.currentTime + _
        rw [ht]
      · show sjfDoneCompletion (s₁.proc.set k₁ _) (s₁.completed_procs.set k₁ true) =
          sjfDoneCompletion (s₂.proc.set k₂ _) (s₂.completed_procs.set k₂ true)
        rw [sjfDoneCompletion_set _ _ _ _ hk₁ (by rw [hl₁]; exact hk₁) hf₁,
          sjfDoneCompletion_set _ _ _ _ hk₂ (by rw [hl₂]; exact hk₂) hf₂,
          hS.completion_eq]
        show s₁.currentTime + (procAt s₁.proc k₁).burstTime + _ =
          s₂.currentTime + (procAt s₂.proc k₂).burstTime + _
        rw [ht, hbeq]

/-- The two loops end together, in states that still agree. -/
theorem sjf_loop_sim (o₁ o₂ : List Process)
    (hb₁ : ∀ i, i < o₁.length → 0 < (procAt o₁ i).burstTime)
    (hb₂ : ∀ i, i < o₂.length → 0 < (procAt o₂ i).burstTime) :
    ∀ (fuel : Nat) (s₁ s₂ : SjfState), SjfInv o₁ s₁ → SjfInv o₂ s₂ → SjfSim s₁ s₂ →
      (sjf_loop fuel s₁ = none ↔ sjf_loop fuel s₂ = none) ∧
      ∀ r₁ r₂, sjf_loop fuel s₁ = some r₁ → sjf_loop fuel s₂ = some r₂ →
        SjfSim r₁ r₂ ∧ SjfInv o₁ r₁ ∧ SjfInv o₂ r₂ ∧ ¬ r₁.completed < r₁.proc.length := by
  intro fuel
  induction fuel with
  | zero =>
    intro s₁ s₂ hI₁ hI₂ hS
    have hc : s₁.completed < s₁.proc.length ↔ s₂.completed < s₂.proc.length := by
      rw [hS.completed_eq, hS.len_eq]
    unfold sjf_loop
    by_cases h : s₁.completed < s₁.proc.length
    · rw [if_pos h, if_pos (hc.mp h)]
      exact ⟨Iff.rfl, fun _ _ hh => by cases hh⟩
    · rw [if_neg h, if_neg (fun hh => h (hc.mpr hh))]
      refine ⟨by simp, ?_⟩
      intro r₁ r₂ e₁ e₂
      cases e₁
      cases e₂
      exact ⟨hS, hI₁, hI₂, h⟩
  | succ fuel ih =>
    intro s₁ s₂ hI₁ hI₂ hS
    have hc : s₁.completed < s₁.proc.length ↔ s₂.completed < s₂.proc.length := by
      rw [hS.completed_eq, hS.len_eq]
    unfold sjf_loop
    by_cases h : s₁.completed < s₁.proc.length
    · rw [if_pos h, if_pos (hc.mp h)]
      exact ih _ _ (sjf_step_inv o₁ s₁ hI₁ hb₁) (sjf_step_inv o₂ s₂ hI₂ hb₂)
        (sjf_step_sim o₁ o₂ s₁ s₂ hI₁ hI₂ hb₁ hb₂ hS)
    · rw [if_neg h, if_neg (fun hh => h (hc.mpr hh))]
      refine ⟨by simp, ?_⟩
      intro r₁ r₂ e₁ e₂
      cases e₁
      cases e₂
      exact ⟨hS, hI₁, hI₂, h⟩

/-! ## The pre-sort of `sjf_metrics` and the totals -/

theorem map_sum_congr_procAt (f : Process → Int) (l₁ l₂ : List Process)
    (hlen : l₁.length = l₂.length) (h : ∀ i, f (procAt l₁ i) = f (procAt l₂ i)) :
    (l₁.map f).sum = (l₂.map f).sum := by
  congr 1
  apply List.ext_getElem
  · simp [hlen]
  · intro i h1 h2
    simp only [List.length_map] at h1 h2
    simp only [List.getElem_map]
    have := h i
    rw [procAt_eq_getElem _ i h1, procAt_eq_getElem _ i h2] at this
    exact this

theorem total_turnaround_split (l : List Process) :
    total_turnaround l =
      (l.map fun p => p.completionTime).sum - (l.map fun p => p.arrivalTime).sum := by
  unfold total_turnaround
  induction l with
  | nil => rfl
  | cons p l ih =>
    simp only [List.map_cons, List.sum_cons, ih]
    omega

theorem total_waiting_split (l : List Process) :
    total_waiting l =
      (l.map fun p => p.completionTime).sum - (l.map fun p => p.arrivalTime).sum -
        (l.map fun p => p.burstTime).sum := by
  unfold total_waiting
  induction l with
  | nil => rfl
  | cons p l ih =>
    simp only [List.map_cons, List.sum_cons, ih]
    omega

theorem total_response_split (l : List Process) :
    total_response l =
      (l.map fun p => p.startTime).sum - (l.map fun p => p.arrivalTime).sum := by
  unfold total_response
  induction l with
  | nil => rfl
  | cons p l ih =>
    simp only [List.map_cons, List.sum_cons, ih]
    omega

theorem sjf_sim_init (proc : List Process) :
    SjfSim (sjf_init proc) (sjf_init (sortByArrival proc)) := by
  refine ⟨rfl, (sortByArrival_length proc).symm, rfl, ?_, ?_, ?_⟩
  · show (sjfPending 0 proc (List.replicate proc.length false)).Perm
      (sjfPending 0 (sortByArrival proc) (List.replicate (sortByArrival proc).length false))
    rw [sjfPending_init, sjfPending_init]
    exact ((sortByArrival_perm proc).symm).map _
  · show sjfDoneStart proc (List.replicate proc.length false) =
      sjfDoneStart (sortByArrival proc) (List.replicate (sortByArrival proc).length false)
    rw [(sjfDone_init proc).1, (sjfDone_init (sortByArrival proc)).1]
  · show sjfDoneCompletion proc (List.replicate proc.length false) =
      sjfDoneCompletion (sortByArrival proc)
        (List.replicate (sortByArrival proc).length false)
    rw [(sjfDone_init proc).2, (sjfDone_init (sortByArrival proc)).2]

/-- Two final states that agree have the same totals. -/
theorem sjf_sim_totals (o₁ o₂ : List Process) (hperm : o₁.Perm o₂) (r₁ r₂ : SjfState)
    (hI₁ : SjfInv o₁ r₁) (hI₂ : SjfInv o₂ r₂) (hS : SjfSim r₁ r₂)
    (hdone : ¬ r₁.completed < r₁.proc.length) :
    r₁.proc.length = r₂.proc.length ∧ total_turnaround r₁.proc = total_turnaround r₂.proc ∧
      total_waiting r₁.proc = total_waiting r₂.proc ∧
      total_response r₁.proc = total_response r₂.proc := by
  have hle₁ : r₁.completed ≤ o₁.length := by
    rw [hI₁.count_eq, ← hI₁.len_flags]
    exact List.count_le_length _ _
  have hc₁ : r₁.completed = o₁.length := by
    have := hI₁.len_proc
    omega
  have hc₂ : r₂.completed = o₂.length := by
    rw [← hS.completed_eq, hc₁]
    exact hperm.length_eq
  have hf₁ := sjfDone_all r₁.proc r₁.completed_procs (by rw [hI₁.len_flags, hI₁.len_proc])
    (fun i hi => sjf_final_flags o₁ r₁ hI₁ hc₁ i (by rw [← hI₁.len_proc]; exact hi))
  have hf₂ := sjfDone_all r₂.proc r₂.completed_procs (by rw [hI₂.len_flags, hI₂.len_proc])
    (fun i hi => sjf_final_flags o₂ r₂ hI₂ hc₂ i (by rw [← hI₂.len_proc]; exact hi))
  have hstart : (r₁.proc.map fun p => p.startTime).sum =
      (r₂.proc.map fun p => p.startTime).sum := by
    rw [← hf₁.1, ← hf₂.1]
    exact hS.start_eq
  have hcompl : (r₁.proc.map fun p => p.completionTime).sum =
      (r₂.proc.map fun p => p.completionTime).sum := by
    rw [← hf₁.2, ← hf₂.2]
    exact hS.completion_eq
  have harr : (r₁.proc.map fun p => p.arrivalTime).sum =
      (r₂.proc.map fun p => p.arrivalTime).sum := by
    rw [map_sum_congr_procAt (fun p => p.arrivalTime) r₁.proc o₁ hI₁.len_proc hI₁.arrival_eq,
      map_sum_congr_procAt (fun p => p.arrivalTime) r₂.proc o₂ hI₂.len_proc hI₂.arrival_eq]
    exact (hperm.map _).sum_eq
  have hburst : (r₁.proc.map fun p => p.burstTime).sum =
      (r₂.proc.map fun p => p.burstTime).sum := by
    rw [map_sum_congr_procAt (fun p => p.burstTime) r₁.proc o₁ hI₁.len_proc hI₁.burst_eq,
      map_sum_congr_procAt (fun p => p.burstTime) r₂.proc o₂ hI₂.len_proc hI₂.burst_eq]
    exact (hperm.map _).sum_eq
  refine ⟨hS.len_eq, ?_, ?_, ?_⟩
  · rw [total_turnaround_split, total_turnaround_split, hcompl, harr]
  · rw [total_waiting_split, total_waiting_split, hcompl, harr, hburst]
  · rw [total_response_split, total_response_split, hstart, harr]

theorem calculate_metrics_congr (a b : List Process) (hlen : a.length = b.length)
    (h1 : total_turnaround a = total_turnaround b) (h2 : total_waiting a = total_waiting b)
    (h3 : total_response a = total_response b) :
    calculate_metrics a = calculate_metrics b := by
  unfold calculate_metrics
  rw [hlen, h1, h2, h3]

/-- In the integers: the loop run on the batch as given and the loop run on the
arrival-sorted batch either both fail to end within the bound, or both end with arrays of
the same length and the same totals; with every burstTime below `INT_MAX` both end. -/
theorem sjf_presort_keeps_totals (proc : List Process)
    (h : ∀ p ∈ proc, 0 < p.burstTime) :
    (∀ fuel, SameTotals (sjf_schedule_unsorted fuel proc) (sjf_schedule fuel proc) ∧
      sjf_metrics_unsorted fuel proc = sjf_metrics fuel proc) ∧
    ((∀ p ∈ proc, p.burstTime < INT_MAX) →
      ∃ N m, ∀ fuel, N ≤ fuel →
        sjf_metrics_unsorted fuel proc = some m ∧ sjf_metrics fuel proc = some m) := by
  have hb₁ : ∀ i, i < proc.length → 0 < (procAt proc i).burstTime :=
    fun i hi => h _ (procAt_mem proc i hi)
  have hb₂ : ∀ i, i < (sortByArrival proc).length →
      0 < (procAt (sortByArrival proc) i).burstTime :=
    fun i hi => h _ ((sortByArrival_mem proc _).mp (procAt_mem _ i hi))
  have key : ∀ fuel, SameTotals (sjf_schedule_unsorted fuel proc) (sjf_schedule fuel proc) ∧
      sjf_metrics_unsorted fuel proc = sjf_metrics fuel proc := by
    intro fuel
    obtain ⟨hnone, hsome⟩ := sjf_loop_sim proc (sortByArrival proc) hb₁ hb₂ fuel
      (sjf_init proc) (sjf_init (sortByArrival proc)) (sjf_init_inv proc)
      (sjf_init_inv (sortByArrival proc)) (sjf_sim_init proc)
    unfold sjf_metrics_unsorted sjf_metrics sjf_schedule_unsorted sjf_schedule
    cases e₁ : sjf_loop fuel (sjf_init proc) with
    | none =>
      rw [hnone.mp e₁]
      exact ⟨trivial, rfl⟩
    | some r₁ =>
      cases e₂ : sjf_loop fuel (sjf_init (sortByArrival proc)) with
      | none =>
        rw [hnone.mpr e₂] at e₁
        cases e₁
      | some r₂ =>
        obtain ⟨hS, hI₁, hI₂, hdone⟩ := hsome r₁ r₂ e₁ e₂
        obtain ⟨hl, ht, hw, hr⟩ := sjf_sim_totals proc (sortByArrival proc)
          (sortByArrival_perm proc).symm r₁ r₂ hI₁ hI₂ hS hdone
        refine ⟨⟨hl, ht, hw, hr⟩, ?_⟩
        show some (calculate_metrics r₁.proc) = some (calculate_metrics r₂.proc)
        rw [calculate_metrics_congr _ _ hl ht hw hr]
  refine ⟨key, ?_⟩
  intro hmax
  obtain ⟨N, r, hr, -, -⟩ := sjf_total (sortByArrival proc)
    (fun p hp => ⟨h p ((sortByArrival_mem proc p).mp hp),
      hmax p ((sortByArrival_mem proc p).mp hp)⟩)
  refine ⟨N, calculate_metrics r.proc, fun fuel hf => ?_⟩
  have hs : sjf_metrics fuel proc = some (calculate_metrics r.proc) := by
    unfold sjf_metrics sjf_schedule
    rw [hr fuel hf]
    rfl
  exact ⟨(key fuel).2.trans hs, hs⟩

/-! ## 32-bit arithmetic: when the reduction does nothing -/

theorem wrap32_eq (x : Int) (h1 : -2147483648 ≤ x) (h2 : x ≤ 2147483647) : wrap32 x = x := by
  unfold wrap32
  omega

theorem wrap32_succ (x : Int) : wrap32 (wrap32 x + 1) = wrap32 (x + 1) := by
  unfold wrap32
  omega

theorem totalBurst_cons (p : Process) (l : List Process) :
    totalBurst (p :: l) = p.burstTime + totalBurst l := by
  simp [totalBurst]

theorem totalBurst_nonneg (l : List Process) (hb : ∀ p ∈ l, 0 ≤ p.burstTime) :
    0 ≤ totalBurst l := by
  unfold totalBurst
  apply List.sum_nonneg
  intro x hx
  obtain ⟨p, hp, rfl⟩ := List.mem_map.mp hx
  exact hb p hp

/-- While the cursor plus the remaining bursts stays within `INT_MAX`, the 32-bit walk of
`fcfs_metrics` is the walk in the integers. -/
theorem fcfs_walk32_eq (t : Int) (l : List Process) (ht : 0 ≤ t)
    (hb : ∀ p ∈ l, 0 ≤ p.burstTime) (h1 : t + totalBurst l ≤ INT_MAX)
    (h2 : ∀ p ∈ l, p.arrivalTime + totalBurst l ≤ INT_MAX) :
    fcfs_walk32 t l = fcfs_walk t l := by
  induction l generalizing t with
  | nil => rfl
  | cons p rest ih =>
    have hp := hb p (List.mem_cons_self _ _)
    have hrest : ∀ q ∈ rest, 0 ≤ q.burstTime := fun q hq => hb q (List.mem_cons_of_mem _ hq)
    have hnn := totalBurst_nonneg rest hrest
    have hp2 := h2 p (List.mem_cons_self _ _)
    rw [totalBurst_cons] at h1 hp2
    unfold INT_MAX at h1 hp2
    have hw : wrap32 ((if t < p.arrivalTime then p.arrivalTime else t) + p.burstTime) =
        (if t < p.arrivalTime then p.arrivalTime else t) + p.burstTime := by
      apply wrap32_eq
      · split_ifs <;> omega
      · split_ifs <;> omega
    simp only [fcfs_walk32, fcfs_walk]
    rw [hw]
    congr 1
    apply ih _ _ hrest
    · unfold INT_MAX
      split_ifs <;> omega
    · intro q hq
      have := h2 q (List.mem_cons_of_mem _ hq)
      rw [totalBurst_cons] at this
      omega
    · split_ifs <;> omega

theorem fitsInt_sort (proc : List Process) (h : FitsInt proc) :
    FitsInt (sortByArrival proc) := by
  unfold FitsInt at h ⊢
  rw [totalBurst_perm _ _ (sortByArrival_perm proc)]
  exact ⟨h.1, fun p hp => h.2 p ((sortByArrival_mem proc p).mp hp)⟩

theorem fcfs_schedule32_eq (proc : List Process) (hb : ∀ p ∈ proc, 0 ≤ p.burstTime)
    (hfit : FitsInt proc) : fcfs_schedule32 proc = fcfs_schedule proc := by
  unfold fcfs_schedule32 fcfs_schedule
  have hs := fitsInt_sort proc hfit
  apply fcfs_walk32_eq 0 _ (le_refl _)
    (fun p hp => hb p ((sortByArrival_mem proc p).mp hp))
  · rw [zero_add]
    exact hs.1
  · exact hs.2

/-! ## Fuel of the 32-bit loops -/

theorem sjf_loop32_mono (fuel : Nat) (s r : SjfState) (h : sjf_loop32 fuel s = some r) :
    ∀ extra, sjf_loop32 (fuel + extra) s = some r := by
  induction fuel generalizing s with
  | zero =>
    intro extra
    unfold sjf_loop32 at h
    split_ifs at h with hlt
    cases extra with
    | zero => unfold sjf_loop32; rw [if_neg hlt]; exact h
    | succ e => rw [Nat.zero_add]; unfold sjf_loop32; rw [if_neg hlt]; exact h
  | succ fuel ih =>
    intro extra
    rw [Nat.add_right_comm]
    unfold sjf_loop32 at h ⊢
    split_ifs at h ⊢ with hlt
    · exact ih _ h extra
    · exact h

theorem sjfReturns32_of_eval (proc r : List Process) (fuel : Nat)
    (h : sjf_schedule32 fuel proc = some r) : SjfReturns32 proc r := by
  refine ⟨fuel, fun f hf => ?_⟩
  obtain ⟨e, rfl⟩ := Nat.exists_eq_add_of_le hf
  unfold sjf_schedule32 at h ⊢
  cases hs : sjf_loop32 fuel (sjf_init (sortByArrival proc)) with
  | none => rw [hs] at h; cases h
  | some s =>
    rw [hs] at h
    rw [sjf_loop32_mono _ _ _ hs e]
    exact h

theorem sjfUnsortedReturns32_of_eval (proc r : List Process) (fuel : Nat)
    (h : sjf_schedule_unsorted32 fuel proc = some r) : SjfUnsortedReturns32 proc r := by
  refine ⟨fuel, fun f hf => ?_⟩
  obtain ⟨e, rfl⟩ := Nat.exists_eq_add_of_le hf
  unfold sjf_schedule_unsorted32 at h ⊢
  cases hs : sjf_loop32 fuel (sjf_init proc) with
  | none => rw [hs] at h; cases h
  | some s =>
    rw [hs] at h
    rw [sjf_loop32_mono _ _ _ hs e]
    exact h

theorem sjfReturns32_unique (proc r₁ r₂ : List Process) (h₁ : SjfReturns32 proc r₁)
    (h₂ : SjfReturns32 proc r₂) : r₁ = r₂ := by
  obtain ⟨N₁, h₁⟩ := h₁
  obtain ⟨N₂, h₂⟩ := h₂
  have a := h₁ (max N₁ N₂) (le_max_left _ _)
  have b := h₂ (max N₁ N₂) (le_max_right _ _)
  rw [a] at b
  exact Option.some.inj b

theorem rr_loop32_mono (q : Int) (fuel : Nat) (s r : RrState)
    (h : rr_loop32 q fuel s = some r) : ∀ extra, rr_loop32 q (fuel + extra) s = some r := by
  induction fuel generalizing s with
  | zero =>
    intro extra
    unfold rr_loop32 at h
    split_ifs at h with hlt
    cases extra with
    | zero => unfold rr_loop32; rw [if_neg hlt]; exact h
    | succ e => rw [Nat.zero_add]; unfold rr_loop32; rw [if_neg hlt]; exact h
  | succ fuel ih =>
    intro extra
    rw [Nat.add_right_comm]
    unfold rr_loop32 at h ⊢
    split_ifs at h ⊢ with hlt hc
    · exact ih _ h extra
    · exact h
    · exact h

theorem rrReturns32_of_eval (q : Int) (proc : List Process) (r : RrState) (fuel : Nat)
    (h : rr_final32 q fuel proc = some r) : RrReturns32 q proc r := by
  refine ⟨fuel, fun f hf => ?_⟩
  obtain ⟨e, rfl⟩ := Nat.exists_eq_add_of_le hf
  exact rr_loop32_mono q fuel _ r h e

theorem rrSchedules32_of_returns (q : Int) (proc : List Process) (r : RrState)
    (hn : 1 ≤ proc.length) (h : RrReturns32 q proc r) : RrSchedules32 q proc r.proc := by
  obtain ⟨N, hN⟩ := h
  refine ⟨N, fun fuel hf => ?_⟩
  unfold rr_schedule32
  rw [if_neg (by omega), hN fuel hf]
  rfl

theorem rrSchedules32_unique (q : Int) (proc r₁ r₂ : List Process)
    (h₁ : RrSchedules32 q proc r₁) (h₂ : RrSchedules32 q proc r₂) : r₁ = r₂ := by
  obtain ⟨N₁, h₁⟩ := h₁
  obtain ⟨N₂, h₂⟩ := h₂
  have a := h₁ (max N₁ N₂) (le_max_left _ _)
  have b := h₂ (max N₁ N₂) (le_max_right _ _)
  rw [a] at b
  exact Option.some.inj b

/-! ## The SJF loop on 32-bit `int` within the range -/

theorem sjfPending_snd (t t' : Int) (ps : List Process) (fs : List Bool) :
    (sjfPending t ps fs).map Prod.snd = (sjfPending t' ps fs).map Prod.snd := by
  induction ps generalizing fs with
  | nil => simp [sjfPending]
  | cons p ps ih =>
    cases fs with
    | nil => simp [sjfPending]
    | cons f fs =>
      unfold sjfPending
      split_ifs
      · exact ih fs
      · simp only [List.map_cons]
        rw [ih fs]

theorem sjfPending_snd_nonneg (t : Int) (ps : List Process) (fs : List Bool)
    (hb : ∀ p ∈ ps, 0 ≤ p.burstTime) : 0 ≤ ((sjfPending t ps fs).map Prod.snd).sum := by
  induction ps generalizing fs with
  | nil => simp [sjfPending]
  | cons p ps ih =>
    have hp := hb p (List.mem_cons_self _ _)
    have hrest : ∀ q ∈ ps, 0 ≤ q.burstTime := fun q hq => hb q (List.mem_cons_of_mem _ hq)
    cases fs with
    | nil => simp [sjfPending]
    | cons f fs =>
      unfold sjfPending
      split_ifs
      · exact ih fs hrest
      · simp only [List.map_cons, List.sum_cons]
        have := ih fs hrest
        omega

theorem sjf_step32_none (s : SjfState) (h : (sjf_scan s).1 = none) :
    sjf_step32 s = { s with currentTime := wrap32 (s.currentTime + 1) } := by
  unfold sjf_step32
  rw [h]

theorem sjf_step32_some (s : SjfState) (k : Nat) (h : (sjf_scan s).1 = some k) :
    sjf_step32 s =
      { proc := s.proc.set k
          { procAt s.proc k with
            startTime := s.currentTime
            completionTime := wrap32 (s.currentTime + (procAt s.proc k).burstTime) }
        completed_procs := s.completed_procs.set k true
        currentTime := wrap32 (s.currentTime + (procAt s.proc k).burstTime)
        completed := s.completed + 1 } := by
  unfold sjf_step32
  rw [h]

theorem sjf_proc_burst_pos (orig : List Process) (s : SjfState) (hI : SjfInv orig s)
    (hb : ∀ i, i < orig.length → 0 < (procAt orig i).burstTime) :
    ∀ p ∈ s.proc, 0 < p.burstTime := by
  intro p hp
  obtain ⟨i, hi, rfl⟩ := mem_procAt _ p hp
  rw [hI.burst_eq]
  exact hb i (by rw [← hI.len_proc]; exact hi)

/-- One iteration within the range: the 32-bit body does what the body in the integers
does, and the cursor stays within the range. -/
theorem sjf_step32_eq (orig : List Process) (s : SjfState) (hI : SjfInv orig s)
    (hF : SjfFits orig s)
    (hb : ∀ i, i < orig.length →
      0 < (procAt orig i).burstTime ∧ (procAt orig i).burstTime < INT_MAX)
    (harr : ∀ i, i < orig.length → (procAt orig i).arrivalTime + totalBurst orig ≤ INT_MAX)
    (hlt : s.completed < orig.length) :
    sjf_step32 s = sjf_step s ∧ SjfFits orig (sjf_step s) := by
  have hl : s.completed_procs.length = s.proc.length := by
    rw [hI.len_flags, hI.len_proc]
  have hpos := sjf_proc_burst_pos orig s hI (fun i hi => (hb i hi).1)
  have hnn : ∀ p ∈ s.proc, 0 ≤ p.burstTime := fun p hp => le_of_lt (hpos p hp)
  have ht := hF.time_nonneg
  have hbd := hF.bound
  have hple := hF.pending_le
  unfold INT_MAX at hbd
  cases hk : (sjf_scan s).1 with
  | none =>
    obtain ⟨i, hi, hif⟩ := exists_unflagged s.completed_procs (by
      rw [← hI.count_eq, hI.len_flags]; exact hlt)
    rw [hI.len_flags] at hi
    have h1 := sjf_scan_none_pending s hk
      (max (procAt s.proc i).arrivalTime s.currentTime, (procAt s.proc i).burstTime)
      ((mem_sjfPending _ _ _ _).mpr
        ⟨i, by rw [hI.len_proc]; exact hi, by rw [hI.len_flags]; exact hi, hif, rfl⟩)
    have h2 := (hb i hi).2
    rw [← hI.burst_eq] at h2
    have h4 : s.currentTime < (procAt s.proc i).arrivalTime := by
      by_contra hcon
      have := h1 (by
        show max (procAt s.proc i).arrivalTime s.currentTime ≤ s.currentTime
        omega)
      have this' : INT_MAX ≤ (procAt s.proc i).burstTime := this
      omega
    have h5 := harr i hi
    rw [← hI.arrival_eq] at h5
    unfold INT_MAX at h5
    have hpd : 0 ≤ sjfPendingBurst s := sjfPending_snd_nonneg _ _ _ hnn
    have hw : wrap32 (s.currentTime + 1) = s.currentTime + 1 :=
      wrap32_eq _ (by omega) (by omega)
    rw [sjf_step32_none s hk, sjf_step_none s hk, hw]
    refine ⟨rfl, ?_⟩
    have hsame : sjfPendingBurst { s with currentTime := s.currentTime + 1 } =
        sjfPendingBurst s := by
      unfold sjfPendingBurst
      rw [sjfPending_snd (s.currentTime + 1) s.currentTime]
    refine ⟨by show 0 ≤ s.currentTime + 1; omega, by rw [hsame]; exact hple, ?_⟩
    rw [hsame]
    show s.currentTime + 1 + sjfPendingBurst s ≤ INT_MAX
    unfold INT_MAX
    omega
  | some k =>
    obtain ⟨hk₁, hf₁, ha₁, -, -, -⟩ := sjf_scan_some_pending s k hl hk
    have hp := sjfPending_set s.currentTime s.proc s.completed_procs k
      { procAt s.proc k with
        startTime := s.currentTime
        completionTime := s.currentTime + (procAt s.proc k).burstTime }
      hk₁ (by rw [hl]; exact hk₁) hf₁
    have hsum := (hp.map Prod.snd).sum_eq
    simp only [List.map_cons, List.sum_cons] at hsum
    have hbk : 0 < (procAt s.proc k).burstTime := hpos _ (procAt_mem _ k hk₁)
    have hnn' : ∀ p ∈ s.proc.set k
        { procAt s.proc k with
          startTime := s.currentTime
          completionTime := s.currentTime + (procAt s.proc k).burstTime },
        0 ≤ p.burstTime := by
      intro p hp'
      rcases List.mem_or_eq_of_mem_set hp' with h | h
      · exact hnn p h
      · rw [h]
        exact le_of_lt hbk
    have hrest := sjfPending_snd_nonneg s.currentTime _ (s.completed_procs.set k true) hnn'
    have hpb : sjfPendingBurst s =
        (procAt s.proc k).burstTime +
          ((sjfPending s.currentTime (s.proc.set k
            { procAt s.proc k with
              startTime := s.currentTime
              completionTime := s.currentTime + (procAt s.proc k).burstTime })
            (s.completed_procs.set k true)).map Prod.snd).sum := hsum
    have hw : wrap32 (s.currentTime + (procAt s.proc k).burstTime) =
        s.currentTime + (procAt s.proc k).burstTime :=
      wrap32_eq _ (by omega) (by omega)
    rw [sjf_step32_some s k hk, sjf_step_some s k hk, hw]
    refine ⟨rfl, ?_⟩
    have hnew : sjfPendingBurst
        { proc := s.proc.set k
            { procAt s.proc k with
              startTime := s.currentTime
              completionTime := s.currentTime + (procAt s.proc k).burstTime }
          completed_procs := s.completed_procs.set k true
          currentTime := s.currentTime + (procAt s.proc k).burstTime
          completed := s.completed + 1 } =
        sjfPendingBurst s - (procAt s.proc k).burstTime := by
      rw [hpb]
      unfold sjfPendingBurst
      dsimp only
      rw [sjfPending_snd (s.currentTime + (procAt s.proc k).burstTime) s.currentTime]
      omega
    refine ⟨by show 0 ≤ s.currentTime + (procAt s.proc k).burstTime; omega,
      by rw [hnew]; omega, ?_⟩
    rw [hnew]
    show s.currentTime + (procAt s.proc k).burstTime +
      (sjfPendingBurst s - (procAt s.proc k).burstTime) ≤ INT_MAX
    unfold INT_MAX
    omega

/-- Within the range the 32-bit loop is the loop in the integers, and it ends with the
cursor within the range. -/
theorem sjf_loop32_eq (orig : List Process)
    (hb : ∀ i, i < orig.length →
      0 < (procAt orig i).burstTime ∧ (procAt orig i).burstTime < INT_MAX)
    (harr : ∀ i, i < orig.length → (procAt orig i).arrivalTime + totalBurst orig ≤ INT_MAX) :
    ∀ (fuel : Nat) (s : SjfState), SjfInv orig s → SjfFits orig s →
      sjf_loop32 fuel s = sjf_loop fuel s ∧
        ∀ r, sjf_loop fuel s = some r → SjfFits orig r := by
  intro fuel
  induction fuel with
  | zero =>
    intro s _ hF
    unfold sjf_loop32 sjf_loop
    refine ⟨rfl, ?_⟩
    intro r hr
    split_ifs at hr
    cases hr
    exact hF
  | succ fuel ih =>
    intro s hI hF
    unfold sjf_loop32 sjf_loop
    by_cases hlt : s.completed < s.proc.length
    · rw [if_pos hlt, if_pos hlt]
      obtain ⟨e, hF'⟩ := sjf_step32_eq orig s hI hF hb harr (by rw [← hI.len_proc]; exact hlt)
      rw [e]
      exact ih _ (sjf_step_inv orig s hI (fun i hi => (hb i hi).1)) hF'
    · rw [if_neg hlt, if_neg hlt]
      refine ⟨rfl, ?_⟩
      intro r hr
      cases hr
      exact hF

theorem sjf_init_fits (orig : List Process) (h : totalBurst orig ≤ INT_MAX) :
    SjfFits orig (sjf_init orig) := by
  have hp : sjfPendingBurst (sjf_init orig) = totalBurst orig := by
    unfold sjfPendingBurst totalBurst
    show ((sjfPending 0 orig (List.replicate orig.length false)).map Prod.snd).sum = _
    rw [sjfPending_init, List.map_map]
    rfl
  refine ⟨le_refl _, by rw [hp], ?_⟩
  rw [hp]
  show (0 : Int) + totalBurst orig ≤ INT_MAX
  omega

/-- On a batch that fits the range, with bursts strictly between `0` and `INT_MAX`, the
32-bit loop started on the array `orig` is the loop in the integers. -/
theorem sjf_loop32_init_eq (orig : List Process)
    (h : ∀ p ∈ orig, 0 < p.burstTime ∧ p.burstTime < INT_MAX) (hfit : FitsInt orig)
    (fuel : Nat) :
    sjf_loop32 fuel (sjf_init orig) = sjf_loop fuel (sjf_init orig) ∧
      ∀ r, sjf_loop fuel (sjf_init orig) = some r → SjfFits orig r :=
  sjf_loop32_eq orig (fun i hi => h _ (procAt_mem orig i hi))
    (fun i hi => hfit.2 _ (procAt_mem orig i hi)) fuel (sjf_init orig)
    (sjf_init_inv orig) (sjf_init_fits orig hfit.1)

theorem sjf_schedule32_eq (proc : List Process)
    (h : ∀ p ∈ proc, 0 < p.burstTime ∧ p.burstTime < INT_MAX) (hfit : FitsInt proc)
    (fuel : Nat) : sjf_schedule32 fuel proc = sjf_schedule fuel proc := by
  unfold sjf_schedule32 sjf_schedule
  rw [(sjf_loop32_init_eq (sortByArrival proc)
    (fun p hp => h p ((sortByArrival_mem proc p).mp hp)) (fitsInt_sort proc hfit) fuel).1]

theorem sjf_schedule_unsorted32_eq (proc : List Process)
    (h : ∀ p ∈ proc, 0 < p.burstTime ∧ p.burstTime < INT_MAX) (hfit : FitsInt proc)
    (fuel : Nat) : sjf_schedule_unsorted32 fuel proc = sjf_schedule_unsorted fuel proc := by
  unfold sjf_schedule_unsorted32 sjf_schedule_unsorted
  rw [(sjf_loop32_init_eq proc h hfit fuel).1]

theorem sjfReturns32_iff (proc r : List Process)
    (h : ∀ p ∈ proc, 0 < p.burstTime ∧ p.burstTime < INT_MAX) (hfit : FitsInt proc) :
    SjfReturns32 proc r ↔ SjfReturns proc r := by
  unfold SjfReturns32 SjfReturns
  simp only [sjf_schedule32_eq proc h hfit]

/-! ## A burst time equal to `INT_MAX` is never selected, on 32-bit `int` either -/

theorem sjf32_starved (fuel : Nat) (s : SjfState) (i : Nat) (hi : i < s.proc.length)
    (hlen : s.completed_procs.length = s.proc.length)
    (hcount : s.completed = s.completed_procs.count true)
    (hf : s.completed_procs.getD i false = false)
    (hb : INT_MAX ≤ (procAt s.proc i).burstTime) : sjf_loop32 fuel s = none := by
  have hlt : s.completed < s.proc.length := by
    rw [hcount, ← hlen]
    exact count_true_lt_of_unflagged _ i (by rw [hlen]; exact hi) hf
  induction fuel generalizing s with
  | zero => unfold sjf_loop32; rw [if_pos hlt]
  | succ fuel ih =>
    unfold sjf_loop32
    rw [if_pos hlt]
    have hscan := sjf_scan_spec s
    have hstep : (sjf_step32 s).proc.length = s.proc.length ∧
        (sjf_step32 s).completed_procs.length = s.proc.length ∧
        (sjf_step32 s).completed = (sjf_step32 s).completed_procs.count true ∧
        (sjf_step32 s).completed_procs.getD i false = false ∧
        INT_MAX ≤ (procAt (sjf_step32 s).proc i).burstTime := by
      unfold sjf_step32
      cases hk : (sjf_scan s).1 with
      | none => exact ⟨rfl, hlen, hcount, hf, hb⟩
      | some k =>
        obtain ⟨hkn, ⟨hkf, -⟩, -, hmax, -⟩ := hscan.2 k hk
        have hki : k ≠ i := by
          rintro rfl
          omega
        dsimp only
        refine ⟨by simp, by simp [hlen], ?_, ?_, ?_⟩
        · rw [count_true_set _ k (by rw [hlen]; exact hkn) hkf, hcount]
        · rw [getD_set, if_neg (fun h => hki h.1)]; exact hf
        · rw [procAt_set, if_neg (fun h => hki h.1)]; exact hb
    obtain ⟨h1, h2, h3, h4, h5⟩ := hstep
    refine ih (sjf_step32 s) (by rw [h1]; exact hi) (by rw [h1]; exact h2) h3 h4 h5 ?_
    rw [h3, h1, ← h2]
    exact count_true_lt_of_unflagged _ i (by rw [h2]; exact hi) h4

/-- On a batch that holds a process with a burst time of `INT_MAX` the loop of
`sjf_metrics` never ends, whatever the clock does: that process fails the test
`burstTime < shortest_burst`. -/
theorem sjf32_never_returns (proc : List Process) (p : Process) (hp : p ∈ proc)
    (hb : INT_MAX ≤ p.burstTime) (fuel : Nat) : sjf_schedule32 fuel proc = none := by
  obtain ⟨i, hi, rfl⟩ := mem_procAt _ p ((sortByArrival_mem proc p).mpr hp)
  unfold sjf_schedule32
  rw [sjf32_starved fuel (sjf_init (sortByArrival proc)) i hi]
  · rfl
  · simp [sjf_init]
  · simp [sjf_init, List.count_replicate]
  · simp only [sjf_init]
    rw [List.getD_eq_getElem?_getD, List.getElem?_replicate, if_pos hi]
    rfl
  · exact hb

theorem sjf32_unsorted_never_returns (proc : List Process) (p : Process) (hp : p ∈ proc)
    (hb : INT_MAX ≤ p.burstTime) (fuel : Nat) :
    sjf_schedule_unsorted32 fuel proc = none := by
  obtain ⟨i, hi, rfl⟩ := mem_procAt _ p hp
  unfold sjf_schedule_unsorted32
  rw [sjf32_starved fuel (sjf_init proc) i hi]
  · rfl
  · simp [sjf_init]
  · simp [sjf_init, List.count_replicate]
  · simp only [sjf_init]
    rw [List.getD_eq_getElem?_getD, List.getElem?_replicate, if_pos hi]
    rfl
  · exact hb

/-! ## The Round-Robin loop on 32-bit `int` within the range -/

theorem one_le_sum_of_getD (l : List Int) (h : ∀ i, i < l.length → 0 ≤ l.getD i 0)
    (i : Nat) (hi : i < l.length) (h1 : 1 ≤ l.getD i 0) : 1 ≤ l.sum := by
  induction l generalizing i with
  | nil => simp at hi
  | cons a l ih =>
    have htail : ∀ j, j < l.length → 0 ≤ l.getD j 0 := by
      intro j hj
      have := h (j + 1) (by simpa using hj)
      simpa using this
    have hnn := sum_nonneg_of_getD l htail
    have ha : 0 ≤ a := by
      have := h 0 (by simp)
      simpa using this
    rw [List.sum_cons]
    cases i with
    | zero =>
      have : 1 ≤ a := by simpa using h1
      omega
    | succ i =>
      have := ih htail i (by simpa using hi) (by simpa using h1)
      omega

theorem rr_remaining_pos (orig : List Process) (q : Int) (s : RrState)
    (hC : RrCore orig q s) (hcond : s.completed_processes_count < s.proc.length) :
    1 ≤ s.remaining_burst_time.sum := by
  obtain ⟨i, hi, hif⟩ := exists_unflagged s.is_completed (by
    rw [← hC.q.count_eq, hC.q.len_done]; exact hcond)
  rw [hC.q.len_done] at hi
  apply one_le_sum_of_getD _ _ i (by rw [hC.q.len_rem]; exact hi) (hC.rem_pos i hi hif)
  intro j hj
  rw [hC.q.len_rem] at hj
  cases hd : s.is_completed.getD j false with
  | false => have := hC.rem_pos j hj hd; omega
  | true => rw [hC.rem_zero j hj hd]

theorem rr_init_fits (proc : List Process) (h : totalBurst proc ≤ INT_MAX) :
    RrFits proc (rr_init proc) := by
  have hs : (rr_init proc).remaining_burst_time.sum = totalBurst proc := rfl
  refine ⟨by rw [hs], ?_⟩
  rw [hs]
  show (0 : Int) + totalBurst proc ≤ INT_MAX + 1
  omega

/-- One iteration within the range: `current_time++` does not leave the range of `int`,
and the bound on the clock is kept. -/
theorem rr_step_fits (orig : List Process) (q : Int) (s : RrState)
    (hI : RrInv orig q s) (hF : RrFits orig s)
    (harr : ∀ i, i < orig.length → (procAt orig i).arrivalTime + totalBurst orig ≤ INT_MAX)
    (hcond : s.completed_processes_count < s.proc.length)
    (hc : (rr_tick q s).completed_processes_count < (rr_tick q s).proc.length) :
    rr_advance32 (rr_tick q s) = rr_advance (rr_tick q s) ∧
      RrFits orig (rr_advance (rr_tick q s)) := by
  obtain ⟨hI', ht, hsum⟩ := rr_tick_inv orig q s hI
  have hFa := (rr_admission_spec s hI.core.q).2.1
  rw [hFa.current_running_process_idx] at hsum
  have hpos : 1 ≤ (rr_tick q s).remaining_burst_time.sum :=
    rr_remaining_pos orig q (rr_advance (rr_tick q s)) hI'.core hc
  have ht0 := hI.core.time_nonneg
  have hrem := hF.rem_le
  have hbd := hF.bound
  unfold INT_MAX at hbd
  have hnew : s.current_time + 1 + (rr_tick q s).remaining_burst_time.sum ≤ 2147483647 + 1 := by
    rw [hsum]
    by_cases hrun : s.current_running_process_idx = none
    · rw [if_pos hrun]
      obtain ⟨i, hi, hif⟩ := exists_unflagged s.is_completed (by
        rw [← hI.core.q.count_eq, hI.core.q.len_done]; exact hcond)
      rw [hI.core.q.len_done] at hi
      have hq0 : queueList s = [] := by
        apply List.eq_nil_of_length_eq_zero
        rw [rr_queue_length]
        exact hI.idle_empty hrun
      have harr' : s.current_time ≤ (procAt s.proc i).arrivalTime := by
        by_contra hcon
        rcases hI.timed.waiting i hi hif (by omega) with hw | hw
        · rw [hq0] at hw
          cases hw
        · rw [hrun] at hw
          cases hw
      have hb := harr i (by rw [← hI.core.len_proc]; exact hi)
      rw [← hI.core.arrival_eq] at hb
      unfold INT_MAX at hb
      omega
    · rw [if_neg hrun]
      omega
  have hw : wrap32 ((rr_tick q s).current_time + 1) = (rr_tick q s).current_time + 1 := by
    rw [ht]
    exact wrap32_eq _ (by omega) (by omega)
  have hadv : rr_advance32 (rr_tick q s) = rr_advance (rr_tick q s) := by
    unfold rr_advance32 rr_advance
    rw [hw]
  refine ⟨hadv, ?_, ?_⟩
  · show (rr_tick q s).remaining_burst_time.sum ≤ totalBurst orig
    rw [hsum]
    split_ifs <;> omega
  · show (rr_tick q s).current_time + 1 + (rr_tick q s).remaining_burst_time.sum ≤
      INT_MAX + 1
    rw [ht]
    unfold INT_MAX
    exact hnew

theorem rr_loop32_eq (orig : List Process) (q : Int)
    (harr : ∀ i, i < orig.length → (procAt orig i).arrivalTime + totalBurst orig ≤ INT_MAX) :
    ∀ (fuel : Nat) (s : RrState), RrInv orig q s → RrFits orig s →
      rr_loop32 q fuel s = rr_loop q fuel s := by
  intro fuel
  induction fuel with
  | zero =>
    intro s _ _
    unfold rr_loop32 rr_loop
    rfl
  | succ fuel ih =>
    intro s hI hF
    unfold rr_loop32 rr_loop
    by_cases hcond : s.completed_processes_count < s.proc.length
    · rw [if_pos hcond, if_pos hcond]
      by_cases hc : (rr_tick q s).completed_processes_count < (rr_tick q s).proc.length
      · rw [if_pos hc, if_pos hc]
        obtain ⟨e, hF'⟩ := rr_step_fits orig q s hI hF harr hcond hc
        rw [e]
        exact ih _ (rr_tick_inv orig q s hI).1 hF'
      · rw [if_neg hc, if_neg hc]
    · rw [if_neg hcond, if_neg hcond]

theorem rr_run32_eq (orig : List Process) (q : Int)
    (harr : ∀ i, i < orig.length → (procAt orig i).arrivalTime + totalBurst orig ≤ INT_MAX) :
    ∀ (k : Nat) (s : RrState), RrInv orig q s → RrFits orig s →
      rr_run32 q k s = rr_run q k s := by
  intro k
  induction k with
  | zero =>
    intro s _ _
    rfl
  | succ k ih =>
    intro s hI hF
    unfold rr_run32 rr_run
    by_cases hc : s.completed_processes_count < s.proc.length ∧
        (rr_tick q s).completed_processes_count < (rr_tick q s).proc.length
    · rw [if_pos hc, if_pos hc]
      obtain ⟨e, hF'⟩ := rr_step_fits orig q s hI hF harr hc.1 hc.2
      rw [e]
      exact ih _ (rr_tick_inv orig q s hI).1 hF'
    · rw [if_neg hc, if_neg hc]

theorem rr_run_inv (orig : List Process) (q : Int) :
    ∀ (k : Nat) (s : RrState), RrInv orig q s → RrInv orig q (rr_run q k s) := by
  intro k
  induction k with
  | zero =>
    intro s hI
    exact hI
  | succ k ih =>
    intro s hI
    unfold rr_run
    split_ifs
    · exact ih _ (rr_tick_inv orig q s hI).1
    · exact hI

theorem rrSafe_of_inv (orig : List Process) (q : Int) (s : RrState) (hI : RrInv orig q s) :
    RrSafe (s.current_time - 1) s :=
  ⟨hI.core.q, fun i hi h => ⟨(hI.timed.future i hi h).1, (hI.timed.future i hi h).2.1⟩⟩

theorem rr_tick_unguarded_eq (orig : List Process) (q : Int) (s : RrState)
    (hI : RrInv orig q s) : rr_tick_unguarded q s = rr_tick q s := by
  unfold rr_tick_unguarded rr_tick
  rw [rr_admission_unguarded_eq s (rrSafe_of_inv orig q s hI)]

theorem rr_loop_unguarded32_eq (orig : List Process) (q : Int)
    (harr : ∀ i, i < orig.length → (procAt orig i).arrivalTime + totalBurst orig ≤ INT_MAX) :
    ∀ (fuel : Nat) (s : RrState), RrInv orig q s → RrFits orig s →
      rr_loop_unguarded32 q fuel s = rr_loop32 q fuel s := by
  intro fuel
  induction fuel with
  | zero =>
    intro s _ _
    unfold rr_loop_unguarded32 rr_loop32
    rfl
  | succ fuel ih =>
    intro s hI hF
    unfold rr_loop_unguarded32 rr_loop32
    rw [rr_tick_unguarded_eq orig q s hI]
    by_cases hcond : s.completed_processes_count < s.proc.length
    · rw [if_pos hcond, if_pos hcond]
      by_cases hc : (rr_tick q s).completed_processes_count < (rr_tick q s).proc.length
      · rw [if_pos hc, if_pos hc]
        obtain ⟨e, hF'⟩ := rr_step_fits orig q s hI hF harr hcond hc
        rw [e]
        exact ih _ (rr_tick_inv orig q s hI).1 hF'
      · rw [if_neg hc, if_neg hc]
    · rw [if_neg hcond, if_neg hcond]

/-- On a batch that fits the range the 32-bit run of `rr_metrics` is the run in the
integers. -/
theorem rr_final32_eq (proc : List Process) (q : Int) (hn : 1 ≤ proc.length)
    (h : ∀ p ∈ proc, 0 ≤ p.arrivalTime ∧ 0 < p.burstTime) (hq : 1 ≤ q)
    (hfit : FitsInt proc) (fuel : Nat) : rr_final32 q fuel proc = rr_final q fuel proc :=
  rr_loop32_eq proc q (fun i hi => hfit.2 _ (procAt_mem proc i hi)) fuel (rr_init proc)
    (rr_init_inv proc q hn h hq) (rr_init_fits proc hfit.1)

theorem rr_schedule32_eq (proc : List Process) (q : Int)
    (h : ∀ p ∈ proc, 0 ≤ p.arrivalTime ∧ 0 < p.burstTime) (hq : 1 ≤ q)
    (hfit : FitsInt proc) (fuel : Nat) :
    rr_schedule32 q fuel proc = rr_schedule q fuel proc := by
  unfold rr_schedule32 rr_schedule
  by_cases h0 : proc.length = 0
  · rw [if_pos h0, if_pos h0]
  · rw [if_neg h0, if_neg h0, rr_final32_eq proc q (by omega) h hq hfit fuel]

theorem rrSchedules32_iff (proc r : List Process) (q : Int)
    (h : ∀ p ∈ proc, 0 ≤ p.arrivalTime ∧ 0 < p.burstTime) (hq : 1 ≤ q)
    (hfit : FitsInt proc) : RrSchedules32 q proc r ↔ RrSchedules q proc r := by
  unfold RrSchedules32 RrSchedules
  simp only [rr_schedule32_eq proc q h hq hfit]

/-! ## The 32-bit Round-Robin run takes the decisions of the run in the integers -/

theorem sameControl_queueList (s w : RrState) (h : RrSameControl s w) :
    queueList w = queueList s := by
  unfold queueList
  rw [h.queue, h.front, h.cnt, h.len]

theorem sameControl_guard (s w : RrState) (h : RrSameControl s w) (i : Nat) :
    isProcessActiveOrInQueue i w.ready_queue w.processes_in_queue w.queue_front_idx
        w.proc.length w.current_running_process_idx =
      isProcessActiveOrInQueue i s.ready_queue s.processes_in_queue s.queue_front_idx
        s.proc.length s.current_running_process_idx := by
  rw [h.queue, h.cnt, h.front, h.len, h.run]

theorem rrQInv_of_sameControl (s w : RrState) (h : RrSameControl s w) (hQ : RrQInv s) :
    RrQInv w :=
  { n_pos := by rw [h.len]; exact hQ.n_pos
    len_rem := by rw [h.rem, h.len]; exact hQ.len_rem
    len_start := by rw [h.start_len, h.len]; exact hQ.len_start
    len_done := by rw [h.done, h.len]; exact hQ.len_done
    len_queue := by rw [h.queue, h.len]; exact hQ.len_queue
    front_lt := by rw [h.front, h.len]; exact hQ.front_lt
    rear_rel := by rw [h.rear, h.front, h.cnt, h.len]; exact hQ.rear_rel
    q_nodup := by rw [sameControl_queueList s w h]; exact hQ.q_nodup
    q_lt := by rw [sameControl_queueList s w h, h.len]; exact hQ.q_lt
    q_live := by rw [sameControl_queueList s w h, h.done]; exact hQ.q_live
    run_lt := by rw [h.run, h.len]; exact hQ.run_lt
    run_live := by rw [h.run, h.done]; exact hQ.run_live
    run_notin := by rw [h.run, sameControl_queueList s w h]; exact hQ.run_notin
    count_eq := by rw [h.cc, h.done]; exact hQ.count_eq }

theorem rr_enqueue_sameControl (s w : RrState) (i : Nat) (h : RrSameControl s w) :
    RrSameControl (rr_enqueue s i) (rr_enqueue w i) := by
  refine ⟨h.len, h.arrival, h.rem, h.done, ?_, h.front, ?_, ?_, h.cc, h.run, h.slice,
    h.start_len, h.time⟩
  · show w.ready_queue.set ((w.queue_rear_idx + 1) % (w.proc.length : Int)).toNat i =
      s.ready_queue.set ((s.queue_rear_idx + 1) % (s.proc.length : Int)).toNat i
    rw [h.queue, h.rear, h.len]
  · show (w.queue_rear_idx + 1) % (w.proc.length : Int) =
      (s.queue_rear_idx + 1) % (s.proc.length : Int)
    rw [h.rear, h.len]
  · show w.processes_in_queue + 1 = s.processes_in_queue + 1
    rw [h.cnt]

theorem rr_admission_step_sameControl (s w : RrState) (i : Nat) (h : RrSameControl s w)
    (ht : w.current_time = s.current_time) :
    RrSameControl (rr_admission_step s i) (rr_admission_step w i) ∧
      (rr_admission_step w i).current_time = (rr_admission_step s i).current_time := by
  unfold rr_admission_step
  rw [sameControl_guard s w h i, h.done, h.arrival, ht]
  split_ifs
  · exact ⟨rr_enqueue_sameControl s w i h, ht⟩
  · exact ⟨h, ht⟩
  · exact ⟨h, ht⟩

theorem rr_admission_fold_sameControl (is : List Nat) (s w : RrState)
    (h : RrSameControl s w) (ht : w.current_time = s.current_time) :
    RrSameControl (is.foldl rr_admission_step s) (is.foldl rr_admission_step w) := by
  induction is generalizing s w with
  | nil => exact h
  | cons i is ih =>
    rw [List.foldl_cons, List.foldl_cons]
    obtain ⟨h', ht'⟩ := rr_admission_step_sameControl s w i h ht
    exact ih _ _ h' ht'

theorem foldl_fixed {α β : Type} (f : α → β → α) (a : α) (l : List β)
    (h : ∀ b ∈ l, f a b = a) : l.foldl f a = a := by
  induction l with
  | nil => rfl
  | cons b l ih =>
    rw [List.foldl_cons, h b (List.mem_cons_self _ _)]
    exact ih (fun c hc => h c (List.mem_cons_of_mem _ hc))

theorem rr_admission_step_noop (s : RrState) (i : Nat)
    (h : s.is_completed.getD i false = false ∧
        (procAt s.proc i).arrivalTime = s.current_time →
      isProcessActiveOrInQueue i s.ready_queue s.processes_in_queue s.queue_front_idx
        s.proc.length s.current_running_process_idx = true) :
    rr_admission_step s i = s := by
  unfold rr_admission_step
  by_cases hc : s.is_completed.getD i false = false ∧
      (procAt s.proc i).arrivalTime = s.current_time
  · rw [if_pos hc, h hc]
    rfl
  · rw [if_neg hc]

/-- Step 1 changes nothing when the guard holds back every process that is due. -/
theorem rr_admission_upto_noop (s : RrState) (k : Nat)
    (h : ∀ i, i < k → s.is_completed.getD i false = false ∧
        (procAt s.proc i).arrivalTime = s.current_time →
      isProcessActiveOrInQueue i s.ready_queue s.processes_in_queue s.queue_front_idx
        s.proc.length s.current_running_process_idx = true) :
    rr_admission_upto s k = s :=
  foldl_fixed _ s _ (fun i hi => rr_admission_step_noop s i (h i (List.mem_range.mp hi)))

theorem rr_admission_noop (s : RrState)
    (h : ∀ i, i < s.proc.length → s.is_completed.getD i false = false ∧
        (procAt s.proc i).arrivalTime = s.current_time →
      isProcessActiveOrInQueue i s.ready_queue s.processes_in_queue s.queue_front_idx
        s.proc.length s.current_running_process_idx = true) :
    rr_admission s = s :=
  rr_admission_upto_noop s s.proc.length h

/-- Once the clock of the run in the integers has passed `INT_MAX`, every process that is
not completed is queued or running, so the guard of the 32-bit run holds it back. -/
theorem rr_guard_late (orig : List Process) (q : Int) (s w : RrState)
    (hI : RrInv orig q s) (h : RrSameControl s w)
    (hrange : ∀ i, i < orig.length → (procAt orig i).arrivalTime ≤ INT_MAX)
    (hlate : INT_MAX < s.current_time) (i : Nat) (hi : i < w.proc.length)
    (hlive : w.is_completed.getD i false = false) :
    isProcessActiveOrInQueue i w.ready_queue w.processes_in_queue w.queue_front_idx
      w.proc.length w.current_running_process_idx = true := by
  rw [sameControl_guard s w h i, isProcessActiveOrInQueue_iff]
  rw [h.len] at hi
  rw [h.done] at hlive
  have ha := hrange i (by rw [← hI.core.len_proc]; exact hi)
  rw [← hI.core.arrival_eq] at ha
  rcases hI.timed.waiting i hi hlive (by omega) with hw | hw
  · exact Or.inr hw
  · exact Or.inl hw

theorem rr_admission_sameControl (orig : List Process) (q : Int) (s w : RrState)
    (hI : RrInv orig q s) (h : RrSameControl s w)
    (hrange : ∀ i, i < orig.length → (procAt orig i).arrivalTime ≤ INT_MAX) :
    RrSameControl (rr_admission s) (rr_admission w) := by
  have ht0 := hI.core.time_nonneg
  by_cases hle : s.current_time ≤ INT_MAX
  · have ht : w.current_time = s.current_time := by
      rw [h.time]
      unfold INT_MAX at hle
      exact wrap32_eq _ (by omega) hle
    unfold rr_admission
    rw [h.len]
    exact rr_admission_fold_sameControl _ s w h ht
  · have hlate : INT_MAX < s.current_time := not_le.mp hle
    have hs : rr_admission s = s := by
      apply rr_admission_noop
      intro i hi hc
      have ha := hrange i (by rw [← hI.core.len_proc]; exact hi)
      rw [← hI.core.arrival_eq] at ha
      omega
    have hw : rr_admission w = w := by
      apply rr_admission_noop
      intro i hi hc
      exact rr_guard_late orig q s w hI h hrange hlate i hi hc.1
    rw [hs, hw]
    exact h

theorem rr_execute_sameControl (q : Int) (s w : RrState) (h : RrSameControl s w) :
    RrSameControl (rr_execute q s) (rr_execute q w) := by
  unfold rr_execute
  rw [h.run]
  cases hrun : s.current_running_process_idx with
  | none => exact h
  | some idx =>
    dsimp only
    rw [h.rem, h.slice]
    by_cases h0 : (s.remaining_burst_time.set idx
        (s.remaining_burst_time.getD idx 0 - 1)).getD idx 0 = 0
    · rw [if_pos h0, if_pos h0]
      refine ⟨?_, ?_, rfl, ?_, h.queue, h.front, h.rear, h.cnt, ?_, rfl, rfl, h.start_len,
        h.time⟩
      · show (w.proc.set idx _).length = (s.proc.set idx _).length
        rw [List.length_set, List.length_set]
        exact h.len
      · intro i
        show (procAt (w.proc.set idx _) i).arrivalTime =
          (procAt (s.proc.set idx _) i).arrivalTime
        by_cases hlt : idx < s.proc.length
        · rw [procAt_set_of_lt _ _ _ _ hlt, procAt_set_of_lt _ _ _ _ (by rw [h.len]; exact hlt)]
          split_ifs with hi
          · show (procAt w.proc idx).arrivalTime = (procAt s.proc idx).arrivalTime
            exact h.arrival idx
          · exact h.arrival i
        · rw [List.set_eq_of_length_le (not_lt.mp hlt),
            List.set_eq_of_length_le (by rw [h.len]; exact not_lt.mp hlt)]
          exact h.arrival i
      · show w.is_completed.set idx true = s.is_completed.set idx true
        rw [h.done]
      · show w.completed_processes_count + 1 = s.completed_processes_count + 1
        rw [h.cc]
    · rw [if_neg h0, if_neg h0]
      by_cases hq : s.current_quantum_slice_used + 1 = q
      · rw [if_pos hq, if_pos hq]
        refine ⟨h.len, h.arrival, rfl, h.done, ?_, h.front, ?_, ?_, h.cc, rfl, rfl,
          h.start_len, h.time⟩
        · show w.ready_queue.set ((w.queue_rear_idx + 1) % (w.proc.length : Int)).toNat idx =
            s.ready_queue.set ((s.queue_rear_idx + 1) % (s.proc.length : Int)).toNat idx
          rw [h.queue, h.rear, h.len]
        · show (w.queue_rear_idx + 1) % (w.proc.length : Int) =
            (s.queue_rear_idx + 1) % (s.proc.length : Int)
          rw [h.rear, h.len]
        · show w.processes_in_queue + 1 = s.processes_in_queue + 1
          rw [h.cnt]
      · rw [if_neg hq, if_neg hq]
        exact ⟨h.len, h.arrival, rfl, h.done, h.queue, h.front, h.rear, h.cnt, h.cc,
          rfl, rfl, h.start_len, h.time⟩

theorem rr_dispatch_sameControl (s w : RrState) (h : RrSameControl s w) :
    RrSameControl (rr_dispatch s) (rr_dispatch w) := by
  have c : (w.current_running_process_idx = none ∧ 0 < w.processes_in_queue) ↔
      (s.current_running_process_idx = none ∧ 0 < s.processes_in_queue) := by
    rw [h.run, h.cnt]
  have key : ∀ (a b : List Int), a.length = s.actual_start_time.length →
      b.length = w.actual_start_time.length →
      RrSameControl
        { s with
          current_running_process_idx := some (s.ready_queue.getD s.queue_front_idx 0)
          queue_front_idx := (s.queue_front_idx + 1) % s.proc.length
          processes_in_queue := s.processes_in_queue - 1
          current_quantum_slice_used := 0
          actual_start_time := a }
        { w with
          current_running_process_idx := some (w.ready_queue.getD w.queue_front_idx 0)
          queue_front_idx := (w.queue_front_idx + 1) % w.proc.length
          processes_in_queue := w.processes_in_queue - 1
          current_quantum_slice_used := 0
          actual_start_time := b } := by
    intro a b ha hb
    refine ⟨h.len, h.arrival, h.rem, h.done, h.queue, ?_, h.rear, ?_, h.cc, ?_, rfl, ?_,
      h.time⟩
    · show (w.queue_front_idx + 1) % w.proc.length = (s.queue_front_idx + 1) % s.proc.length
      rw [h.front, h.len]
    · show w.processes_in_queue - 1 = s.processes_in_queue - 1
      rw [h.cnt]
    · show some (w.ready_queue.getD w.queue_front_idx 0) =
        some (s.ready_queue.getD s.queue_front_idx 0)
      rw [h.queue, h.front]
    · show b.length = a.length
      rw [ha, hb]
      exact h.start_len
  unfold rr_dispatch
  by_cases hc : s.current_running_process_idx = none ∧ 0 < s.processes_in_queue
  · rw [if_pos hc, if_pos (c.mpr hc)]
    dsimp only
    split_ifs
    · exact key _ _ (List.length_set _ _ _) (List.length_set _ _ _)
    · exact key _ _ (List.length_set _ _ _) rfl
    · exact key _ _ rfl (List.length_set _ _ _)
    · exact key _ _ rfl rfl
  · rw [if_neg hc, if_neg (fun hh => hc (c.mp hh))]
    exact h

theorem rr_tick_sameControl (orig : List Process) (q : Int) (s w : RrState)
    (hI : RrInv orig q s) (h : RrSameControl s w)
    (hrange : ∀ i, i < orig.length → (procAt orig i).arrivalTime ≤ INT_MAX) :
    RrSameControl (rr_tick q s) (rr_tick q w) := by
  unfold rr_tick
  exact rr_dispatch_sameControl _ _
    (rr_execute_sameControl q _ _ (rr_admission_sameControl orig q s w hI h hrange))

theorem rr_advance_sameControl (s w : RrState) (h : RrSameControl s w) :
    RrSameControl (rr_advance s) (rr_advance32 w) := by
  refine ⟨h.len, h.arrival, h.rem, h.done, h.queue, h.front, h.rear, h.cnt, h.cc, h.run,
    h.slice, h.start_len, ?_⟩
  show wrap32 (w.current_time + 1) = wrap32 (s.current_time + 1)
  rw [h.time, wrap32_succ]

theorem rr_init_sameControl (proc : List Process) :
    RrSameControl (rr_init proc) (rr_init proc) :=
  ⟨rfl, fun _ => rfl, rfl, rfl, rfl, rfl, rfl, rfl, rfl, rfl, rfl, rfl, by
    show (0 : Int) = wrap32 0
    unfold wrap32
    omega⟩

/-- When the loop in the integers ends, the 32-bit loop ends with the same bound on the
iterations, in a state that agrees with it on everything but clock and stamps. -/
theorem rr_loop_sameControl (orig : List Process) (q : Int)
    (hrange : ∀ i, i < orig.length → (procAt orig i).arrivalTime ≤ INT_MAX) :
    ∀ (fuel : Nat) (s w r : RrState), RrInv orig q s → RrSameControl s w →
      rr_loop q fuel s = some r →
      ∃ r', rr_loop32 q fuel w = some r' ∧ RrSameControl r r' := by
  intro fuel
  induction fuel with
  | zero =>
    intro s w r _ h hr
    unfold rr_loop at hr
    unfold rr_loop32
    rw [h.cc, h.len]
    split_ifs at hr ⊢
    cases hr
    exact ⟨w, rfl, h⟩
  | succ fuel ih =>
    intro s w r hI h hr
    have hT := rr_tick_sameControl orig q s w hI h hrange
    unfold rr_loop at hr
    unfold rr_loop32
    rw [h.cc, h.len, hT.cc, hT.len]
    by_cases hcond : s.completed_processes_count < s.proc.length
    · rw [if_pos hcond] at hr ⊢
      by_cases hc : (rr_tick q s).completed_processes_count < (rr_tick q s).proc.length
      · rw [if_pos hc] at hr ⊢
        exact ih _ _ r (rr_tick_inv orig q s hI).1 (rr_advance_sameControl _ _ hT) hr
      · rw [if_neg hc] at hr ⊢
        cases hr
        exact ⟨_, rfl, hT⟩
    · rw [if_neg hcond] at hr ⊢
      cases hr
      exact ⟨w, rfl, h⟩

theorem rr_run_sameControl (orig : List Process) (q : Int)
    (hrange : ∀ i, i < orig.length → (procAt orig i).arrivalTime ≤ INT_MAX) :
    ∀ (k : Nat) (s w : RrState), RrInv orig q s → RrSameControl s w →
      RrSameControl (rr_run q k s) (rr_run32 q k w) := by
  intro k
  induction k with
  | zero =>
    intro s w _ h
    exact h
  | succ k ih =>
    intro s w hI h
    have hT := rr_tick_sameControl orig q s w hI h hrange
    unfold rr_run rr_run32
    rw [h.cc, h.len, hT.cc, hT.len]
    split_ifs
    · exact ih _ _ (rr_tick_inv orig q s hI).1 (rr_advance_sameControl _ _ hT)
    · exact h

/-! ## Claims on FCFS and SJF, for the program on 32-bit `int` -/

/-- C1 (amended): for every batch of n >= 1 processes with arrivalTime >= 0 and
burstTime > 0 in which the sum of all burstTimes, and every arrivalTime plus that sum, is
at most `INT_MAX`, after `fcfs_metrics` every process of the resulting array satisfies
completionTime >= startTime >= arrivalTime; when moreover every burstTime is below
`INT_MAX`, `sjf_metrics` returns and every process of its resulting array satisfies the
same ordering. -/
theorem c1_ordering_fcfs_sjf (proc : List Process) (hn : 1 ≤ proc.length)
    (h : ∀ p ∈ proc, 0 ≤ p.arrivalTime ∧ 0 < p.burstTime) (hfit : FitsInt proc) :
    ((fcfs_schedule32 proc).length = proc.length ∧ ∀ p ∈ fcfs_schedule32 proc, Ordered p) ∧
    ((∀ p ∈ proc, p.burstTime < INT_MAX) →
      ∃ r, SjfReturns32 proc r ∧ r.length = proc.length ∧ ∀ p ∈ r, Ordered p) := by
  obtain ⟨hf, hs⟩ := fcfs_sjf_ordered proc hn h
  rw [fcfs_schedule32_eq proc (fun p hp => le_of_lt (h p hp).2) hfit]
  refine ⟨hf, fun hmax => ?_⟩
  obtain ⟨r, hr, hrest⟩ := hs hmax
  exact ⟨r, (sjfReturns32_iff proc r (fun p hp => ⟨(h p hp).2, hmax p hp⟩) hfit).mpr hr,
    hrest⟩

/-- C1, witness: the batch [(0,5), (1,3)] meets every hypothesis and both schedules are
ordered. -/
theorem c1_ordering_fcfs_sjf_witness :
    (1 ≤ [mkProc 0 5, mkProc 1 3].length ∧
      (∀ p ∈ [mkProc 0 5, mkProc 1 3], 0 ≤ p.arrivalTime ∧ 0 < p.burstTime) ∧
      FitsInt [mkProc 0 5, mkProc 1 3] ∧
      (∀ p ∈ [mkProc 0 5, mkProc 1 3], p.burstTime < INT_MAX)) ∧
    ((fcfs_schedule32 [mkProc 0 5, mkProc 1 3]).length = [mkProc 0 5, mkProc 1 3].length ∧
      ∀ p ∈ fcfs_schedule32 [mkProc 0 5, mkProc 1 3], Ordered p) ∧
    ∃ r, SjfReturns32 [mkProc 0 5, mkProc 1 3] r ∧
      r.length = [mkProc 0 5, mkProc 1 3].length ∧ ∀ p ∈ r, Ordered p :=
  ⟨⟨by decide, by decide, by decide, by decide⟩,
    (c1_ordering_fcfs_sjf [mkProc 0 5, mkProc 1 3] (by decide) (by decide) (by decide)).1,
    (c1_ordering_fcfs_sjf [mkProc 0 5, mkProc 1 3] (by decide) (by decide) (by decide)).2
      (by decide)⟩

/-- C1, counterexample: the batch [(0,INT_MAX), (0,1)] has arrivalTime >= 0 and
burstTime > 0; `fcfs_metrics` starts P1 at INT_MAX and the 32-bit sum INT_MAX + 1 leaves
it the completionTime -2147483648, below its startTime.  Likewise `sjf_metrics` on
[(0,2), (0,2147483646)], both bursts below `INT_MAX`, returns with P1 started at 2 and
completed at -2147483648.  And on [(0,INT_MAX)], where nothing overflows, `sjf_metrics`
never returns. -/
theorem c1_overflow_counterexample :
    ((1 ≤ [mkProc 0 INT_MAX, mkProc 0 1].length ∧
      ∀ p ∈ [mkProc 0 INT_MAX, mkProc 0 1], 0 ≤ p.arrivalTime ∧ 0 < p.burstTime) ∧
      fcfs_schedule32 [mkProc 0 INT_MAX, mkProc 0 1] =
        [⟨0, 2147483647, 0, 2147483647⟩, ⟨0, 1, 2147483647, -2147483648⟩] ∧
      ∃ p ∈ fcfs_schedule32 [mkProc 0 INT_MAX, mkProc 0 1],
        p.completionTime < p.startTime) ∧
    ((1 ≤ [mkProc 0 2, mkProc 0 2147483646].length ∧
      ∀ p ∈ [mkProc 0 2, mkProc 0 2147483646],
        0 ≤ p.arrivalTime ∧ 0 < p.burstTime ∧ p.burstTime < INT_MAX) ∧
      SjfReturns32 [mkProc 0 2, mkProc 0 2147483646]
        [⟨0, 2, 0, 2⟩, ⟨0, 2147483646, 2, -2147483648⟩]) ∧
    (FitsInt [mkProc 0 INT_MAX] ∧ ∀ fuel, sjf_schedule32 fuel [mkProc 0 INT_MAX] = none) :=
  ⟨⟨⟨by decide, by decide⟩, by decide, by decide⟩,
    ⟨⟨by decide, by decide⟩, sjfReturns32_of_eval _ _ 2 (by decide)⟩,
    by decide,
    fun fuel => sjf32_never_returns _ (mkProc 0 INT_MAX) (List.mem_singleton.mpr rfl)
      (le_refl _) fuel⟩

/-- C2 (amended): for every batch of n >= 1 processes with arrivalTime >= 0 and
burstTime > 0 in which the sum of all burstTimes, and every arrivalTime plus that sum, is
at most `INT_MAX`, after `fcfs_metrics` the CPU intervals [startTime, completionTime) of
any two distinct processes do not overlap; when moreover every burstTime is below
`INT_MAX`, `sjf_metrics` returns and the intervals of its resulting array do not overlap
either. -/
theorem c2_no_overlap_fcfs_sjf (proc : List Process) (hn : 1 ≤ proc.length)
    (h : ∀ p ∈ proc, 0 ≤ p.arrivalTime ∧ 0 < p.burstTime) (hfit : FitsInt proc) :
    ((fcfs_schedule32 proc).length = proc.length ∧ NoOverlap (fcfs_schedule32 proc)) ∧
    ((∀ p ∈ proc, p.burstTime < INT_MAX) →
      ∃ r, SjfReturns32 proc r ∧ r.length = proc.length ∧ NoOverlap r) := by
  obtain ⟨hf, hs⟩ := fcfs_sjf_noOverlap proc hn h
  rw [fcfs_schedule32_eq proc (fun p hp => le_of_lt (h p hp).2) hfit]
  refine ⟨hf, fun hmax => ?_⟩
  obtain ⟨r, hr, hrest⟩ := hs hmax
  exact ⟨r, (sjfReturns32_iff proc r (fun p hp => ⟨(h p hp).2, hmax p hp⟩) hfit).mpr hr,
    hrest⟩

/-- C2, witness: the batch [(2,6), (0,4), (1,2)] meets every hypothesis and neither
schedule overlaps. -/
theorem c2_no_overlap_fcfs_sjf_witness :
    (1 ≤ [mkProc 2 6, mkProc 0 4, mkProc 1 2].length ∧
      (∀ p ∈ [mkProc 2 6, mkProc 0 4, mkProc 1 2], 0 ≤ p.arrivalTime ∧ 0 < p.burstTime) ∧
      FitsInt [mkProc 2 6, mkProc 0 4, mkProc 1 2] ∧
      (∀ p ∈ [mkProc 2 6, mkProc 0 4, mkProc 1 2], p.burstTime < INT_MAX)) ∧
    ((fcfs_schedule32 [mkProc 2 6, mkProc 0 4, mkProc 1 2]).length =
        [mkProc 2 6, mkProc 0 4, mkProc 1 2].length ∧
      NoOverlap (fcfs_schedule32 [mkProc 2 6, mkProc 0 4, mkProc 1 2])) ∧
    ∃ r, SjfReturns32 [mkProc 2 6, mkProc 0 4, mkProc 1 2] r ∧
      r.length = [mkProc 2 6, mkProc 0 4, mkProc 1 2].length ∧ NoOverlap r :=
  ⟨⟨by decide, by decide, by decide, by decide⟩,
    (c2_no_overlap_fcfs_sjf [mkProc 2 6, mkProc 0 4, mkProc 1 2] (by decide) (by decide)
      (by decide)).1,
    (c2_no_overlap_fcfs_sjf [mkProc 2 6, mkProc 0 4, mkProc 1 2] (by decide) (by decide)
      (by decide)).2 (by decide)⟩

/-- C2, counterexample: on the batch [(0,INT_MAX), (0,1), (0,1)], with arrivalTime >= 0 and
burstTime > 0, `fcfs_metrics` gives P0 the slot [0, INT_MAX); the cursor then wraps to
-2147483648, is raised to the arrival time 0 of P2, and P2 gets the slot [0, 1), inside
the slot of P0.  Likewise `sjf_metrics` on three processes (0, 2147483646) returns with
the first and the third both on [0, 2147483646).  And on [(0,INT_MAX)], where nothing
overflows, `sjf_metrics` never returns. -/
theorem c2_overflow_counterexample :
    ((1 ≤ [mkProc 0 INT_MAX, mkProc 0 1, mkProc 0 1].length ∧
      ∀ p ∈ [mkProc 0 INT_MAX, mkProc 0 1, mkProc 0 1],
        0 ≤ p.arrivalTime ∧ 0 < p.burstTime) ∧
      fcfs_schedule32 [mkProc 0 INT_MAX, mkProc 0 1, mkProc 0 1] =
        [⟨0, 2147483647, 0, 2147483647⟩, ⟨0, 1, 2147483647, -2147483648⟩, ⟨0, 1, 0, 1⟩] ∧
      ¬ NoOverlap (fcfs_schedule32 [mkProc 0 INT_MAX, mkProc 0 1, mkProc 0 1])) ∧
    ((∀ p ∈ [mkProc 0 2147483646, mkProc 0 2147483646, mkProc 0 2147483646],
        0 ≤ p.arrivalTime ∧ 0 < p.burstTime ∧ p.burstTime < INT_MAX) ∧
      SjfReturns32 [mkProc 0 2147483646, mkProc 0 2147483646, mkProc 0 2147483646]
        [⟨0, 2147483646, 0, 2147483646⟩, ⟨0, 2147483646, 2147483646, -4⟩,
          ⟨0, 2147483646, 0, 2147483646⟩] ∧
      ¬ NoOverlap [⟨0, 2147483646, 0, 2147483646⟩, ⟨0, 2147483646, 2147483646, -4⟩,
          ⟨0, 2147483646, 0, 2147483646⟩]) ∧
    (FitsInt [mkProc 0 INT_MAX] ∧ ∀ fuel, sjf_schedule32 fuel [mkProc 0 INT_MAX] = none) :=
  ⟨⟨⟨by decide, by decide⟩, by decide,
      fun hno => absurd (hno 0 2 (by decide) (by decide) (by decide)) (by decide)⟩,
    ⟨by decide, sjfReturns32_of_eval _ _ 7 (by decide),
      fun hno => absurd (hno 0 2 (by decide) (by decide) (by decide)) (by decide)⟩,
    by decide,
    fun fuel => sjf32_never_returns _ (mkProc 0 INT_MAX) (List.mem_singleton.mpr rfl)
      (le_refl _) fuel⟩

/-- C5 (amended): for every batch with 0 < burstTime < INT_MAX in which the sum of all
burstTimes, and every arrivalTime plus that sum, is at most `INT_MAX`, `sjf_metrics`
returns, and in the resulting, arrival-sorted array, for any two processes i and j: if i
was dispatched before j (startTime_i < startTime_j) although j had already arrived
(arrivalTime_j <= startTime_i), then burstTime_i <= burstTime_j, and if
burstTime_i = burstTime_j then i has the lower array index. -/
theorem c5_sjf_shortest_first (proc : List Process)
    (h : ∀ p ∈ proc, 0 < p.burstTime ∧ p.burstTime < INT_MAX) (hfit : FitsInt proc) :
    ∃ r, SjfReturns32 proc r ∧ r.length = proc.length ∧ ShortestFirst r := by
  obtain ⟨r, hr, hrest⟩ := sjf_shortestFirst proc h
  exact ⟨r, (sjfReturns32_iff proc r h hfit).mpr hr, hrest⟩

/-- C5, witness: the batch [(0,7), (1,3), (2,3), (3,1)] meets the hypotheses. -/
theorem c5_sjf_shortest_first_witness :
    ((∀ p ∈ [mkProc 0 7, mkProc 1 3, mkProc 2 3, mkProc 3 1],
      0 < p.burstTime ∧ p.burstTime < INT_MAX) ∧
      FitsInt [mkProc 0 7, mkProc 1 3, mkProc 2 3, mkProc 3 1]) ∧
    ∃ r, SjfReturns32 [mkProc 0 7, mkProc 1 3, mkProc 2 3, mkProc 3 1] r ∧
      r.length = [mkProc 0 7, mkProc 1 3, mkProc 2 3, mkProc 3 1].length ∧
      ShortestFirst r :=
  ⟨⟨by decide, by decide⟩,
    c5_sjf_shortest_first [mkProc 0 7, mkProc 1 3, mkProc 2 3, mkProc 3 1] (by decide)
      (by decide)⟩

/-- C5, counterexample: on the batch [(0,2147483646), (0,2147483646), (1,1),
(1,2147483646)], every burstTime > 0 and below `INT_MAX`, `sjf_metrics` returns; the
cursor wraps to -3 when the second process completes, the loop idles up to time 1 and
then starts the last process at 1, so that it carries startTime 1 while the process
(1,1), which had arrived by then and has the shorter burst, carries startTime
2147483646.  And on [(0,INT_MAX), (0,2)], with burstTime > 0, `sjf_metrics` never
returns. -/
theorem c5_overflow_counterexample :
    ((∀ p ∈ [mkProc 0 2147483646, mkProc 0 2147483646, mkProc 1 1, mkProc 1 2147483646],
      0 < p.burstTime ∧ p.burstTime < INT_MAX) ∧
    SjfReturns32 [mkProc 0 2147483646, mkProc 0 2147483646, mkProc 1 1, mkProc 1 2147483646]
      [⟨0, 2147483646, 0, 2147483646⟩, ⟨0, 2147483646, 2147483647, -3⟩,
        ⟨1, 1, 2147483646, 2147483647⟩, ⟨1, 2147483646, 1, 2147483647⟩] ∧
    ¬ ShortestFirst [⟨0, 2147483646, 0, 2147483646⟩, ⟨0, 2147483646, 2147483647, -3⟩,
        ⟨1, 1, 2147483646, 2147483647⟩, ⟨1, 2147483646, 1, 2147483647⟩]) ∧
    ((∀ p ∈ [mkProc 0 INT_MAX, mkProc 0 2], 0 < p.burstTime) ∧
      ∀ fuel, sjf_schedule32 fuel [mkProc 0 INT_MAX, mkProc 0 2] = none) :=
  ⟨⟨by decide, sjfReturns32_of_eval _ _ 8 (by decide),
      fun hsf => absurd (hsf 3 2 (by decide) (by decide) (by decide) (by decide)).1
        (by decide)⟩,
    by decide,
    fun fuel => sjf32_never_returns _ (mkProc 0 INT_MAX) (List.mem_cons_self _ _)
      (le_refl _) fuel⟩

/-- C6 (amended): for every batch of n >= 1 processes with burstTime > 0 in which the sum
of all burstTimes, and every arrivalTime plus that sum, is at most `INT_MAX`, after
`fcfs_metrics` every process satisfies completionTime - startTime = burstTime, so the sum
of completionTime - startTime over the batch equals the sum of the burst times; when
moreover every burstTime is below `INT_MAX`, `sjf_metrics` returns and its resulting
array satisfies the same. -/
theorem c6_slot_is_burst_fcfs_sjf (proc : List Process) (hn : 1 ≤ proc.length)
    (h : ∀ p ∈ proc, 0 < p.burstTime) (hfit : FitsInt proc) :
    ((fcfs_schedule32 proc).length = proc.length ∧
      (∀ p ∈ fcfs_schedule32 proc, p.completionTime - p.startTime = p.burstTime) ∧
      totalSlotLength (fcfs_schedule32 proc) = totalBurst proc) ∧
    ((∀ p ∈ proc, p.burstTime < INT_MAX) →
      ∃ r, SjfReturns32 proc r ∧ r.length = proc.length ∧
        (∀ p ∈ r, p.completionTime - p.startTime = p.burstTime) ∧
        totalSlotLength r = totalBurst proc) := by
  obtain ⟨hf, hs⟩ := fcfs_sjf_slot_is_burst proc hn h
  rw [fcfs_schedule32_eq proc (fun p hp => le_of_lt (h p hp)) hfit]
  refine ⟨hf, fun hmax => ?_⟩
  obtain ⟨r, hr, hrest⟩ := hs hmax
  exact ⟨r, (sjfReturns32_iff proc r (fun p hp => ⟨h p hp, hmax p hp⟩) hfit).mpr hr, hrest⟩

/-- C6, witness: the batch [(3,2), (0,4)] meets every hypothesis. -/
theorem c6_slot_is_burst_fcfs_sjf_witness :
    (1 ≤ [mkProc 3 2, mkProc 0 4].length ∧
      (∀ p ∈ [mkProc 3 2, mkProc 0 4], 0 < p.burstTime) ∧
      FitsInt [mkProc 3 2, mkProc 0 4] ∧
      (∀ p ∈ [mkProc 3 2, mkProc 0 4], p.burstTime < INT_MAX)) ∧
    ((fcfs_schedule32 [mkProc 3 2, mkProc 0 4]).length = [mkProc 3 2, mkProc 0 4].length ∧
      (∀ p ∈ fcfs_schedule32 [mkProc 3 2, mkProc 0 4],
        p.completionTime - p.startTime = p.burstTime) ∧
      totalSlotLength (fcfs_schedule32 [mkProc 3 2, mkProc 0 4]) =
        totalBurst [mkProc 3 2, mkProc 0 4]) ∧
    ∃ r, SjfReturns32 [mkProc 3 2, mkProc 0 4] r ∧
      r.length = [mkProc 3 2, mkProc 0 4].length ∧
      (∀ p ∈ r, p.completionTime - p.startTime = p.burstTime) ∧
      totalSlotLength r = totalBurst [mkProc 3 2, mkProc 0 4] :=
  ⟨⟨by decide, by decide, by decide, by decide⟩,
    (c6_slot_is_burst_fcfs_sjf [mkProc 3 2, mkProc 0 4] (by decide) (by decide)
      (by decide)).1,
    (c6_slot_is_burst_fcfs_sjf [mkProc 3 2, mkProc 0 4] (by decide) (by decide)
      (by decide)).2 (by decide)⟩

/-- C6, counterexample: on the batch [(0,INT_MAX), (0,1)], with burstTime > 0,
`fcfs_metrics` leaves P1 with startTime 2147483647 and completionTime -2147483648, whose
difference -4294967295 is not the burstTime 1, and the sum of completionTime - startTime over the
batch is -2147483648 while the burst times sum to 2147483648.  Likewise `sjf_metrics` on
[(0,2), (0,2147483646)] returns with P1 on startTime 2 and completionTime -2147483648.
And on [(0,INT_MAX)], where nothing overflows, `sjf_metrics` never returns. -/
theorem c6_overflow_counterexample :
    ((1 ≤ [mkProc 0 INT_MAX, mkProc 0 1].length ∧
      ∀ p ∈ [mkProc 0 INT_MAX, mkProc 0 1], 0 < p.burstTime) ∧
      fcfs_schedule32 [mkProc 0 INT_MAX, mkProc 0 1] =
        [⟨0, 2147483647, 0, 2147483647⟩, ⟨0, 1, 2147483647, -2147483648⟩] ∧
      (∃ p ∈ fcfs_schedule32 [mkProc 0 INT_MAX, mkProc 0 1],
        p.completionTime - p.startTime ≠ p.burstTime) ∧
      totalSlotLength (fcfs_schedule32 [mkProc 0 INT_MAX, mkProc 0 1]) = -2147483648 ∧
      totalBurst [mkProc 0 INT_MAX, mkProc 0 1] = 2147483648) ∧
    ((∀ p ∈ [mkProc 0 2, mkProc 0 2147483646], 0 < p.burstTime ∧ p.burstTime < INT_MAX) ∧
      SjfReturns32 [mkProc 0 2, mkProc 0 2147483646]
        [⟨0, 2, 0, 2⟩, ⟨0, 2147483646, 2, -2147483648⟩] ∧
      ∃ p ∈ ([⟨0, 2, 0, 2⟩, ⟨0, 2147483646, 2, -2147483648⟩] : List Process),
        p.completionTime - p.startTime ≠ p.burstTime) ∧
    (FitsInt [mkProc 0 INT_MAX] ∧ ∀ fuel, sjf_schedule32 fuel [mkProc 0 INT_MAX] = none) :=
  ⟨⟨⟨by decide, by decide⟩, by decide, by decide, by decide, by decide⟩,
    ⟨by decide, sjfReturns32_of_eval _ _ 2 (by decide), by decide⟩,
    by decide,
    fun fuel => sjf32_never_returns _ (mkProc 0 INT_MAX) (List.mem_singleton.mpr rfl)
      (le_refl _) fuel⟩

/-! ## A 32-bit Round-Robin run that crosses `INT_MAX` -/

theorem rrSchedules32_of_eval (q : Int) (proc r : List Process) (fuel : Nat)
    (h : rr_schedule32 q fuel proc = some r) : RrSchedules32 q proc r := by
  refine ⟨fuel, fun f hf => ?_⟩
  obtain ⟨e, rfl⟩ := Nat.exists_eq_add_of_le hf
  unfold rr_schedule32 rr_final32 at h ⊢
  by_cases h0 : proc.length = 0
  · rw [if_pos h0] at h ⊢
    exact h
  · rw [if_neg h0] at h ⊢
    cases hs : rr_loop32 q fuel (rr_init proc) with
    | none => rw [hs] at h; cases h
    | some s =>
      rw [hs] at h
      rw [rr_loop32_mono q fuel _ s hs e]
      exact h

/-- An iteration before the two processes of the batch [(INT_MAX,1), (INT_MAX,1)] arrive
only advances the clock. -/
theorem rr32_late_idle_tick (t : Int) (h0 : 0 ≤ t) (h1 : t < 2147483647) (fuel : Nat) :
    rr_loop32 1 (fuel + 1)
        { rr_init [mkProc INT_MAX 1, mkProc INT_MAX 1] with current_time := t } =
      rr_loop32 1 fuel
        { rr_init [mkProc INT_MAX 1, mkProc INT_MAX 1] with current_time := t + 1 } := by
  have hne : (2147483647 : Int) ≠ t := by omega
  have htick : rr_tick 1
      { rr_init [mkProc INT_MAX 1, mkProc INT_MAX 1] with current_time := t } =
      { rr_init [mkProc INT_MAX 1, mkProc INT_MAX 1] with current_time := t } := by
    simp [rr_tick, rr_admission, rr_admission_step, rr_execute, rr_dispatch, rr_init, mkProc,
      procAt, List.range_succ, INT_MAX, hne]
  have hcond : ({ rr_init [mkProc INT_MAX 1, mkProc INT_MAX 1] with
      current_time := t } : RrState).completed_processes_count <
      ({ rr_init [mkProc INT_MAX 1, mkProc INT_MAX 1] with
        current_time := t } : RrState).proc.length := by
    simp [rr_init]
  conv_lhs => unfold rr_loop32
  rw [htick, if_pos hcond, if_pos hcond]
  have hw : wrap32 (t + 1) = t + 1 := wrap32_eq _ (by omega) (by omega)
  unfold rr_advance32
  dsimp only
  rw [hw]

theorem rr32_late_idle_run (k : Nat) (hk : (k : Int) ≤ 2147483647) (fuel : Nat) :
    rr_loop32 1 (fuel + k) (rr_init [mkProc INT_MAX 1, mkProc INT_MAX 1]) =
      rr_loop32 1 fuel
        { rr_init [mkProc INT_MAX 1, mkProc INT_MAX 1] with current_time := (k : Int) } := by
  induction k generalizing fuel with
  | zero => rfl
  | succ k ih =>
    have hk' : (k : Int) < 2147483647 := by push_cast at hk; omega
    have e : fuel + (k + 1) = (fuel + 1) + k := by omega
    rw [e, ih (by omega) (fuel + 1), rr32_late_idle_tick (k : Int) (by omega) hk' fuel]
    push_cast
    rfl

/-- The run of `rr_metrics` with quantum 1 on the batch [(INT_MAX,1), (INT_MAX,1)]: the
clock reaches INT_MAX, P0 is dispatched there, `current_time++` wraps to -2147483648,
where P0 completes and P1 is dispatched, and P1 completes at -2147483647. -/
theorem rr32_late_schedule :
    RrSchedules32 1 [mkProc INT_MAX 1, mkProc INT_MAX 1]
      [⟨2147483647, 1, 2147483647, -2147483648⟩,
        ⟨2147483647, 1, -2147483648, -2147483647⟩] := by
  have h3 : rr_loop32 1 3
      { rr_init [mkProc INT_MAX 1, mkProc INT_MAX 1] with current_time := 2147483647 } =
      some
        { proc := [⟨2147483647, 1, 2147483647, -2147483648⟩,
            ⟨2147483647, 1, -2147483648, -2147483647⟩]
          remaining_burst_time := [0, 0]
          actual_start_time := [2147483647, -2147483648]
          is_completed := [true, true]
          ready_queue := [0, 1]
          queue_front_idx := 0
          queue_rear_idx := 1
          processes_in_queue := 0
          current_time := -2147483647
          completed_processes_count := 2
          current_running_process_idx := none
          current_quantum_slice_used := 0 } := by decide
  refine ⟨3 + 2147483647, fun fuel hf => ?_⟩
  obtain ⟨e, rfl⟩ := Nat.exists_eq_add_of_le hf
  have e1 : 3 + 2147483647 + e = (3 + e) + 2147483647 := by omega
  unfold rr_schedule32 rr_final32
  rw [if_neg (by decide), e1, rr32_late_idle_run 2147483647 (by norm_num) (3 + e)]
  have hc : ((2147483647 : Nat) : Int) = 2147483647 := by norm_num
  rw [hc, rr_loop32_mono 1 3 _ _ h3 e]
  rfl

/-! ## Claims on Round Robin, for the program on 32-bit `int` -/

/-- C3 (amended): for every batch of n >= 1 processes with arrivalTime >= 0,
burstTime > 0 in which the sum of all burstTimes, and every arrivalTime plus that sum, is
at most `INT_MAX`, and every timeQuantum >= 1, `rr_metrics` returns and every process of
the resulting array satisfies completionTime >= startTime >= arrivalTime. -/
theorem c3_ordering_rr (proc : List Process) (timeQuantum : Int) (hn : 1 ≤ proc.length)
    (h : ∀ p ∈ proc, 0 ≤ p.arrivalTime ∧ 0 < p.burstTime) (hq : 1 ≤ timeQuantum)
    (hfit : FitsInt proc) :
    ∃ r, RrSchedules32 timeQuantum proc r ∧ r.length = proc.length ∧ ∀ p ∈ r, Ordered p := by
  obtain ⟨r, hr, hrest⟩ := rr_ordered proc timeQuantum hn h hq
  exact ⟨r, (rrSchedules32_iff proc r timeQuantum h hq hfit).mpr hr, hrest⟩

/-- C3, witness: the batch [(0,5), (1,3), (2,1)] with quantum 2 meets every hypothesis. -/
theorem c3_ordering_rr_witness :
    (1 ≤ [mkProc 0 5, mkProc 1 3, mkProc 2 1].length ∧
      (∀ p ∈ [mkProc 0 5, mkProc 1 3, mkProc 2 1], 0 ≤ p.arrivalTime ∧ 0 < p.burstTime) ∧
      (1 : Int) ≤ 2 ∧ FitsInt [mkProc 0 5, mkProc 1 3, mkProc 2 1]) ∧
    ∃ r, RrSchedules32 2 [mkProc 0 5, mkProc 1 3, mkProc 2 1] r ∧
      r.length = [mkProc 0 5, mkProc 1 3, mkProc 2 1].length ∧ ∀ p ∈ r, Ordered p :=
  ⟨⟨by decide, by decide, by decide, by decide⟩,
    c3_ordering_rr [mkProc 0 5, mkProc 1 3, mkProc 2 1] 2 (by decide) (by decide)
      (by decide) (by decide)⟩

/-- C3, counterexample: the batch [(INT_MAX,1), (INT_MAX,1)] has arrivalTime >= 0 and
burstTime > 0; with quantum 1 `rr_metrics` returns, P0 is dispatched at INT_MAX and
completes after `current_time++` has wrapped, so that its completionTime -2147483648 is
below its startTime 2147483647, and P1 has a startTime below its arrivalTime. -/
theorem c3_overflow_counterexample :
    (1 ≤ [mkProc INT_MAX 1, mkProc INT_MAX 1].length ∧
      (∀ p ∈ [mkProc INT_MAX 1, mkProc INT_MAX 1], 0 ≤ p.arrivalTime ∧ 0 < p.burstTime) ∧
      (1 : Int) ≤ 1) ∧
    RrSchedules32 1 [mkProc INT_MAX 1, mkProc INT_MAX 1]
      [⟨2147483647, 1, 2147483647, -2147483648⟩, ⟨2147483647, 1, -2147483648, -2147483647⟩] ∧
    (∃ p ∈ ([⟨2147483647, 1, 2147483647, -2147483648⟩, ⟨2147483647, 1, -2147483648, -2147483647⟩] : List Process),
      p.completionTime < p.startTime) ∧
    ∃ p ∈ ([⟨2147483647, 1, 2147483647, -2147483648⟩, ⟨2147483647, 1, -2147483648, -2147483647⟩] : List Process),
      p.startTime < p.arrivalTime :=
  ⟨⟨by decide, by decide, by decide⟩, rr32_late_schedule, by decide, by decide⟩

/-- C14 (amended): for every RR run (batch with arrivalTime >= 0, burstTime >= 1,
timeQuantum >= 1) in which the sum of all burstTimes, and every arrivalTime plus that sum,
is at most `INT_MAX`, `rr_metrics` returns and each process's completionTime - startTime
is at least its burstTime. -/
theorem c14_rr_span_at_least_burst (proc : List Process) (timeQuantum : Int)
    (h : ∀ p ∈ proc, 0 ≤ p.arrivalTime ∧ 1 ≤ p.burstTime) (hq : 1 ≤ timeQuantum)
    (hfit : FitsInt proc) :
    ∃ r, RrSchedules32 timeQuantum proc r ∧ r.length = proc.length ∧
      ∀ p ∈ r, p.burstTime ≤ p.completionTime - p.startTime := by
  obtain ⟨r, hr, hrest⟩ := rr_span_at_least_burst proc timeQuantum h hq
  exact ⟨r, (rrSchedules32_iff proc r timeQuantum
    (fun p hp => ⟨(h p hp).1, by have := (h p hp).2; omega⟩) hq hfit).mpr hr, hrest⟩

/-- C14, witness: the batch [(0,5), (1,3), (2,1)] with quantum 2 meets every hypothesis. -/
theorem c14_rr_span_at_least_burst_witness :
    ((∀ p ∈ [mkProc 0 5, mkProc 1 3, mkProc 2 1], 0 ≤ p.arrivalTime ∧ 1 ≤ p.burstTime) ∧
      (1 : Int) ≤ 2 ∧ FitsInt [mkProc 0 5, mkProc 1 3, mkProc 2 1]) ∧
    ∃ r, RrSchedules32 2 [mkProc 0 5, mkProc 1 3, mkProc 2 1] r ∧
      r.length = [mkProc 0 5, mkProc 1 3, mkProc 2 1].length ∧
      ∀ p ∈ r, p.burstTime ≤ p.completionTime - p.startTime :=
  ⟨⟨by decide, by decide, by decide⟩,
    c14_rr_span_at_least_burst [mkProc 0 5, mkProc 1 3, mkProc 2 1] 2 (by decide)
      (by decide) (by decide)⟩

/-- C14, counterexample: with quantum 2 on the batch [(0,5), (1,3), (2,1)], which has
arrivalTime >= 0 and burstTime >= 1 and is far from any overflow, the array that
`rr_metrics` leaves has P0 with startTime 0 and completionTime 9, although its burstTime
is 5: it was preempted twice.  And on the batch [(INT_MAX,1), (INT_MAX,1)] with quantum 1
the clock wraps between the dispatch and the completion of P0, whose
completionTime - startTime, the difference of the two stored values, is -4294967295,
below its burstTime 1. -/
theorem c14_rr_span_counterexample :
    (((∀ p ∈ [mkProc 0 5, mkProc 1 3, mkProc 2 1], 0 ≤ p.arrivalTime ∧ 1 ≤ p.burstTime) ∧
      (1 : Int) ≤ 2) ∧
    RrSchedules32 2 [mkProc 0 5, mkProc 1 3, mkProc 2 1]
      [⟨0, 5, 0, 9⟩, ⟨1, 3, 2, 8⟩, ⟨2, 1, 4, 5⟩] ∧
    (procAt [⟨0, 5, 0, 9⟩, ⟨1, 3, 2, 8⟩, ⟨2, 1, 4, 5⟩] 0).completionTime -
      (procAt [⟨0, 5, 0, 9⟩, ⟨1, 3, 2, 8⟩, ⟨2, 1, 4, 5⟩] 0).startTime = 9 ∧
    (procAt [⟨0, 5, 0, 9⟩, ⟨1, 3, 2, 8⟩, ⟨2, 1, 4, 5⟩] 0).burstTime = 5) ∧
    (((∀ p ∈ [mkProc INT_MAX 1, mkProc INT_MAX 1], 0 ≤ p.arrivalTime ∧ 1 ≤ p.burstTime) ∧
      (1 : Int) ≤ 1) ∧
    RrSchedules32 1 [mkProc INT_MAX 1, mkProc INT_MAX 1]
      [⟨2147483647, 1, 2147483647, -2147483648⟩, ⟨2147483647, 1, -2147483648, -2147483647⟩] ∧
    (procAt [⟨2147483647, 1, 2147483647, -2147483648⟩, ⟨2147483647, 1, -2147483648, -2147483647⟩] 0).completionTime -
      (procAt [⟨2147483647, 1, 2147483647, -2147483648⟩, ⟨2147483647, 1, -2147483648, -2147483647⟩] 0).startTime =
        -4294967295 ∧
    (procAt [⟨2147483647, 1, 2147483647, -2147483648⟩, ⟨2147483647, 1, -2147483648, -2147483647⟩] 0).burstTime = 1) :=
  ⟨⟨⟨by decide, by decide⟩, rrSchedules32_of_eval 2 _ _ 10 (by decide), by decide,
      by decide⟩,
    ⟨by decide, by decide⟩, rr32_late_schedule, by decide, by decide⟩

/-- C17 (amended): in `rr_metrics` first dispatch follows arrival order with ties broken
by ascending process index: for every batch with arrivalTime >= 0, burstTime >= 1 in
which the sum of all burstTimes, and every arrivalTime plus that sum, is at most
`INT_MAX`, and timeQuantum >= 1, `rr_metrics` returns, and for any two processes i, j, if
arrivalTime_i < arrivalTime_j, or arrivalTime_i = arrivalTime_j and i < j, then
startTime_i < startTime_j. -/
theorem c17_rr_first_dispatch_order (proc : List Process) (timeQuantum : Int)
    (h : ∀ p ∈ proc, 0 ≤ p.arrivalTime ∧ 1 ≤ p.burstTime) (hq : 1 ≤ timeQuantum)
    (hfit : FitsInt proc) :
    ∃ r, RrSchedules32 timeQuantum proc r ∧ r.length = proc.length ∧
      ∀ i j, i < proc.length → j < proc.length →
        ((procAt r i).arrivalTime < (procAt r j).arrivalTime ∨
          ((procAt r i).arrivalTime = (procAt r j).arrivalTime ∧ i < j)) →
        (procAt r i).startTime < (procAt r j).startTime := by
  obtain ⟨r, hr, hrest⟩ := rr_first_dispatch_order proc timeQuantum h hq
  exact ⟨r, (rrSchedules32_iff proc r timeQuantum
    (fun p hp => ⟨(h p hp).1, by have := (h p hp).2; omega⟩) hq hfit).mpr hr, hrest⟩

/-- C17, witness: the batch [(3,2), (3,2), (0,1)] with quantum 3 meets every hypothesis. -/
theorem c17_rr_first_dispatch_order_witness :
    ((∀ p ∈ [mkProc 3 2, mkProc 3 2, mkProc 0 1], 0 ≤ p.arrivalTime ∧ 1 ≤ p.burstTime) ∧
      (1 : Int) ≤ 3 ∧ FitsInt [mkProc 3 2, mkProc 3 2, mkProc 0 1]) ∧
    ∃ r, RrSchedules32 3 [mkProc 3 2, mkProc 3 2, mkProc 0 1] r ∧
      r.length = [mkProc 3 2, mkProc 3 2, mkProc 0 1].length ∧
      ∀ i j, i < [mkProc 3 2, mkProc 3 2, mkProc 0 1].length →
        j < [mkProc 3 2, mkProc 3 2, mkProc 0 1].length →
        ((procAt r i).arrivalTime < (procAt r j).arrivalTime ∨
          ((procAt r i).arrivalTime = (procAt r j).arrivalTime ∧ i < j)) →
        (procAt r i).startTime < (procAt r j).startTime :=
  ⟨⟨by decide, by decide, by decide⟩,
    c17_rr_first_dispatch_order [mkProc 3 2, mkProc 3 2, mkProc 0 1] 3 (by decide)
      (by decide) (by decide)⟩

/-- C17, counterexample: on the batch [(INT_MAX,1), (INT_MAX,1)], with arrivalTime >= 0
and burstTime >= 1, and quantum 1, `rr_metrics` returns; the two arrival times are equal
and 0 < 1, yet P0 has startTime 2147483647 and P1, dispatched after `current_time++` has
wrapped, has startTime -2147483648. -/
theorem c17_overflow_counterexample :
    ((∀ p ∈ [mkProc INT_MAX 1, mkProc INT_MAX 1], 0 ≤ p.arrivalTime ∧ 1 ≤ p.burstTime) ∧
      (1 : Int) ≤ 1) ∧
    RrSchedules32 1 [mkProc INT_MAX 1, mkProc INT_MAX 1]
      [⟨2147483647, 1, 2147483647, -2147483648⟩, ⟨2147483647, 1, -2147483648, -2147483647⟩] ∧
    (procAt [⟨2147483647, 1, 2147483647, -2147483648⟩, ⟨2147483647, 1, -2147483648, -2147483647⟩] 0).arrivalTime =
      (procAt [⟨2147483647, 1, 2147483647, -2147483648⟩, ⟨2147483647, 1, -2147483648, -2147483647⟩] 1).arrivalTime ∧
    (procAt [⟨2147483647, 1, 2147483647, -2147483648⟩, ⟨2147483647, 1, -2147483648, -2147483647⟩] 1).startTime <
      (procAt [⟨2147483647, 1, 2147483647, -2147483648⟩, ⟨2147483647, 1, -2147483648, -2147483647⟩] 0).startTime :=
  ⟨⟨by decide, by decide⟩, rr32_late_schedule, by decide, by decide⟩

/-! ## Termination of the 32-bit Round-Robin loop -/

theorem rr_run32_succ (q : Int) (k : Nat) (s : RrState) :
    rr_run32 q (k + 1) s =
      if (rr_run32 q k s).completed_processes_count < (rr_run32 q k s).proc.length ∧
          (rr_tick q (rr_run32 q k s)).completed_processes_count <
            (rr_tick q (rr_run32 q k s)).proc.length then
        rr_advance32 (rr_tick q (rr_run32 q k s))
      else rr_run32 q k s := by
  induction k generalizing s with
  | zero =>
    unfold rr_run32
    rfl
  | succ k ih =>
    conv_lhs => unfold rr_run32
    by_cases hc : s.completed_processes_count < s.proc.length ∧
        (rr_tick q s).completed_processes_count < (rr_tick q s).proc.length
    · rw [if_pos hc, ih]
      have e : rr_run32 q (k + 1) s = rr_run32 q k (rr_advance32 (rr_tick q s)) := by
        conv_lhs => unfold rr_run32
        rw [if_pos hc]
      rw [e]
    · rw [if_neg hc]
      have e : rr_run32 q (k + 1) s = s := by
        conv_lhs => unfold rr_run32
        rw [if_neg hc]
      rw [e, if_neg hc]

/-- The state in which the 32-bit loop ends is the end-of-tick state of one of the loop
heads that `rr_run32` enumerates. -/
theorem rr_loop32_run (q : Int) :
    ∀ (fuel : Nat) (s r : RrState), rr_loop32 q fuel s = some r →
      s.completed_processes_count < s.proc.length →
      ∃ k, k < fuel ∧ r = rr_tick q (rr_run32 q k s) := by
  intro fuel
  induction fuel with
  | zero =>
    intro s r h hcond
    unfold rr_loop32 at h
    rw [if_pos hcond] at h
    cases h
  | succ fuel ih =>
    intro s r h hcond
    unfold rr_loop32 at h
    rw [if_pos hcond] at h
    split_ifs at h with hc
    · obtain ⟨k, hk, hr⟩ := ih _ r h hc
      refine ⟨k + 1, by omega, ?_⟩
      rw [hr]
      conv_rhs => unfold rr_run32
      rw [if_pos ⟨hcond, hc⟩]
    · cases h
      exact ⟨0, by omega, rfl⟩

theorem rr_dispatch_done (s : RrState) : (rr_dispatch s).is_completed = s.is_completed := by
  unfold rr_dispatch
  dsimp only
  split_ifs <;> rfl

/-- Step 2 writes the completion stamp of a process exactly when it marks it completed,
and never touches the stamp of a process already completed. -/
theorem rr_execute_completion (q : Int) (s : RrState) (hQ : RrQInv s) (i : Nat) :
    (s.is_completed.getD i false = true →
      (rr_execute q s).is_completed.getD i false = true ∧
        (procAt (rr_execute q s).proc i).completionTime = (procAt s.proc i).completionTime) ∧
    (s.is_completed.getD i false = false →
      (rr_execute q s).is_completed.getD i false = true →
      (procAt (rr_execute q s).proc i).completionTime = s.current_time) := by
  unfold rr_execute
  cases hrun : s.current_running_process_idx with
  | none =>
    refine ⟨fun h => ⟨h, rfl⟩, fun h1 h2 => ?_⟩
    have h2' : s.is_completed.getD i false = true := h2
    rw [h1] at h2'
    cases h2'
  | some idx =>
    have hlive := hQ.run_live idx hrun
    have hlt := hQ.run_lt idx hrun
    have hltd : idx < s.is_completed.length := by rw [hQ.len_done]; exact hlt
    dsimp only
    split_ifs with h0 hq
    · constructor
      · intro h
        have hne : idx ≠ i := by
          rintro rfl
          rw [hlive] at h
          cases h
        constructor
        · show (s.is_completed.set idx true).getD i false = true
          rw [getD_set_of_lt _ _ _ _ _ hltd, if_neg hne]
          exact h
        · show (procAt (s.proc.set idx _) i).completionTime = _
          rw [procAt_set_of_lt _ _ _ _ hlt, if_neg hne]
      · intro h1 h2
        have h2' : (s.is_completed.set idx true).getD i false = true := h2
        rw [getD_set_of_lt _ _ _ _ _ hltd] at h2'
        by_cases hne : idx = i
        · show (procAt (s.proc.set idx _) i).completionTime = _
          rw [procAt_set_of_lt _ _ _ _ hlt, if_pos hne]
        · rw [if_neg hne, h1] at h2'
          cases h2'
    · refine ⟨fun h => ⟨h, rfl⟩, fun h1 h2 => ?_⟩
      have h2' : s.is_completed.getD i false = true := h2
      rw [h1] at h2'
      cases h2'
    · refine ⟨fun h => ⟨h, rfl⟩, fun h1 h2 => ?_⟩
      have h2' : s.is_completed.getD i false = true := h2
      rw [h1] at h2'
      cases h2'

theorem rr_tick_completion (q : Int) (s : RrState) (hQ : RrQInv s) (i : Nat) :
    (s.is_completed.getD i false = true →
      (rr_tick q s).is_completed.getD i false = true ∧
        (procAt (rr_tick q s).proc i).completionTime = (procAt s.proc i).completionTime) ∧
    (s.is_completed.getD i false = false →
      (rr_tick q s).is_completed.getD i false = true →
      (procAt (rr_tick q s).proc i).completionTime = s.current_time) := by
  obtain ⟨hQa, hF, -⟩ := rr_admission_spec s hQ
  have he := rr_execute_completion q (rr_admission s) hQa i
  rw [hF.is_completed, hF.proc, hF.current_time] at he
  unfold rr_tick
  rw [rr_dispatch_done, (rr_dispatch_time _).2]
  exact he

/-- Every completion flag set at the end of iteration `k` was set in step 2 of one of the
iterations up to `k`, and the completion stamp is the clock of that iteration. -/
theorem rr32_completion_written (q : Int) (init : RrState)
    (hQ : ∀ k, RrQInv (rr_run32 q k init)) :
    ∀ (k i : Nat), init.is_completed.getD i false = false →
      (rr_tick q (rr_run32 q k init)).is_completed.getD i false = true →
      ∃ j, j ≤ k ∧ (rr_run32 q j init).is_completed.getD i false = false ∧
        (rr_tick q (rr_run32 q j init)).is_completed.getD i false = true ∧
        (procAt (rr_tick q (rr_run32 q k init)).proc i).completionTime =
          (rr_run32 q j init).current_time := by
  intro k
  induction k with
  | zero =>
    intro i h0 h1
    have h0' : (rr_run32 q 0 init).is_completed.getD i false = false := h0
    exact ⟨0, le_refl _, h0', h1, (rr_tick_completion q _ (hQ 0) i).2 h0' h1⟩
  | succ k ih =>
    intro i h0 h1
    have hW := rr_run32_succ q k init
    by_cases hc : (rr_run32 q k init).completed_processes_count <
        (rr_run32 q k init).proc.length ∧
        (rr_tick q (rr_run32 q k init)).completed_processes_count <
          (rr_tick q (rr_run32 q k init)).proc.length
    · rw [if_pos hc] at hW
      cases hf : (rr_run32 q (k + 1) init).is_completed.getD i false with
      | false =>
        exact ⟨k + 1, le_refl _, hf, h1, (rr_tick_completion q _ (hQ (k + 1)) i).2 hf h1⟩
      | true =>
        have hprev : (rr_tick q (rr_run32 q k init)).is_completed.getD i false = true := by
          rw [hW] at hf
          exact hf
        obtain ⟨j, hj, a, b, c⟩ := ih i h0 hprev
        refine ⟨j, by omega, a, b, ?_⟩
        rw [((rr_tick_completion q _ (hQ (k + 1)) i).1 hf).2, hW]
        exact c
    · rw [if_neg hc] at hW
      rw [hW] at h1 ⊢
      obtain ⟨j, hj, a, b, c⟩ := ih i h0 h1
      exact ⟨j, by omega, a, b, c⟩

theorem rr_run32_qinv (proc : List Process) (q : Int) (hn : 1 ≤ proc.length)
    (h : ∀ p ∈ proc, 0 ≤ p.arrivalTime ∧ p.arrivalTime ≤ INT_MAX ∧ 0 < p.burstTime)
    (hq : 1 ≤ q) (k : Nat) : RrQInv (rr_run32 q k (rr_init proc)) := by
  have hI := rr_init_inv proc q hn (fun p hp => ⟨(h p hp).1, (h p hp).2.2⟩) hq
  exact rrQInv_of_sameControl _ _
    (rr_run_sameControl proc q (fun i hi => (h _ (procAt_mem proc i hi)).2.1) k _ _ hI
      (rr_init_sameControl proc))
    (rr_run_inv proc q k _ hI).core.q

/-- C7: for every batch of n >= 1 processes with arrivalTime >= 0 (and at most `INT_MAX`,
as every value of type `int` is) and burstTime >= 1 and every timeQuantum >= 1, the tick
loop of `rr_metrics`, run with a 32-bit clock, terminates, and in the state it ends in
`completed_processes_count` is n and every process is marked completed, its remaining
burst is exactly 0 and its completionTime has been written: it is the value of
`current_time` in the iteration whose step 2 marked the process completed. -/
theorem c7_rr_terminates (proc : List Process) (timeQuantum : Int) (hn : 1 ≤ proc.length)
    (h : ∀ p ∈ proc, 0 ≤ p.arrivalTime ∧ p.arrivalTime ≤ INT_MAX ∧ 1 ≤ p.burstTime)
    (hq : 1 ≤ timeQuantum) :
    ∃ r, RrReturns32 timeQuantum proc r ∧ r.proc.length = proc.length ∧
      r.completed_processes_count = proc.length ∧
      ∀ i, i < proc.length →
        r.is_completed.getD i false = true ∧ r.remaining_burst_time.getD i 0 = 0 ∧
        ∃ k, (rr_run32 timeQuantum k (rr_init proc)).is_completed.getD i false = false ∧
          (rr_tick timeQuantum
            (rr_run32 timeQuantum k (rr_init proc))).is_completed.getD i false = true ∧
          (procAt r.proc i).completionTime =
            (rr_run32 timeQuantum k (rr_init proc)).current_time := by
  have h' : ∀ p ∈ proc, 0 ≤ p.arrivalTime ∧ 0 < p.burstTime :=
    fun p hp => ⟨(h p hp).1, by have := (h p hp).2.2; omega⟩
  have h'' : ∀ p ∈ proc, 0 ≤ p.arrivalTime ∧ p.arrivalTime ≤ INT_MAX ∧ 0 < p.burstTime :=
    fun p hp => ⟨(h p hp).1, (h p hp).2.1, (h' p hp).2⟩
  obtain ⟨r, ⟨N, hN⟩, hI, hc⟩ := rr_total proc timeQuantum hn h' hq
  have hI0 := rr_init_inv proc timeQuantum hn h' hq
  obtain ⟨w, hw, hS⟩ := rr_loop_sameControl proc timeQuantum
    (fun i hi => (h _ (procAt_mem proc i hi)).2.1) N (rr_init proc) (rr_init proc) r hI0
    (rr_init_sameControl proc) (hN N (le_refl _))
  have hlen : r.proc.length = proc.length := hI.core.len_proc
  have hcond : (rr_init proc).completed_processes_count < (rr_init proc).proc.length := by
    rw [hI0.core.len_proc]
    exact hn
  obtain ⟨K, -, hK⟩ := rr_loop32_run timeQuantum N (rr_init proc) w hw hcond
  refine ⟨w, rrReturns32_of_eval timeQuantum proc w N hw, by rw [hS.len, hlen],
    by rw [hS.cc, hc, hlen], ?_⟩
  intro i hi
  obtain ⟨f1, f2, -, -⟩ := rr_final_state proc timeQuantum r hI hc i (by rw [hlen]; exact hi)
  have hf : w.is_completed.getD i false = true := by rw [hS.done]; exact f1
  refine ⟨hf, by rw [hS.rem]; exact f2, ?_⟩
  rw [hK] at hf
  obtain ⟨j, -, a, b, c⟩ := rr32_completion_written timeQuantum (rr_init proc)
    (rr_run32_qinv proc timeQuantum hn h'' hq) K i (getD_map_false proc i) hf
  exact ⟨j, a, b, by rw [hK]; exact c⟩

/-- C7, witness: the batch [(3,2), (3,2), (0,1)] with quantum 3 meets every hypothesis. -/
theorem c7_rr_terminates_witness :
    (1 ≤ [mkProc 3 2, mkProc 3 2, mkProc 0 1].length ∧
      (∀ p ∈ [mkProc 3 2, mkProc 3 2, mkProc 0 1],
        0 ≤ p.arrivalTime ∧ p.arrivalTime ≤ INT_MAX ∧ 1 ≤ p.burstTime) ∧
      (1 : Int) ≤ 3) ∧
    ∃ r, RrReturns32 3 [mkProc 3 2, mkProc 3 2, mkProc 0 1] r ∧
      r.proc.length = [mkProc 3 2, mkProc 3 2, mkProc 0 1].length ∧
      r.completed_processes_count = [mkProc 3 2, mkProc 3 2, mkProc 0 1].length ∧
      ∀ i, i < [mkProc 3 2, mkProc 3 2, mkProc 0 1].length →
        r.is_completed.getD i false = true ∧ r.remaining_burst_time.getD i 0 = 0 ∧
        ∃ k, (rr_run32 3 k
              (rr_init [mkProc 3 2, mkProc 3 2, mkProc 0 1])).is_completed.getD i false =
            false ∧
          (rr_tick 3 (rr_run32 3 k
            (rr_init [mkProc 3 2, mkProc 3 2, mkProc 0 1]))).is_completed.getD i false =
            true ∧
          (procAt r.proc i).completionTime =
            (rr_run32 3 k (rr_init [mkProc 3 2, mkProc 3 2, mkProc 0 1])).current_time :=
  ⟨⟨by decide, by decide, by decide⟩,
    c7_rr_terminates [mkProc 3 2, mkProc 3 2, mkProc 0 1] 3 (by decide) (by decide)
      (by decide)⟩

/-! ## The admission guard on a 32-bit clock -/

theorem rr_cond_of_remaining (orig : List Process) (q : Int) (s : RrState)
    (hC : RrCore orig q s) (hpos : 0 < s.remaining_burst_time.sum) :
    s.completed_processes_count < s.proc.length := by
  by_contra hcon
  have hle := rr_completed_le orig q s hC
  have heq : s.completed_processes_count = s.proc.length := by omega
  have hz : s.remaining_burst_time.sum = 0 := by
    apply sum_eq_zero_of_getD
    intro i hi
    rw [hC.q.len_rem] at hi
    apply hC.rem_zero i hi
    apply all_true_of_count
    · rw [← hC.q.count_eq, heq, hC.q.len_done]
    · rw [hC.q.len_done]; exact hi
  omega

/-- While more than `k + 1` units of burst are left, the loop in the integers goes through
`k` further iterations: the clock advances by `k` and at most `k` units are served. -/
theorem rr_run_clock (orig : List Process) (q : Int) :
    ∀ (k : Nat) (s : RrState), RrInv orig q s →
      (k : Int) + 1 < s.remaining_burst_time.sum →
      (rr_run q k s).current_time = s.current_time + k ∧
        s.remaining_burst_time.sum - k ≤ (rr_run q k s).remaining_burst_time.sum ∧
        RrInv orig q (rr_run q k s) := by
  intro k
  induction k with
  | zero =>
    intro s hI _
    refine ⟨?_, ?_, hI⟩
    · show s.current_time = s.current_time + ((0 : Nat) : Int)
      simp
    · show s.remaining_burst_time.sum - ((0 : Nat) : Int) ≤ s.remaining_burst_time.sum
      simp
  | succ k ih =>
    intro s hI hk
    push_cast at hk
    obtain ⟨hI', ht, hsum⟩ := rr_tick_inv orig q s hI
    have hsum' : s.remaining_burst_time.sum - 1 ≤ (rr_tick q s).remaining_burst_time.sum := by
      rw [hsum]
      split_ifs <;> omega
    have hcond := rr_cond_of_remaining orig q s hI.core (by omega)
    have hc : (rr_tick q s).completed_processes_count < (rr_tick q s).proc.length :=
      rr_cond_of_remaining orig q (rr_advance (rr_tick q s)) hI'.core (by
        show 0 < (rr_tick q s).remaining_burst_time.sum
        omega)
    have e : rr_run q (k + 1) s = rr_run q k (rr_advance (rr_tick q s)) := by
      conv_lhs => unfold rr_run
      rw [if_pos ⟨hcond, hc⟩]
    obtain ⟨a, b, c⟩ := ih (rr_advance (rr_tick q s)) hI' (by
      show (k : Int) + 1 < (rr_tick q s).remaining_burst_time.sum
      omega)
    have a' : (rr_run q k (rr_advance (rr_tick q s))).current_time =
        (rr_tick q s).current_time + 1 + k := a
    have b' : (rr_tick q s).remaining_burst_time.sum - k ≤
        (rr_run q k (rr_advance (rr_tick q s))).remaining_burst_time.sum := b
    rw [e]
    refine ⟨?_, ?_, c⟩
    · rw [a', ht]
      push_cast
      omega
    · push_cast
      omega

/-- C18 (amended): on every batch with arrivalTime >= 0 and burstTime >= 1 in which the
sum of all burstTimes, and every arrivalTime plus that sum, is at most `INT_MAX`, and for
every timeQuantum >= 1, each call of `isProcessActiveOrInQueue` made in the admission
step of `rr_metrics` returns false, and `rr_metrics` with the guard removed (always
enqueue an uncompleted process whose arrivalTime equals the current time) leaves the same
array, hence the same start and completion times, and returns the same Metrics, for
every bound on the number of loop iterations. -/
theorem c18_rr_guard_never_fires (proc : List Process) (timeQuantum : Int)
    (h : ∀ p ∈ proc, 0 ≤ p.arrivalTime ∧ 1 ≤ p.burstTime) (hq : 1 ≤ timeQuantum)
    (hfit : FitsInt proc) :
    (∀ k i, i < proc.length →
      (rr_admission_upto (rr_run32 timeQuantum k (rr_init proc)) i).is_completed.getD i false
          = false ∧
        (procAt (rr_admission_upto (rr_run32 timeQuantum k (rr_init proc)) i).proc
          i).arrivalTime =
          (rr_admission_upto (rr_run32 timeQuantum k (rr_init proc)) i).current_time →
      isProcessActiveOrInQueue i
        (rr_admission_upto (rr_run32 timeQuantum k (rr_init proc)) i).ready_queue
        (rr_admission_upto (rr_run32 timeQuantum k (rr_init proc)) i).processes_in_queue
        (rr_admission_upto (rr_run32 timeQuantum k (rr_init proc)) i).queue_front_idx
        (rr_admission_upto (rr_run32 timeQuantum k (rr_init proc)) i).proc.length
        (rr_admission_upto (rr_run32 timeQuantum k (rr_init proc))
          i).current_running_process_idx = false) ∧
    ∀ fuel,
      rr_schedule_unguarded32 timeQuantum fuel proc = rr_schedule32 timeQuantum fuel proc ∧
      rr_metrics_unguarded32 timeQuantum fuel proc = rr_metrics32 timeQuantum fuel proc := by
  rcases Nat.eq_zero_or_pos proc.length with h0 | hpos
  · refine ⟨fun k i hi => by omega, fun fuel => ?_⟩
    unfold rr_schedule_unguarded32 rr_schedule32 rr_metrics_unguarded32 rr_metrics32
    rw [if_pos h0, if_pos h0, if_pos h0, if_pos h0]
    exact ⟨rfl, rfl⟩
  · have h' : ∀ p ∈ proc, 0 ≤ p.arrivalTime ∧ 0 < p.burstTime :=
      fun p hp => ⟨(h p hp).1, by have := (h p hp).2; omega⟩
    have hI0 := rr_init_inv proc timeQuantum hpos h' hq
    have hF0 := rr_init_fits proc hfit.1
    have harr : ∀ i, i < proc.length →
        (procAt proc i).arrivalTime + totalBurst proc ≤ INT_MAX :=
      fun i hi => hfit.2 _ (procAt_mem proc i hi)
    constructor
    · intro k i hi
      rw [rr_run32_eq proc timeQuantum harr k (rr_init proc) hI0 hF0]
      exact (rr_guard_never_fires_exact proc timeQuantum).1 k i hi
    · intro fuel
      have hne : ¬ proc.length = 0 := by omega
      unfold rr_schedule_unguarded32 rr_schedule32 rr_metrics_unguarded32 rr_metrics32
        rr_final32
      rw [if_neg hne, if_neg hne, if_neg hne, if_neg hne,
        rr_loop_unguarded32_eq proc timeQuantum harr fuel (rr_init proc) hI0 hF0]
      exact ⟨rfl, rfl⟩

/-- C18, witness: the batch [(0,5), (1,3), (2,1)] with quantum 2 meets every hypothesis;
the unguarded loop leaves the same array. -/
theorem c18_rr_guard_never_fires_witness :
    ((∀ p ∈ [mkProc 0 5, mkProc 1 3, mkProc 2 1], 0 ≤ p.arrivalTime ∧ 1 ≤ p.burstTime) ∧
      (1 : Int) ≤ 2 ∧ FitsInt [mkProc 0 5, mkProc 1 3, mkProc 2 1]) ∧
    ∀ fuel,
      rr_schedule_unguarded32 2 fuel [mkProc 0 5, mkProc 1 3, mkProc 2 1] =
        rr_schedule32 2 fuel [mkProc 0 5, mkProc 1 3, mkProc 2 1] ∧
      rr_metrics_unguarded32 2 fuel [mkProc 0 5, mkProc 1 3, mkProc 2 1] =
        rr_metrics32 2 fuel [mkProc 0 5, mkProc 1 3, mkProc 2 1] :=
  ⟨⟨by decide, by decide, by decide⟩,
    (c18_rr_guard_never_fires [mkProc 0 5, mkProc 1 3, mkProc 2 1] 2 (by decide)
      (by decide) (by decide)).2⟩

/-- C18, counterexample: on the batch of three processes (arrival 0, burst INT_MAX) with
quantum 1 the loop is still running at the head of iteration 2^32, where the 32-bit clock
is back at 0; one of the processes is not completed there, so the admission step reaches
the call of `isProcessActiveOrInQueue` for it, and the call returns true, the process
being queued or running. -/
theorem c18_guard_fires_counterexample :
    (rr_run32 1 4294967296
        (rr_init [mkProc 0 INT_MAX, mkProc 0 INT_MAX, mkProc 0 INT_MAX])).current_time = 0 ∧
    (rr_run32 1 4294967296
        (rr_init [mkProc 0 INT_MAX, mkProc 0 INT_MAX, mkProc 0 INT_MAX])).completed_processes_count
      < 3 ∧
    ∃ i, i < [mkProc 0 INT_MAX, mkProc 0 INT_MAX, mkProc 0 INT_MAX].length ∧
      ((rr_admission_upto (rr_run32 1 4294967296
          (rr_init [mkProc 0 INT_MAX, mkProc 0 INT_MAX, mkProc 0 INT_MAX]))
          i).is_completed.getD i false = false ∧
        (procAt (rr_admission_upto (rr_run32 1 4294967296
          (rr_init [mkProc 0 INT_MAX, mkProc 0 INT_MAX, mkProc 0 INT_MAX])) i).proc
          i).arrivalTime =
          (rr_admission_upto (rr_run32 1 4294967296
            (rr_init [mkProc 0 INT_MAX, mkProc 0 INT_MAX, mkProc 0 INT_MAX]))
            i).current_time) ∧
      isProcessActiveOrInQueue i
        (rr_admission_upto (rr_run32 1 4294967296
          (rr_init [mkProc 0 INT_MAX, mkProc 0 INT_MAX, mkProc 0 INT_MAX])) i).ready_queue
        (rr_admission_upto (rr_run32 1 4294967296
          (rr_init [mkProc 0 INT_MAX, mkProc 0 INT_MAX, mkProc 0 INT_MAX]))
          i).processes_in_queue
        (rr_admission_upto (rr_run32 1 4294967296
          (rr_init [mkProc 0 INT_MAX, mkProc 0 INT_MAX, mkProc 0 INT_MAX]))
          i).queue_front_idx
        (rr_admission_upto (rr_run32 1 4294967296
          (rr_init [mkProc 0 INT_MAX, mkProc 0 INT_MAX, mkProc 0 INT_MAX])) i).proc.length
        (rr_admission_upto (rr_run32 1 4294967296
          (rr_init [mkProc 0 INT_MAX, mkProc 0 INT_MAX, mkProc 0 INT_MAX]))
          i).current_running_process_idx = true := by
  have hI0 : RrInv [mkProc 0 INT_MAX, mkProc 0 INT_MAX, mkProc 0 INT_MAX] 1
      (rr_init [mkProc 0 INT_MAX, mkProc 0 INT_MAX, mkProc 0 INT_MAX]) :=
    rr_init_inv _ 1 (by decide) (by decide) (by decide)
  have hrange : ∀ i, i < [mkProc 0 INT_MAX, mkProc 0 INT_MAX, mkProc 0 INT_MAX].length →
      (procAt [mkProc 0 INT_MAX, mkProc 0 INT_MAX, mkProc 0 INT_MAX] i).arrivalTime ≤
        INT_MAX := by decide
  have harr0 : ∀ i, i < [mkProc 0 INT_MAX, mkProc 0 INT_MAX, mkProc 0 INT_MAX].length →
      (procAt [mkProc 0 INT_MAX, mkProc 0 INT_MAX, mkProc 0 INT_MAX] i).arrivalTime = 0 := by
    decide
  have hsum0 : (rr_init [mkProc 0 INT_MAX, mkProc 0 INT_MAX,
      mkProc 0 INT_MAX]).remaining_burst_time.sum = 6442450941 := by decide
  obtain ⟨ht, hrem, hI⟩ := rr_run_clock _ 1 4294967296 _ hI0 (by rw [hsum0]; norm_num)
  have hS := rr_run_sameControl _ 1 hrange 4294967296 _ _ hI0
    (rr_init_sameControl [mkProc 0 INT_MAX, mkProc 0 INT_MAX, mkProc 0 INT_MAX])
  have ht' : (rr_run 1 4294967296
      (rr_init [mkProc 0 INT_MAX, mkProc 0 INT_MAX, mkProc 0 INT_MAX])).current_time =
      4294967296 := by
    rw [ht]
    show (0 : Int) + ((4294967296 : Nat) : Int) = 4294967296
    norm_num
  have hw : (rr_run32 1 4294967296
      (rr_init [mkProc 0 INT_MAX, mkProc 0 INT_MAX, mkProc 0 INT_MAX])).current_time = 0 := by
    rw [hS.time, ht']
    unfold wrap32
    norm_num
  rw [hsum0] at hrem
  have hrem' : 0 < (rr_run 1 4294967296 (rr_init [mkProc 0 INT_MAX, mkProc 0 INT_MAX,
      mkProc 0 INT_MAX])).remaining_burst_time.sum := by
    have : (6442450941 : Int) - ((4294967296 : Nat) : Int) = 2147483645 := by norm_num
    rw [this] at hrem
    omega
  have hcond := rr_cond_of_remaining _ 1 _ hI.core hrem'
  have hlen := hI.core.len_proc
  obtain ⟨i, hi, hif⟩ := exists_unflagged _ (by
    rw [← hI.core.q.count_eq, hI.core.q.len_done]; exact hcond)
  rw [hI.core.q.len_done, hlen] at hi
  have hlate : INT_MAX < (rr_run 1 4294967296 (rr_init [mkProc 0 INT_MAX, mkProc 0 INT_MAX,
      mkProc 0 INT_MAX])).current_time := by
    rw [ht']
    decide
  have hnoop : rr_admission_upto (rr_run32 1 4294967296
      (rr_init [mkProc 0 INT_MAX, mkProc 0 INT_MAX, mkProc 0 INT_MAX])) i =
      rr_run32 1 4294967296
        (rr_init [mkProc 0 INT_MAX, mkProc 0 INT_MAX, mkProc 0 INT_MAX]) := by
    apply rr_admission_upto_noop
    intro j hj hc
    exact rr_guard_late _ 1 _ _ hI hS hrange hlate j (by rw [hS.len, hlen]; omega) hc.1
  have hcc : (rr_run32 1 4294967296 (rr_init [mkProc 0 INT_MAX, mkProc 0 INT_MAX,
      mkProc 0 INT_MAX])).completed_processes_count < 3 := by
    rw [hS.cc]
    have : (rr_run 1 4294967296 (rr_init [mkProc 0 INT_MAX, mkProc 0 INT_MAX,
        mkProc 0 INT_MAX])).proc.length = 3 := hlen
    omega
  have hlive : (rr_run32 1 4294967296 (rr_init [mkProc 0 INT_MAX, mkProc 0 INT_MAX,
      mkProc 0 INT_MAX])).is_completed.getD i false = false := by
    rw [hS.done]
    exact hif
  refine ⟨hw, hcc, i, hi, ?_, ?_⟩
  · rw [hnoop]
    refine ⟨hlive, ?_⟩
    rw [hw, hS.arrival, hI.core.arrival_eq]
    exact harr0 i hi
  · rw [hnoop]
    exact rr_guard_late _ 1 _ _ hI hS hrange hlate i (by rw [hS.len, hlen]; exact hi) hlive

/-! ## The empty batch -/

/-- C15: for n = 0, `rr_metrics` returns the Metrics value with avgTurnaround = 0,
avgWaiting = 0 and avgResponse = 0 for every timeQuantum, whatever the bound on the loop
iterations, zero included, and leaves the array as it is.  The value is the literal of
the early return and not a result of `calculate_metrics`: called with n = 0,
`calculate_metrics` divides 0 by 0 and returns three NaN, which is what `fcfs_metrics`
returns for n = 0. -/
theorem c15_rr_empty_batch (timeQuantum : Int) (fuel : Nat) :
    rr_metrics32 timeQuantum fuel [] =
        some { avgTurnaround := some 0, avgWaiting := some 0, avgResponse := some 0 } ∧
      rr_schedule32 timeQuantum fuel [] = some [] ∧
      calculate_metrics32 [] =
        { avgTurnaround := none, avgWaiting := none, avgResponse := none } ∧
      rr_metrics32 timeQuantum fuel [] ≠ some (calculate_metrics32 []) ∧
      fcfs_metrics32 [] = calculate_metrics32 [] := by
  refine ⟨rfl, rfl, rfl, ?_, rfl⟩
  intro hh
  have h1 : rr_metrics32 timeQuantum fuel [] =
      some { avgTurnaround := some 0, avgWaiting := some 0, avgResponse := some 0 } := rfl
  have h2 : calculate_metrics32 [] =
      { avgTurnaround := none, avgWaiting := none, avgResponse := none } := rfl
  rw [h1, h2] at hh
  have := congrArg (fun m => m.map Metrics32.avgTurnaround) hh
  simp at this

/-! ## The pre-sort of `sjf_metrics` on 32-bit `int` -/

theorem wrapped_differences_eq (p : Process) (h1 : 0 ≤ p.arrivalTime)
    (h2 : p.arrivalTime ≤ p.startTime)
    (h3 : p.completionTime = p.startTime + p.burstTime) (h4 : 0 ≤ p.burstTime)
    (h5 : p.completionTime ≤ INT_MAX) :
    turnaround32 p = p.completionTime - p.arrivalTime ∧
      waiting32 p = p.completionTime - p.arrivalTime - p.burstTime ∧
      response32 p = p.startTime - p.arrivalTime := by
  unfold INT_MAX at h5
  have e1 : turnaround32 p = p.completionTime - p.arrivalTime := by
    unfold turnaround32
    exact wrap32_eq _ (by omega) (by omega)
  refine ⟨e1, ?_, ?_⟩
  · unfold waiting32
    rw [e1]
    exact wrap32_eq _ (by omega) (by omega)
  · unfold response32
    exact wrap32_eq _ (by omega) (by omega)

theorem totals32_eq (l : List Process)
    (h : ∀ p ∈ l, 0 ≤ p.arrivalTime ∧ p.arrivalTime ≤ p.startTime ∧
      p.completionTime = p.startTime + p.burstTime ∧ 0 ≤ p.burstTime ∧
      p.completionTime ≤ INT_MAX) :
    total_turnaround32 l = total_turnaround l ∧ total_waiting32 l = total_waiting l ∧
      total_response32 l = total_response l := by
  unfold total_turnaround32 total_turnaround total_waiting32 total_waiting total_response32
    total_response
  refine ⟨?_, ?_, ?_⟩
  · congr 1
    apply List.map_congr_left
    intro p hp
    obtain ⟨a, b, c, d, e⟩ := h p hp
    exact (wrapped_differences_eq p a b c d e).1
  · congr 1
    apply List.map_congr_left
    intro p hp
    obtain ⟨a, b, c, d, e⟩ := h p hp
    exact (wrapped_differences_eq p a b c d e).2.1
  · congr 1
    apply List.map_congr_left
    intro p hp
    obtain ⟨a, b, c, d, e⟩ := h p hp
    exact (wrapped_differences_eq p a b c d e).2.2

/-- On an array that fits the range the 32-bit SJF loop ends where the loop in the
integers ends, and on the final array the 32-bit totals of `calculate_metrics` are the
totals in the integers. -/
theorem sjf32_final (orig : List Process)
    (h : ∀ p ∈ orig, 0 ≤ p.arrivalTime ∧ 0 < p.burstTime ∧ p.burstTime < INT_MAX)
    (hfit : FitsInt orig) :
    ∃ (N : Nat) (r : SjfState),
      (∀ fuel, N ≤ fuel → sjf_loop32 fuel (sjf_init orig) = some r ∧
        sjf_loop fuel (sjf_init orig) = some r) ∧
      total_turnaround32 r.proc = total_turnaround r.proc ∧
      total_waiting32 r.proc = total_waiting r.proc ∧
      total_response32 r.proc = total_response r.proc := by
  have hb : ∀ p ∈ orig, 0 < p.burstTime ∧ p.burstTime < INT_MAX := fun p hp => (h p hp).2
  obtain ⟨N, r, hr, hI, hc⟩ := sjf_total orig hb
  have hF := (sjf_loop32_init_eq orig hb hfit N).2 r (hr N (le_refl _))
  refine ⟨N, r, fun fuel hf => ⟨?_, hr fuel hf⟩, ?_⟩
  · rw [(sjf_loop32_init_eq orig hb hfit fuel).1]
    exact hr fuel hf
  · apply totals32_eq
    intro p hp
    obtain ⟨i, hi, rfl⟩ := mem_procAt _ p hp
    rw [hI.len_proc] at hi
    have hflag := sjf_final_flags orig r hI hc i hi
    obtain ⟨s1, s2, s3⟩ := hI.slot i hflag
    have ho := h _ (procAt_mem orig i hi)
    have hpos := sjf_proc_burst_pos orig r hI (fun j hj => (hb _ (procAt_mem orig j hj)).1)
    have hpd : 0 ≤ sjfPendingBurst r :=
      sjfPending_snd_nonneg _ _ _ (fun p hp => le_of_lt (hpos p hp))
    have hbd := hF.bound
    refine ⟨?_, s1, s2, ?_, by omega⟩
    · rw [hI.arrival_eq]
      exact ho.1
    · rw [hI.burst_eq]
      exact le_of_lt ho.2.1

theorem calculate_metrics32_congr (a b : List Process) (hlen : a.length = b.length)
    (h1 : total_turnaround32 a = total_turnaround32 b)
    (h2 : total_waiting32 a = total_waiting32 b)
    (h3 : total_response32 a = total_response32 b) :
    calculate_metrics32 a = calculate_metrics32 b := by
  unfold calculate_metrics32
  rw [hlen, h1, h2, h3]

/-- C19 (amended): for every batch with arrivalTime >= 0 and 0 < burstTime < INT_MAX in
which the sum of all burstTimes, and every arrivalTime plus that sum, is at most
`INT_MAX`, the SJF selection loop run directly on the unsorted batch and the loop run on
the arrival-sorted batch both end, with arrays of the same length that yield the same
total turnaround, total waiting and total response, hence the same Metrics, taken as
exact rationals. -/
theorem c19_sjf_presort_keeps_totals (proc : List Process)
    (h : ∀ p ∈ proc, 0 ≤ p.arrivalTime ∧ 0 < p.burstTime ∧ p.burstTime < INT_MAX)
    (hfit : FitsInt proc) :
    ∃ u r, SjfUnsortedReturns32 proc u ∧ SjfReturns32 proc r ∧ u.length = r.length ∧
      total_turnaround32 u = total_turnaround32 r ∧
      total_waiting32 u = total_waiting32 r ∧
      total_response32 u = total_response32 r ∧
      calculate_metrics32 u = calculate_metrics32 r ∧
      ∃ N, ∀ fuel, N ≤ fuel →
        sjf_metrics_unsorted32 fuel proc = some (calculate_metrics32 r) ∧
        sjf_metrics32 fuel proc = some (calculate_metrics32 r) := by
  obtain ⟨N₁, u, hu, tu, wu, ru⟩ := sjf32_final proc h hfit
  obtain ⟨N₂, r, hr, tr, wr, rr⟩ := sjf32_final (sortByArrival proc)
    (fun p hp => h p ((sortByArrival_mem proc p).mp hp)) (fitsInt_sort proc hfit)
  have hsame := ((sjf_presort_keeps_totals proc (fun p hp => (h p hp).2.1)).1
    (max N₁ N₂)).1
  unfold sjf_schedule_unsorted sjf_schedule at hsame
  rw [(hu _ (le_max_left _ _)).2, (hr _ (le_max_right _ _)).2] at hsame
  obtain ⟨hl, ht, hw, hrs⟩ : u.proc.length = r.proc.length ∧
      total_turnaround u.proc = total_turnaround r.proc ∧
      total_waiting u.proc = total_waiting r.proc ∧
      total_response u.proc = total_response r.proc := hsame
  have et : total_turnaround32 u.proc = total_turnaround32 r.proc := by rw [tu, tr, ht]
  have ew : total_waiting32 u.proc = total_waiting32 r.proc := by rw [wu, wr, hw]
  have er : total_response32 u.proc = total_response32 r.proc := by rw [ru, rr, hrs]
  have em := calculate_metrics32_congr u.proc r.proc hl et ew er
  refine ⟨u.proc, r.proc, ⟨N₁, fun fuel hf => ?_⟩, ⟨N₂, fun fuel hf => ?_⟩, hl, et, ew, er,
    em, max N₁ N₂, fun fuel hf => ⟨?_, ?_⟩⟩
  · unfold sjf_schedule_unsorted32
    rw [(hu fuel hf).1]
    rfl
  · unfold sjf_schedule32
    rw [(hr fuel hf).1]
    rfl
  · unfold sjf_metrics_unsorted32 sjf_schedule_unsorted32
    rw [(hu fuel (le_trans (le_max_left _ _) hf)).1]
    show some (calculate_metrics32 u.proc) = some (calculate_metrics32 r.proc)
    rw [em]
  · unfold sjf_metrics32 sjf_schedule32
    rw [(hr fuel (le_trans (le_max_right _ _) hf)).1]
    rfl

/-- C19, witness: the batch [(5,2), (0,4), (0,1)], not in arrival order, meets the
hypotheses. -/
theorem c19_sjf_presort_keeps_totals_witness :
    ((∀ p ∈ [mkProc 5 2, mkProc 0 4, mkProc 0 1],
        0 ≤ p.arrivalTime ∧ 0 < p.burstTime ∧ p.burstTime < INT_MAX) ∧
      FitsInt [mkProc 5 2, mkProc 0 4, mkProc 0 1]) ∧
    ∃ u r, SjfUnsortedReturns32 [mkProc 5 2, mkProc 0 4, mkProc 0 1] u ∧
      SjfReturns32 [mkProc 5 2, mkProc 0 4, mkProc 0 1] r ∧ u.length = r.length ∧
      total_turnaround32 u = total_turnaround32 r ∧
      total_waiting32 u = total_waiting32 r ∧
      total_response32 u = total_response32 r ∧
      calculate_metrics32 u = calculate_metrics32 r ∧
      ∃ N, ∀ fuel, N ≤ fuel →
        sjf_metrics_unsorted32 fuel [mkProc 5 2, mkProc 0 4, mkProc 0 1] =
          some (calculate_metrics32 r) ∧
        sjf_metrics32 fuel [mkProc 5 2, mkProc 0 4, mkProc 0 1] =
          some (calculate_metrics32 r) :=
  ⟨⟨by decide, by decide⟩,
    c19_sjf_presort_keeps_totals [mkProc 5 2, mkProc 0 4, mkProc 0 1] (by decide)
      (by decide)⟩

/-- C19, counterexample: the batch [(0,2147483639), (2,5), (1,5)] has arrivalTime >= 0
and burstTime > 0 (below `INT_MAX`).  Both loops end.  In both the last process completes
at the wrapped time -2147483647; on the sorted array that process has arrival time 2 and
its turnaround -2147483647 - 2 wraps to 2147483647, on the unsorted array it has arrival
time 1 and turnaround -2147483648.  The total turnaround is 6442450929 after the
pre-sort and 2147483633 without it, and the Metrics differ.  And on [(0,INT_MAX)], where
nothing overflows, neither loop ends. -/
theorem c19_overflow_counterexample :
    ((∀ p ∈ [mkProc 0 2147483639, mkProc 2 5, mkProc 1 5],
      0 ≤ p.arrivalTime ∧ 0 < p.burstTime ∧ p.burstTime < INT_MAX) ∧
    SjfUnsortedReturns32 [mkProc 0 2147483639, mkProc 2 5, mkProc 1 5]
      [⟨0, 2147483639, 0, 2147483639⟩, ⟨2, 5, 2147483639, 2147483644⟩,
        ⟨1, 5, 2147483644, -2147483647⟩] ∧
    SjfReturns32 [mkProc 0 2147483639, mkProc 2 5, mkProc 1 5]
      [⟨0, 2147483639, 0, 2147483639⟩, ⟨1, 5, 2147483639, 2147483644⟩,
        ⟨2, 5, 2147483644, -2147483647⟩] ∧
    total_turnaround32 [⟨0, 2147483639, 0, 2147483639⟩, ⟨2, 5, 2147483639, 2147483644⟩,
        ⟨1, 5, 2147483644, -2147483647⟩] = 2147483633 ∧
    total_turnaround32 [⟨0, 2147483639, 0, 2147483639⟩, ⟨1, 5, 2147483639, 2147483644⟩,
        ⟨2, 5, 2147483644, -2147483647⟩] = 6442450929 ∧
    (calculate_metrics32 [⟨0, 2147483639, 0, 2147483639⟩, ⟨2, 5, 2147483639, 2147483644⟩,
        ⟨1, 5, 2147483644, -2147483647⟩]).avgTurnaround = some (2147483633 / 3) ∧
    (calculate_metrics32 [⟨0, 2147483639, 0, 2147483639⟩, ⟨1, 5, 2147483639, 2147483644⟩,
        ⟨2, 5, 2147483644, -2147483647⟩]).avgTurnaround = some (6442450929 / 3)) ∧
    ((∀ p ∈ [mkProc 0 INT_MAX], 0 ≤ p.arrivalTime ∧ 0 < p.burstTime) ∧
      FitsInt [mkProc 0 INT_MAX] ∧
      ∀ fuel, sjf_schedule_unsorted32 fuel [mkProc 0 INT_MAX] = none ∧
        sjf_schedule32 fuel [mkProc 0 INT_MAX] = none) := by
  have t1 : total_turnaround32 [⟨0, 2147483639, 0, 2147483639⟩,
      ⟨2, 5, 2147483639, 2147483644⟩, ⟨1, 5, 2147483644, -2147483647⟩] = 2147483633 := by
    decide
  have t2 : total_turnaround32 [⟨0, 2147483639, 0, 2147483639⟩,
      ⟨1, 5, 2147483639, 2147483644⟩, ⟨2, 5, 2147483644, -2147483647⟩] = 6442450929 := by
    decide
  refine ⟨⟨by decide, sjfUnsortedReturns32_of_eval _ _ 3 (by decide),
    sjfReturns32_of_eval _ _ 3 (by decide), t1, t2, ?_, ?_⟩, by decide, by decide,
    fun fuel => ⟨sjf32_unsorted_never_returns _ (mkProc 0 INT_MAX)
      (List.mem_singleton.mpr rfl) (le_refl _) fuel,
      sjf32_never_returns _ (mkProc 0 INT_MAX) (List.mem_singleton.mpr rfl)
        (le_refl _) fuel⟩⟩
  · unfold calculate_metrics32
    rw [if_neg (by decide), t1]
    norm_num
  · unfold calculate_metrics32
    rw [if_neg (by decide), t2]
    norm_num

end Scheduler
